import Mathlib

/-!
Shallow embedding of the gamma game engine (src/src/gamma.c) and proofs of the
specification claims.

Conventions of the embedding:
* `uint32_t` / `uint64_t` / `uint8_t` values are `Nat`s; arithmetic that the C
  source performs on machine integers is performed with explicit `% 2^32`,
  `% 2^64`, `% 2^8` wrap (helpers `add32`, `sub32`, `add64`, `sub64`, `add8`).
* The board `field_t **board` is a total function `Nat → Nat → Field`
  (`board y x`, mirroring `board[y][x]`); the union-find parent pointer
  `field_t *parent` is the coordinate pair `(y, x)` of the parent cell.
* `fu_find`'s unbounded while-loop is given fuel `width * height`; under the
  acyclicity invariant (proved below for reachable states) the loop provably
  terminates within that fuel, so the embedding agrees with the C code.
* A possibly-NULL `gamma_t *` is an `Option Game`; functions that dereference
  without a NULL check take a `Game` directly.
* Heap allocation is modelled as always succeeding (the claims about
  `gamma_board` are conditioned on allocation success).
-/

namespace Gamma

/-- 2^32, the modulus of `uint32_t` arithmetic. -/
def U32 : Nat := 4294967296

/-- 2^64, the modulus of `uint64_t` arithmetic. -/
def U64 : Nat := 18446744073709551616

/-- 2^8, the modulus of `uint8_t` arithmetic. -/
def U8 : Nat := 256

/-- `uint32_t` addition. -/
def add32 (a b : Nat) : Nat := (a + b) % U32

/-- `uint32_t` subtraction (two's-complement wrap); `a` is a stored value `< 2^32`. -/
def sub32 (a b : Nat) : Nat := (a + (U32 - b % U32)) % U32

/-- `uint64_t` addition. -/
def add64 (a b : Nat) : Nat := (a + b) % U64

/-- `uint64_t` subtraction (two's-complement wrap); `a` is a stored value `< 2^64`. -/
def sub64 (a b : Nat) : Nat := (a + (U64 - b % U64)) % U64

/-- `uint8_t` addition. -/
def add8 (a b : Nat) : Nat := (a + b) % U8

/-- `uint32_t` decrement as the C source computes it for `column - 1` /
`row - 1` (wraps to 4294967295 at zero, which is then out of every board). -/
def u32dec (a : Nat) : Nat := (a + 4294967295) % U32

/-- A cell position, `(y, x)` = (row, column), mirroring `&board[y][x]`. -/
abbrev Pos := Nat × Nat

/-- `struct field` from gamma.c. -/
structure Field where
  empty : Bool
  rank : Nat
  player : Nat
  parent : Pos
deriving DecidableEq, Repr

/-- `struct player` from gamma.c. -/
structure Player where
  golden_move_done : Bool
  areas : Nat
  occupied_fields : Nat
  border_empty_fields : Nat
deriving DecidableEq, Repr

/-- `struct gamma` from gamma.c.  `players` is the player table indexed by
`p % players_num`; `board` is indexed `board y x` like `board[y][x]`. -/
structure Game where
  max_areas : Nat
  players_num : Nat
  height : Nat
  width : Nat
  occupied_fields : Nat
  players : Nat → Player
  board : Nat → Nat → Field

/-- Update one cell of the board. -/
def updBoard (g : Game) (y x : Nat) (f : Field → Field) : Game :=
  { g with board := fun y2 x2 => if y2 = y ∧ x2 = x then f (g.board y2 x2) else g.board y2 x2 }

/-- Update one player record. -/
def updPlayer (g : Game) (i : Nat) (f : Player → Player) : Game :=
  { g with players := fun j => if j = i then f (g.players j) else g.players j }

/-- `field->parent` of the cell at position `c`. -/
def parentOf (g : Game) (c : Pos) : Pos := (g.board c.1 c.2).parent

/-- Loop body of `fu_find` (path halving), with fuel.  Each iteration performs
`field->parent = field->parent->parent; field = field->parent;`. -/
def fuFindAux : Nat → Game → Pos → Game × Pos
  | 0, g, c => (g, c)
  | fuel + 1, g, c =>
    if parentOf g c = c then (g, c)
    else
      let gp := parentOf g (parentOf g c)
      let g1 := updBoard g c.1 c.2 (fun f => { f with parent := gp })
      fuFindAux fuel g1 gp

/-- `fu_find` from gamma.c.  The C while-loop is given fuel `width * height`,
enough for any acyclic parent forest over the board's cells. -/
def fuFind (g : Game) (c : Pos) : Game × Pos :=
  fuFindAux (g.width * g.height) g c

/-- Tail of `fu_union`: attach the root `y_root` under `x_root` and apply the
union-by-rank rank bump (`uint8_t` increment). -/
def fuAttach (g2 : Game) (x_root y_root : Pos) : Game :=
  let g3 := updBoard g2 y_root.1 y_root.2 (fun f => { f with parent := x_root })
  if (g3.board x_root.1 x_root.2).rank = (g3.board y_root.1 y_root.2).rank then
    updBoard g3 x_root.1 x_root.2 (fun f => { f with rank := add8 f.rank 1 })
  else g3

/-- `fu_union` from gamma.c (union by rank). -/
def fuUnion (g : Game) (a b : Pos) : Game × Bool :=
  let r1 := fuFind g a
  let r2 := fuFind r1.1 b
  if r1.2 = r2.2 then (r2.1, false)
  else
    let swap := (r2.1.board r1.2.1 r1.2.2).rank < (r2.1.board r2.2.1 r2.2.2).rank
    (fuAttach r2.1 (if swap then r2.2 else r1.2) (if swap then r1.2 else r2.2), true)

/-- `is_within_board` from gamma.c (signed 64-bit coordinates). -/
def is_within_board (g : Game) (x y : Int) : Bool :=
  0 ≤ x && 0 ≤ y && x < (g.width : Int) && y < (g.height : Int)

/-- The cell at signed coordinates (meaningful only when within the board). -/
def boardAt (g : Game) (x y : Int) : Field := g.board y.toNat x.toNat

/-- `belongs_to_player` from gamma.c. -/
def belongs_to_player (g : Game) (x y : Int) (player : Nat) : Bool :=
  is_within_board g x y && !(boardAt g x y).empty && (boardAt g x y).player = player

/-- `has_neighbor` from gamma.c. -/
def has_neighbor (g : Game) (x y : Int) (player : Nat) : Bool :=
  belongs_to_player g (x + 1) y player ||
  belongs_to_player g (x - 1) y player ||
  belongs_to_player g x (y + 1) player ||
  belongs_to_player g x (y - 1) player

/-- `get_field` from gamma.c (`NULL` out of bounds). -/
def get_field (g : Game) (x y : Int) : Option Field :=
  if is_within_board g x y then some (boardAt g x y) else none

/-- One step of `union_neighbors`: conditionally union the placed cell with a
neighbour candidate `(nx, ny, npos)`, threading state and merge counter. -/
def unionStep (player : Nat) (this_field : Pos) (s : Game × Nat) (c : Int × Int × Pos) :
    Game × Nat :=
  if belongs_to_player s.1 c.1 c.2.1 player then
    let r := fuUnion s.1 this_field c.2.2
    (r.1, s.2 + (if r.2 then 1 else 0))
  else s

/-- The four neighbour candidates of `union_neighbors`, in the source's order.
`column - 1` and `row - 1` are computed in `uint32_t` (wrapping to 4294967295
at zero, which is out of every board) before promotion to `int64_t`. -/
def unionCand (column row : Nat) : List (Int × Int × Pos) :=
  [ (((column + 1 : Nat) : Int), (row : Int), (row, column + 1)),
    (((u32dec column : Nat) : Int), (row : Int), (row, u32dec column)),
    ((column : Int), ((row + 1 : Nat) : Int), (row + 1, column)),
    ((column : Int), ((u32dec row : Nat) : Int), (u32dec row, column)) ]

/-- `union_neighbors` from gamma.c. -/
def union_neighbors (g : Game) (column row : Nat) : Game × Nat :=
  (unionCand column row).foldl (unionStep (g.board row column).player (row, column)) (g, 0)

/-- Indicator used by `new_border_empty_fields`: 1 when the cell at `(x, y)`
exists, is empty and has no neighbour owned by `player`. -/
def borderInd (g : Game) (x y : Int) (player : Nat) : Nat :=
  match get_field g x y with
  | none => 0
  | some f => if f.empty && !has_neighbor g x y player then 1 else 0

/-- `new_border_empty_fields` from gamma.c; the dx/dy double loop visits, in
order, `(x-1,y)`, `(x,y-1)`, `(x,y+1)`, `(x+1,y)`. -/
def new_border_empty_fields (g : Game) (x y : Int) (player : Nat) : Nat :=
  borderInd g (x - 1) y player + borderInd g x (y - 1) player +
  borderInd g x (y + 1) player + borderInd g (x + 1) y player

/-- Inner nulling pass of `decrement_neighbors_border_empty_fields`: every
remaining slot whose field's `player` equals `q` is set to `NULL`. -/
def nullOutPlayer (q : Nat) (l : List (Option Field)) : List (Option Field) :=
  l.map (fun o => match o with
    | some f2 => if f2.player = q then none else some f2
    | none => none)

/-- Outer loop of `decrement_neighbors_border_empty_fields`.  The fuel is
structural recursion bookkeeping only: the loop runs over at most 4 slots and
is always called with fuel = list length. -/
def decLoop : Nat → Game → List (Option Field) → Game
  | 0, g, _ => g
  | _ + 1, g, [] => g
  | fuel + 1, g, none :: rest => decLoop fuel g rest
  | fuel + 1, g, some f :: rest =>
    if f.empty then decLoop fuel g rest
    else
      let g1 := updPlayer g (f.player % g.players_num)
        (fun pr => { pr with border_empty_fields := sub64 pr.border_empty_fields 1 })
      decLoop fuel g1 (nullOutPlayer f.player rest)

/-- `decrement_neighbors_border_empty_fields` from gamma.c. -/
def decrement_neighbors_border_empty_fields (g : Game) (x y : Int) : Game :=
  decLoop 4 g [get_field g (x + 1) y, get_field g (x - 1) y,
               get_field g x (y + 1), get_field g x (y - 1)]

/-- `would_exceed_areas_limit` from gamma.c. -/
def would_exceed_areas_limit (g : Game) (player x y : Nat) : Bool :=
  (g.players (player % g.players_num)).areas = g.max_areas &&
  !has_neighbor g (x : Int) (y : Int) player

/-- Body of `gamma_game_move_arguments_valid` after the NULL check. -/
def moveArgumentsValidG (g : Game) (player x y : Nat) : Bool :=
  !(player = 0 || decide (g.players_num < player) || decide (g.width ≤ x) ||
    decide (g.height ≤ y) || !(g.board y x).empty ||
    would_exceed_areas_limit g player x y)

/-- `gamma_game_move_arguments_valid` from gamma.c. -/
def gamma_game_move_arguments_valid (g : Option Game) (player x y : Nat) : Bool :=
  match g with
  | none => false
  | some g => moveArgumentsValidG g player x y

/-- Success branch of `gamma_move`, in the statement order of the source. -/
def gammaMoveApply (g : Game) (player x y : Nat) : Game :=
  let player_index := player % g.players_num
  let border_empty_fields_to_add := new_border_empty_fields g (x : Int) (y : Int) player
  let g1 := updBoard g y x (fun f => { f with player := player })
  let g2 := updBoard g1 y x (fun f => { f with empty := false })
  let g3 := { g2 with occupied_fields := add64 g2.occupied_fields 1 }
  let g4 := updPlayer g3 player_index (fun pr => { pr with areas := add32 pr.areas 1 })
  let g5 := updPlayer g4 player_index
    (fun pr => { pr with occupied_fields := add64 pr.occupied_fields 1 })
  let r := union_neighbors g5 x y
  let g6 := updPlayer r.1 player_index (fun pr => { pr with areas := sub32 pr.areas r.2 })
  let g7 := updPlayer g6 player_index
    (fun pr => { pr with border_empty_fields := (add64 pr.border_empty_fields border_empty_fields_to_add) })
  decrement_neighbors_border_empty_fields g7 (x : Int) (y : Int)

/-- `gamma_move` from gamma.c, on a non-NULL game; returns the C result
together with the state after the call. -/
def gammaMoveG (g : Game) (player x y : Nat) : Bool × Game :=
  if !moveArgumentsValidG g player x y then (false, g)
  else (true, gammaMoveApply g player x y)

/-- `gamma_move` from gamma.c (NULL-checked interface). -/
def gamma_move (g : Option Game) (player x y : Nat) : Bool × Option Game :=
  match g with
  | none => (false, none)
  | some g => let r := gammaMoveG g player x y; (r.1, some r.2)

/-- Row-major list of all cell positions, the iteration order of the
`for row { for column }` loops of `reset_find_union_metadata` / `reindex_areas`. -/
def cellList (g : Game) : List Pos :=
  (List.range g.height).flatMap (fun row => (List.range g.width).map (fun col => (row, col)))

/-- Per-cell step of `reset_find_union_metadata`. -/
def resetCell (g : Game) (c : Pos) : Game :=
  if (g.board c.1 c.2).empty then g
  else
    let g1 := updBoard g c.1 c.2 (fun f => { f with parent := c })
    let g2 := updBoard g1 c.1 c.2 (fun f => { f with rank := 1 })
    let player_index := (g2.board c.1 c.2).player % g2.players_num
    updPlayer g2 player_index (fun pr => { pr with areas := add32 pr.areas 1 })

/-- `reset_find_union_metadata` from gamma.c. -/
def reset_find_union_metadata (g : Game) : Game :=
  (cellList g).foldl resetCell g

/-- Per-cell step of the second (union) pass of `reindex_areas`. -/
def reindexUnionCell (g : Game) (c : Pos) : Game :=
  if (g.board c.1 c.2).empty then g
  else
    let player_index := (g.board c.1 c.2).player % g.players_num
    let r := union_neighbors g c.2 c.1
    updPlayer r.1 player_index (fun pr => { pr with areas := sub32 pr.areas r.2 })

/-- `reindex_areas` from gamma.c: zero all area counters, rebuild the
union-find structure, and report whether every player is within `max_areas`. -/
def reindex_areas (g : Game) : Game × Bool :=
  let g0 := (List.range g.players_num).foldl
    (fun g p => updPlayer g p (fun pr => { pr with areas := 0 })) g
  let g1 := reset_find_union_metadata g0
  let g2 := (cellList g1).foldl reindexUnionCell g1
  (g2, (List.range g2.players_num).all (fun p => !decide (g2.max_areas < (g2.players p).areas)))

/-- Body of `is_golden_move_impossible` after the NULL check. -/
def goldenImpossibleG (g : Game) (player x y : Nat) : Bool :=
  player = 0 || decide (g.players_num < player) || decide (g.width ≤ x) ||
  decide (g.height ≤ y) || (g.board y x).empty ||
  (g.board y x).player = player ||
  (g.players (player % g.players_num)).golden_move_done ||
  would_exceed_areas_limit g player x y

/-- `is_golden_move_impossible` from gamma.c. -/
def is_golden_move_impossible (g : Option Game) (player x y : Nat) : Bool :=
  match g with
  | none => true
  | some g => goldenImpossibleG g player x y

/-- Revert branch of `gamma_golden_move`: restore the previous owner and run
`reindex_areas` again. -/
def gammaGoldenRevert (gr : Game) (previous_player x y : Nat) : Game :=
  (reindex_areas (updBoard gr y x (fun f => { f with player := previous_player }))).1

/-- Success tail of `gamma_golden_move` (state after the second
`reindex_areas` succeeded), in the statement order of the source. -/
def gammaGoldenCommit (gr : Game) (player previous_player x y delta : Nat) : Game :=
  let player_index := player % gr.players_num
  let previous_player_index := previous_player % gr.players_num
  let g2 := updPlayer gr player_index
    (fun pr => { pr with occupied_fields := add64 pr.occupied_fields 1 })
  let g3 := updPlayer g2 player_index
    (fun pr => { pr with border_empty_fields := (add64 pr.border_empty_fields delta) })
  let g4 := updPlayer g3 player_index (fun pr => { pr with golden_move_done := true })
  let lost_border_empty_fields :=
    new_border_empty_fields g4 (x : Int) (y : Int) previous_player
  let g5 := updPlayer g4 previous_player_index
    (fun pr => { pr with occupied_fields := sub64 pr.occupied_fields 1 })
  updPlayer g5 previous_player_index
    (fun pr => { pr with border_empty_fields := (sub64 pr.border_empty_fields lost_border_empty_fields) })

/-- Body of `gamma_golden_move` after the feasibility check passed. -/
def gammaGoldenApply (g : Game) (player x y : Nat) : Bool × Game :=
  let border_empty_fields_to_add := new_border_empty_fields g (x : Int) (y : Int) player
  let previous_player := (g.board y x).player
  let g1 := updBoard g y x (fun f => { f with player := player })
  let r := reindex_areas g1
  if !r.2 then (false, gammaGoldenRevert r.1 previous_player x y)
  else (true, gammaGoldenCommit r.1 player previous_player x y border_empty_fields_to_add)

/-- `gamma_golden_move` from gamma.c, on a non-NULL game. -/
def gammaGoldenMoveG (g : Game) (player x y : Nat) : Bool × Game :=
  if goldenImpossibleG g player x y then (false, g)
  else gammaGoldenApply g player x y

/-- `gamma_golden_move` from gamma.c (NULL-checked interface). -/
def gamma_golden_move (g : Option Game) (player x y : Nat) : Bool × Option Game :=
  match g with
  | none => (false, none)
  | some g => let r := gammaGoldenMoveG g player x y; (r.1, some r.2)

/-- `gamma_busy_fields` from gamma.c. -/
def gamma_busy_fields (g : Option Game) (player : Nat) : Nat :=
  match g with
  | none => 0
  | some g =>
    if player = 0 || decide (g.players_num < player) then 0
    else (g.players (player % g.players_num)).occupied_fields

/-- `gamma_free_fields` from gamma.c.  Note `g->width * g->height` is a
`uint32_t * uint32_t` product, performed modulo 2^32 before the widening
assignment to the `uint64_t` local `total_fields`. -/
def gamma_free_fields (g : Option Game) (player : Nat) : Nat :=
  match g with
  | none => 0
  | some g =>
    if player = 0 || decide (g.players_num < player) then 0
    else
      let player_index := player % g.players_num
      if (g.players player_index).areas < g.max_areas then
        let total_fields := (g.width * g.height) % U32
        sub64 total_fields g.occupied_fields
      else (g.players player_index).border_empty_fields

/-- `gamma_golden_possible` from gamma.c. -/
def gamma_golden_possible (g : Option Game) (player : Nat) : Bool :=
  match g with
  | none => false
  | some g =>
    if player = 0 || decide (g.players_num < player) then false
    else
      let player_index := player % g.players_num
      if (g.players player_index).golden_move_done then false
      else (List.range g.players_num).any
        (fun p => decide (0 < (g.players p).occupied_fields) && !decide (p = player_index))

/-- Loop of `get_uint_length`, with structural fuel (64 suffices for every
`uint64_t` argument, which has at most 20 decimal digits). -/
def get_uint_length_aux : Nat → Nat → Nat
  | 0, _ => 1
  | fuel + 1, value => if value > 9 then get_uint_length_aux fuel (value / 10) + 1 else 1

/-- `get_uint_length` from gamma.c (number of decimal digits of a `uint64_t`). -/
def get_uint_length (value : Nat) : Nat := get_uint_length_aux 64 value

/-- Right-align a string in a field of the given minimum width, the behaviour
of `sprintf("%*c", ...)` / `sprintf("%*u", ...)`. -/
def padLeft (w : Nat) (s : String) : String :=
  String.mk (List.replicate (w - s.length) ' ') ++ s

/-- `gamma_render_field`: the text written into the caller's buffer and the
number of characters written, translated from gamma.c lines 527–538.

The third component is the owner id report (0 for an empty cell).
Modelled from the spec: the `player_number` out-parameter of
`gamma_render_field` is declared in gamma.h (lines 165–167) and consumed by
interactive_mode.c, but the gamma.c snapshot in src/ carries the 6-parameter
variant without it; the spec says the primitive "also reports the owner
(0 if empty)". -/
def gamma_render_field (g : Game) (x y field_width : Nat) : String × Nat × Nat :=
  let s :=
    if (g.board y x).empty then padLeft field_width "."
    else padLeft field_width (Nat.repr (g.board y x).player)
  (s, s.length, if (g.board y x).empty then 0 else (g.board y x).player)

/-- `gamma_rendered_fields_width` from gamma.c; returns
`(first_column_width, field_width)`. -/
def gamma_rendered_fields_width (g : Game) : Nat × Nat :=
  let max_player := (List.range g.players_num).foldl
    (fun acc i =>
      let p := i + 1
      if 0 < (g.players (p % g.players_num)).occupied_fields ∧ acc < p then p else acc) 1
  let min_width := get_uint_length max_player
  let field_width := if min_width = 1 then 1 else min_width + 1
  let max_player_first_column := (List.range g.height).foldl
    (fun acc r =>
      if !(g.board r 0).empty ∧ acc < (g.board r 0).player then (g.board r 0).player else acc) 1
  (get_uint_length max_player_first_column, field_width)

/-- One row of `gamma_board`'s output (columns ascending, trailing newline). -/
def boardRow (g : Game) (first_column_width field_width y : Nat) : String :=
  ((List.range g.width).foldl
    (fun s x =>
      s ++ (gamma_render_field g x y (if x = 0 then first_column_width else field_width)).1)
    "") ++ "\n"

/-- `gamma_board` from gamma.c on a non-NULL game, with allocation modelled as
succeeding: rows are emitted from `y = height - 1` down to `y = 0`. -/
def gammaBoardG (g : Game) : String :=
  let w := gamma_rendered_fields_width g
  ((List.range g.height).reverse).foldl (fun s y => s ++ boardRow g w.1 w.2 y) ""

/-- `gamma_board` from gamma.c (NULL-checked interface). -/
def gamma_board (g : Option Game) : Option String :=
  match g with
  | none => none
  | some g => some (gammaBoardG g)

/-- `gamma_is_valid_player` from gamma.c. -/
def gamma_is_valid_player (g : Option Game) (player : Nat) : Bool :=
  match g with
  | none => false
  | some g => !(player = 0 || decide (g.players_num < player))

/-- `gamma_game_new_arguments_valid` from gamma.c. -/
def gamma_game_new_arguments_valid (width height players areas : Nat) : Bool :=
  !(width = 0 || height = 0 || players = 0 || areas = 0)

/-- `gamma_players_number` from gamma.c. -/
def gamma_players_number (g : Option Game) : Nat :=
  match g with
  | none => 0
  | some g => g.players_num

/-- `gamma_board_width` from gamma.c. -/
def gamma_board_width (g : Option Game) : Nat :=
  match g with
  | none => 0
  | some g => g.width

/-- `gamma_board_height` from gamma.c. -/
def gamma_board_height (g : Option Game) : Nat :=
  match g with
  | none => 0
  | some g => g.height

/-- `gamma_game_golden_move_arguments_valid` from gamma.c. -/
def gamma_game_golden_move_arguments_valid (g : Option Game) (player x y : Nat) : Bool :=
  !is_golden_move_impossible g player x y

/-- The freshly constructed game of `gamma_new` (valid arguments, allocation
succeeding): counters zero (`calloc`), every cell empty with rank 1 and
self-parent (`allocate_board`). -/
def gammaNewG (width height players areas : Nat) : Game :=
  { max_areas := areas
    players_num := players
    height := height
    width := width
    occupied_fields := 0
    players := fun _ => { golden_move_done := false, areas := 0,
                          occupied_fields := 0, border_empty_fields := 0 }
    board := fun y x => { empty := true, rank := 1, player := 0, parent := (y, x) } }

/-- `gamma_new` from gamma.c (allocation modelled as succeeding). -/
def gamma_new (width height players areas : Nat) : Option Game :=
  if !gamma_game_new_arguments_valid width height players areas then none
  else some (gammaNewG width height players areas)

/-- Game states reachable from a constructed game by any sequence of
`gamma_move` / `gamma_golden_move` calls.  Constructor arguments are
`uint32_t` values (`< 2^32`); move arguments need no bound because every value
`≥ 2^32` is rejected by the argument validation exactly like its in-range
representative would not be. -/
inductive Reachable : Game → Prop
  | new (width height players areas : Nat)
      (hw : 0 < width) (hh : 0 < height) (hp : 0 < players) (ha : 0 < areas)
      (hw32 : width < U32) (hh32 : height < U32) (hp32 : players < U32) (ha32 : areas < U32) :
      Reachable (gammaNewG width height players areas)
  | move (g : Game) (player x y : Nat) (h : Reachable g) :
      Reachable (gammaMoveG g player x y).2
  | golden (g : Game) (player x y : Nat) (h : Reachable g) :
      Reachable (gammaGoldenMoveG g player x y).2

/-! ### Basic update lemmas -/

theorem updBoard_board (g : Game) (y x : Nat) (f : Field → Field) (y2 x2 : Nat) :
    (updBoard g y x f).board y2 x2 =
      if y2 = y ∧ x2 = x then f (g.board y2 x2) else g.board y2 x2 := rfl

theorem updBoard_players (g : Game) (y x : Nat) (f : Field → Field) :
    (updBoard g y x f).players = g.players := rfl

theorem updBoard_height (g : Game) (y x : Nat) (f : Field → Field) :
    (updBoard g y x f).height = g.height := rfl

theorem updBoard_width (g : Game) (y x : Nat) (f : Field → Field) :
    (updBoard g y x f).width = g.width := rfl

theorem updBoard_players_num (g : Game) (y x : Nat) (f : Field → Field) :
    (updBoard g y x f).players_num = g.players_num := rfl

theorem updBoard_max_areas (g : Game) (y x : Nat) (f : Field → Field) :
    (updBoard g y x f).max_areas = g.max_areas := rfl

theorem updBoard_occupied (g : Game) (y x : Nat) (f : Field → Field) :
    (updBoard g y x f).occupied_fields = g.occupied_fields := rfl

theorem updPlayer_players (g : Game) (i : Nat) (f : Player → Player) (j : Nat) :
    (updPlayer g i f).players j = if j = i then f (g.players j) else g.players j := rfl

theorem updPlayer_board (g : Game) (i : Nat) (f : Player → Player) :
    (updPlayer g i f).board = g.board := rfl

theorem updPlayer_height (g : Game) (i : Nat) (f : Player → Player) :
    (updPlayer g i f).height = g.height := rfl

theorem updPlayer_width (g : Game) (i : Nat) (f : Player → Player) :
    (updPlayer g i f).width = g.width := rfl

theorem updPlayer_players_num (g : Game) (i : Nat) (f : Player → Player) :
    (updPlayer g i f).players_num = g.players_num := rfl

theorem updPlayer_max_areas (g : Game) (i : Nat) (f : Player → Player) :
    (updPlayer g i f).max_areas = g.max_areas := rfl

theorem updPlayer_occupied (g : Game) (i : Nat) (f : Player → Player) :
    (updPlayer g i f).occupied_fields = g.occupied_fields := rfl

/-- `g1` agrees with `g2` everywhere except possibly in union-find metadata
(cell `parent` and `rank`). -/
def UFonly (g1 g2 : Game) : Prop :=
  g1.max_areas = g2.max_areas ∧ g1.players_num = g2.players_num ∧
  g1.height = g2.height ∧ g1.width = g2.width ∧
  g1.occupied_fields = g2.occupied_fields ∧ g1.players = g2.players ∧
  ∀ y x, (g1.board y x).player = (g2.board y x).player ∧
         (g1.board y x).empty = (g2.board y x).empty

theorem UFonly_refl (g : Game) : UFonly g g :=
  ⟨rfl, rfl, rfl, rfl, rfl, rfl, fun _ _ => ⟨rfl, rfl⟩⟩

theorem UFonly_trans {g1 g2 g3 : Game} (h1 : UFonly g1 g2) (h2 : UFonly g2 g3) :
    UFonly g1 g3 := by
  obtain ⟨a1, b1, c1, d1, e1, f1, k1⟩ := h1
  obtain ⟨a2, b2, c2, d2, e2, f2, k2⟩ := h2
  refine ⟨a1.trans a2, b1.trans b2, c1.trans c2, d1.trans d2, e1.trans e2, f1.trans f2, ?_⟩
  intro y x
  exact ⟨(k1 y x).1.trans (k2 y x).1, (k1 y x).2.trans (k2 y x).2⟩

theorem UFonly_updBoard_parent (g : Game) (y x : Nat) (p : Pos) :
    UFonly (updBoard g y x (fun f => { f with parent := p })) g := by
  refine ⟨rfl, rfl, rfl, rfl, rfl, rfl, fun y2 x2 => ?_⟩
  simp only [updBoard_board]
  split <;> simp

theorem UFonly_updBoard_rank (g : Game) (y x : Nat) (r : Field → Nat) :
    UFonly (updBoard g y x (fun f => { f with rank := r f })) g := by
  refine ⟨rfl, rfl, rfl, rfl, rfl, rfl, fun y2 x2 => ?_⟩
  simp only [updBoard_board]
  split <;> simp

theorem fuFindAux_UFonly (n : Nat) (g : Game) (c : Pos) :
    UFonly (fuFindAux n g c).1 g := by
  induction n generalizing g c with
  | zero => exact UFonly_refl g
  | succ n ih =>
    rw [fuFindAux]
    split
    · exact UFonly_refl g
    · exact UFonly_trans (ih _ _) (UFonly_updBoard_parent g c.1 c.2 _)

theorem fuFind_UFonly (g : Game) (c : Pos) : UFonly (fuFind g c).1 g :=
  fuFindAux_UFonly _ g c

theorem fuAttach_UFonly (g : Game) (a b : Pos) : UFonly (fuAttach g a b) g := by
  rw [fuAttach]
  split
  · exact UFonly_trans (UFonly_updBoard_rank _ _ _ _) (UFonly_updBoard_parent _ _ _ _)
  · exact UFonly_updBoard_parent _ _ _ _

theorem fuUnion_UFonly (g : Game) (a b : Pos) : UFonly (fuUnion g a b).1 g := by
  rw [fuUnion]
  have h12 : UFonly (fuFind (fuFind g a).1 b).1 g :=
    UFonly_trans (fuFind_UFonly (fuFind g a).1 b) (fuFind_UFonly g a)
  split
  · exact h12
  · exact UFonly_trans (fuAttach_UFonly _ _ _) h12

theorem unionStep_UFonly (player : Nat) (tf : Pos) (s : Game × Nat) (c : Int × Int × Pos) :
    UFonly (unionStep player tf s c).1 s.1 := by
  rw [unionStep]
  split
  · exact fuUnion_UFonly _ _ _
  · exact UFonly_refl _

theorem foldl_unionStep_UFonly (player : Nat) (tf : Pos) (l : List (Int × Int × Pos))
    (s : Game × Nat) : UFonly (l.foldl (unionStep player tf) s).1 s.1 := by
  induction l generalizing s with
  | nil => exact UFonly_refl _
  | cons c rest ih =>
    exact UFonly_trans (ih (unionStep player tf s c)) (unionStep_UFonly player tf s c)

theorem union_neighbors_UFonly (g : Game) (column row : Nat) :
    UFonly (union_neighbors g column row).1 g :=
  foldl_unionStep_UFonly _ _ _ (g, 0)

/-- `g1` agrees with `g2` everywhere except possibly in the player table. -/
def PlayersOnly (g1 g2 : Game) : Prop :=
  g1.max_areas = g2.max_areas ∧ g1.players_num = g2.players_num ∧
  g1.height = g2.height ∧ g1.width = g2.width ∧
  g1.occupied_fields = g2.occupied_fields ∧ g1.board = g2.board

theorem PlayersOnly_refl (g : Game) : PlayersOnly g g := ⟨rfl, rfl, rfl, rfl, rfl, rfl⟩

theorem PlayersOnly_trans {g1 g2 g3 : Game} (h1 : PlayersOnly g1 g2)
    (h2 : PlayersOnly g2 g3) : PlayersOnly g1 g3 := by
  obtain ⟨a1, b1, c1, d1, e1, f1⟩ := h1
  obtain ⟨a2, b2, c2, d2, e2, f2⟩ := h2
  exact ⟨a1.trans a2, b1.trans b2, c1.trans c2, d1.trans d2, e1.trans e2, f1.trans f2⟩

theorem updPlayer_PlayersOnly (g : Game) (i : Nat) (f : Player → Player) :
    PlayersOnly (updPlayer g i f) g := ⟨rfl, rfl, rfl, rfl, rfl, rfl⟩

theorem decLoop_PlayersOnly : ∀ (fuel : Nat) (g : Game) (l : List (Option Field)),
    PlayersOnly (decLoop fuel g l) g := by
  intro fuel
  induction fuel with
  | zero => intro g l; rw [decLoop]; exact PlayersOnly_refl g
  | succ n ih =>
    intro g l
    match l with
    | [] => rw [decLoop]; exact PlayersOnly_refl g
    | none :: rest => rw [decLoop]; exact ih g rest
    | some f :: rest =>
      rw [decLoop]
      split
      · exact ih g rest
      · exact PlayersOnly_trans (ih _ _) (updPlayer_PlayersOnly _ _ _)

theorem decrement_neighbors_PlayersOnly (g : Game) (x y : Int) :
    PlayersOnly (decrement_neighbors_border_empty_fields g x y) g :=
  decLoop_PlayersOnly 4 g _

/-! ### C3: characterisation of `gamma_move` -/

/-- The cell at signed coordinates `(x, y)` lies on the board and is owned by
`player` (spec-side formulation of "a 4-neighbor of `(x, y)` is owned by
`player`" needs this for the four neighbours). -/
def ownedBy (g : Game) (x y : Int) (player : Nat) : Prop :=
  0 ≤ x ∧ 0 ≤ y ∧ x < (g.width : Int) ∧ y < (g.height : Int) ∧
  (g.board y.toNat x.toNat).empty = false ∧ (g.board y.toNat x.toNat).player = player

/-- Some 4-neighbor of `(x, y)` is owned by `player` (spec formulation). -/
def someNeighborOwnedBy (g : Game) (x y player : Nat) : Prop :=
  ownedBy g ((x : Int) + 1) (y : Int) player ∨ ownedBy g ((x : Int) - 1) (y : Int) player ∨
  ownedBy g (x : Int) ((y : Int) + 1) player ∨ ownedBy g (x : Int) ((y : Int) - 1) player

/-- The claim's validity predicate for `gamma_move` (spec formulation):
valid player id, coordinates within the board, the cell empty, and not
(the player is at the areas limit with no own neighbouring cell). -/
def moveLegalSpec (g : Game) (player x y : Nat) : Prop :=
  1 ≤ player ∧ player ≤ g.players_num ∧ x < g.width ∧ y < g.height ∧
  (g.board y x).empty = true ∧
  ¬((g.players (player % g.players_num)).areas = g.max_areas ∧
    ¬someNeighborOwnedBy g x y player)

theorem belongs_to_player_iff (g : Game) (x y : Int) (player : Nat) :
    belongs_to_player g x y player = true ↔ ownedBy g x y player := by
  simp only [belongs_to_player, is_within_board, boardAt, ownedBy, Bool.and_eq_true,
    Bool.not_eq_true', decide_eq_true_eq]
  tauto

theorem has_neighbor_iff (g : Game) (x y player : Nat) :
    has_neighbor g (x : Int) (y : Int) player = true ↔ someNeighborOwnedBy g x y player := by
  simp only [has_neighbor, Bool.or_eq_true, belongs_to_player_iff, someNeighborOwnedBy,
    or_assoc]

theorem moveArgumentsValidG_iff (g : Game) (player x y : Nat) :
    moveArgumentsValidG g player x y = true ↔ moveLegalSpec g player x y := by
  have hnb := has_neighbor_iff g x y player
  simp only [moveArgumentsValidG, would_exceed_areas_limit, moveLegalSpec,
    Bool.not_eq_true', Bool.or_eq_false_iff, decide_eq_false_iff_not, not_lt, not_le,
    Bool.not_eq_false', Bool.and_eq_false_iff]
  rw [hnb]
  constructor
  · rintro ⟨⟨⟨⟨⟨h1, h2⟩, h3⟩, h4⟩, h5⟩, h6⟩
    refine ⟨by omega, h2, h3, h4, h5, ?_⟩
    rintro ⟨ha, hn⟩
    rcases h6 with h6 | h6
    · exact h6 ha
    · exact hn h6
  · rintro ⟨h1, h2, h3, h4, h5, h6⟩
    refine ⟨⟨⟨⟨⟨by omega, h2⟩, h3⟩, h4⟩, h5⟩, ?_⟩
    by_cases ha : (g.players (player % g.players_num)).areas = g.max_areas
    · right
      by_contra hn
      exact h6 ⟨ha, hn⟩
    · left; exact ha

theorem gammaMoveG_fst (g : Game) (player x y : Nat) :
    (gammaMoveG g player x y).1 = moveArgumentsValidG g player x y := by
  rw [gammaMoveG]
  by_cases h : moveArgumentsValidG g player x y
  · simp [h]
  · simp only [Bool.not_eq_true] at h; simp [h]

theorem gammaMoveG_snd_invalid (g : Game) (player x y : Nat)
    (h : moveArgumentsValidG g player x y = false) :
    (gammaMoveG g player x y).2 = g := by
  rw [gammaMoveG, h]
  rfl

theorem gammaMoveG_snd_valid (g : Game) (player x y : Nat)
    (h : moveArgumentsValidG g player x y = true) :
    (gammaMoveG g player x y).2 = gammaMoveApply g player x y := by
  rw [gammaMoveG, h]
  rfl

theorem setOccupied_board (g : Game) (n : Nat) :
    ({ g with occupied_fields := n } : Game).board = g.board := rfl

theorem gammaMoveApply_board_cell (g : Game) (player x y : Nat) :
    ((gammaMoveApply g player x y).board y x).player = player ∧
    ((gammaMoveApply g player x y).board y x).empty = false := by
  simp only [gammaMoveApply]
  rw [(decrement_neighbors_PlayersOnly _ _ _).2.2.2.2.2]
  simp only [updPlayer_board]
  rw [((union_neighbors_UFonly _ x y).2.2.2.2.2.2 y x).1,
      ((union_neighbors_UFonly _ x y).2.2.2.2.2.2 y x).2]
  simp only [updPlayer_board, updBoard_board]
  simp

/-- C3: `gamma_move` returns `true` exactly on the claim's validity
predicate (with `NULL` rejected), and exactly then the target cell's owner
becomes `player` and the move is applied; on `false` the state is unchanged. -/
theorem claim_C3_gamma_move (g : Game) (player x y : Nat) :
    ((gammaMoveG g player x y).1 = true ↔ moveLegalSpec g player x y) ∧
    (gamma_move none player x y).1 = false ∧
    ((gammaMoveG g player x y).1 = true →
      ((gammaMoveG g player x y).2.board y x).player = player ∧
      ((gammaMoveG g player x y).2.board y x).empty = false) ∧
    ((gammaMoveG g player x y).1 = false → (gammaMoveG g player x y).2 = g) := by
  refine ⟨?_, rfl, ?_, ?_⟩
  · rw [gammaMoveG_fst]; exact moveArgumentsValidG_iff g player x y
  · intro h
    rw [gammaMoveG_fst] at h
    rw [gammaMoveG_snd_valid g player x y h]
    exact gammaMoveApply_board_cell g player x y
  · intro h
    rw [gammaMoveG_fst] at h
    exact gammaMoveG_snd_invalid g player x y h

/-- C3 witness: on the fresh 4×2 game, `gamma_move 1 0 0` is legal per the
claim's predicate and applies; `gamma_move` with player 0 is rejected. -/
theorem claim_C3_gamma_move_witness :
    (gammaMoveG (gammaNewG 4 2 2 3) 1 0 0).1 = true ∧
    ((gammaMoveG (gammaNewG 4 2 2 3) 1 0 0).2.board 0 0).player = 1 := by
  have h := claim_C3_gamma_move (gammaNewG 4 2 2 3) 1 0 0
  have h1 : (gammaMoveG (gammaNewG 4 2 2 3) 1 0 0).1 = true := by decide
  exact ⟨h1, (h.2.2.1 h1).1⟩

/-! ### C7: characterisation of `gamma_golden_possible` -/

/-- The claim's predicate for `gamma_golden_possible`: valid player id, the
player's golden move unused, and some other player owning at least one cell. -/
def goldenPossibleSpec (g : Game) (player : Nat) : Prop :=
  1 ≤ player ∧ player ≤ g.players_num ∧
  (g.players (player % g.players_num)).golden_move_done = false ∧
  ∃ q, 1 ≤ q ∧ q ≤ g.players_num ∧ q ≠ player ∧
    0 < (g.players (q % g.players_num)).occupied_fields

theorem mod_players_inj {n a b : Nat} (ha1 : 1 ≤ a) (ha2 : a ≤ n) (hb1 : 1 ≤ b)
    (hb2 : b ≤ n) (h : a % n = b % n) : a = b := by
  rcases Nat.lt_or_eq_of_le ha2 with ha | ha
  · rcases Nat.lt_or_eq_of_le hb2 with hb | hb
    · rwa [Nat.mod_eq_of_lt ha, Nat.mod_eq_of_lt hb] at h
    · subst hb; rw [Nat.mod_eq_of_lt ha, Nat.mod_self] at h; omega
  · subst ha
    rcases Nat.lt_or_eq_of_le hb2 with hb | hb
    · rw [Nat.mod_self, Nat.mod_eq_of_lt hb] at h; omega
    · omega

theorem goldenImpossibleG_oob_x (g : Game) (player x y : Nat) (h : g.width ≤ x) :
    goldenImpossibleG g player x y = true := by
  simp only [goldenImpossibleG, Bool.or_eq_true, decide_eq_true_eq]
  tauto

theorem goldenImpossibleG_oob_y (g : Game) (player x y : Nat) (h : g.height ≤ y) :
    goldenImpossibleG g player x y = true := by
  simp only [goldenImpossibleG, Bool.or_eq_true, decide_eq_true_eq]
  tauto

/-- A 3×1 board with `max_areas = 1`: player 1 on (0,0), player 2 on (2,0).
`gamma_golden_possible 1` holds here although every concrete golden move by
player 1 is rejected. -/
def goldenDemoState : Game :=
  (gammaMoveG (gammaMoveG (gammaNewG 3 1 2 1) 1 0 0).2 2 2 0).2

/-- C7: `gamma_golden_possible` returns `true` exactly when the player id is
valid, the player's golden move is unused and some other player occupies a
cell (`NULL` rejected); it does not require a concrete golden move to
succeed — on `goldenDemoState` it answers `true` while every
`gamma_golden_move` by player 1 returns `false`. -/
theorem gamma_golden_possible_iff (g : Game) (player : Nat) :
    gamma_golden_possible (some g) player = true ↔ goldenPossibleSpec g player := by
  simp only [gamma_golden_possible]
  split_ifs with h1 h2
  · simp only [Bool.or_eq_true, decide_eq_true_eq] at h1
    simp only [Bool.false_eq_true, false_iff, goldenPossibleSpec]
    rintro ⟨k1, k2, -, -⟩
    rcases h1 with h | h <;> omega
  · simp only [Bool.false_eq_true, false_iff, goldenPossibleSpec]
    rintro ⟨-, -, hdd, -⟩
    rw [h2] at hdd
    cases hdd
  · simp only [Bool.or_eq_true, decide_eq_true_eq, not_or] at h1
    simp only [Bool.not_eq_true] at h2
    simp only [List.any_eq_true, List.mem_range, Bool.and_eq_true, decide_eq_true_eq,
      Bool.not_eq_true', decide_eq_false_iff_not, goldenPossibleSpec]
    constructor
    · rintro ⟨i, hi, hocc, hne⟩
      refine ⟨by omega, by omega, h2, ?_⟩
      by_cases hi0 : i = 0
      · refine ⟨g.players_num, by omega, Nat.le_refl _, ?_, ?_⟩
        · intro hqe
          exact hne (by rw [hi0, ← hqe, Nat.mod_self])
        · rw [Nat.mod_self]; exact hi0 ▸ hocc
      · refine ⟨i, by omega, by omega, ?_, ?_⟩
        · intro hqe
          rw [← hqe, Nat.mod_eq_of_lt hi] at hne
          exact hne rfl
        · rw [Nat.mod_eq_of_lt hi]; exact hocc
    · rintro ⟨k1, k2, -, q, hq1, hq2, hqne, hocc⟩
      refine ⟨q % g.players_num, Nat.mod_lt _ (by omega), hocc, ?_⟩
      intro he
      exact hqne (mod_players_inj hq1 hq2 k1 k2 he)

/-- C7: `gamma_golden_possible` returns `true` exactly when the player id is
valid, the player's golden move is unused and some other player occupies a
cell (`NULL` rejected); it does not require a concrete golden move to
succeed — on `goldenDemoState` it answers `true` while every
`gamma_golden_move` by player 1 returns `false`. -/
theorem claim_C7_gamma_golden_possible (g : Game) (player : Nat) :
    (gamma_golden_possible (some g) player = true ↔ goldenPossibleSpec g player) ∧
    gamma_golden_possible none player = false ∧
    gamma_golden_possible (some goldenDemoState) 1 = true ∧
    ∀ x y : Nat, (gammaGoldenMoveG goldenDemoState 1 x y).1 = false := by
  refine ⟨gamma_golden_possible_iff g player, rfl, by decide, ?_⟩
  intro x y
  rw [gammaGoldenMoveG]
  by_cases hx : x < 3
  · by_cases hy : y < 1
    · interval_cases x <;> interval_cases y <;> decide
    · rw [goldenImpossibleG_oob_y goldenDemoState 1 x y
        (by rw [show goldenDemoState.height = 1 by rfl]; omega)]
      rfl
  · rw [goldenImpossibleG_oob_x goldenDemoState 1 x y
      (by rw [show goldenDemoState.width = 3 by rfl]; omega)]
    rfl

/-! ### C4: `gamma_free_fields` and the unwidened `u32 × u32` product -/

/-- C4 failing input: on the freshly constructed 65536×65536 board with one
player and `max_areas = 1`, the player's area count (0) is below the limit, so
the claim requires `width·height − occupied_fields = 2^32 − 0 = 4294967296`;
the code computes `g->width * g->height` in 32-bit arithmetic, wrapping to 0,
and returns 0. -/
theorem claim_C4_free_fields_overflow :
    gamma_free_fields (gamma_new 65536 65536 1 1) 1 = 0 ∧
    (0 : Nat) ≠ 65536 * 65536 - 0 := by
  constructor
  · decide
  · decide

/-! ### C9: `gamma_render_field` -/

/-- The claim's description of the single-cell renderer: the cell text
right-aligned in the field width (`.` if empty, the decimal owner id
otherwise), the number of characters written, and the owner id (0 if empty).
The owner-id report is the spec-modelled `player_number` out-parameter. -/
def renderCellSpec (g : Game) (x y w : Nat) : String × Nat × Nat :=
  let content := if (g.board y x).empty then "." else Nat.repr (g.board y x).player
  (String.mk (List.replicate (w - content.length) ' ') ++ content,
   max w content.length,
   if (g.board y x).empty then 0 else (g.board y x).player)

theorem padLeft_length (w : Nat) (s : String) : (padLeft w s).length = max w s.length := by
  simp only [padLeft, String.length_append]
  have h : (String.mk (List.replicate (w - s.length) ' ')).length = w - s.length :=
    List.length_replicate _ _
  rw [h]
  omega

/-- C9: for every in-bounds cell and every field width, `gamma_render_field`
produces exactly the claim's rendering, written-character count and owner
report. -/
theorem claim_C9_gamma_render_field (g : Game) (x y w : Nat)
    (hx : x < g.width) (hy : y < g.height) :
    gamma_render_field g x y w = renderCellSpec g x y w := by
  rw [gamma_render_field, renderCellSpec]
  by_cases he : (g.board y x).empty
  · simp only [he, if_true]
    rw [padLeft_length]
    rfl
  · simp only [he, Bool.false_eq_true, if_false]
    rw [padLeft_length]
    rfl

/-- C9 witness: the 1×1 empty board rendered at width 3. -/
theorem claim_C9_gamma_render_field_witness :
    gamma_render_field (gammaNewG 1 1 1 1) 0 0 3 = renderCellSpec (gammaNewG 1 1 1 1) 0 0 3 :=
  claim_C9_gamma_render_field (gammaNewG 1 1 1 1) 0 0 3 (by decide) (by decide)

/-! ### C10: queries do not mutate the game state -/

/-- Stateful form of `gamma_busy_fields`: the body of the C function only
reads `g`, so the state it leaves behind is its argument. -/
def gamma_busy_fieldsS (g : Game) (player : Nat) : Nat × Game :=
  (gamma_busy_fields (some g) player, g)

/-- Stateful form of `gamma_free_fields` (reads only). -/
def gamma_free_fieldsS (g : Game) (player : Nat) : Nat × Game :=
  (gamma_free_fields (some g) player, g)

/-- Stateful form of `gamma_golden_possible` (reads only). -/
def gamma_golden_possibleS (g : Game) (player : Nat) : Bool × Game :=
  (gamma_golden_possible (some g) player, g)

/-- Stateful form of `gamma_board`: the renderer writes only into its own
freshly allocated buffer; it never calls `fu_find` and performs no assignment
through `g`. -/
def gamma_boardS (g : Game) : String × Game :=
  (gammaBoardG g, g)

/-- Stateful form of `gamma_board_width` (reads only). -/
def gamma_board_widthS (g : Game) : Nat × Game :=
  (gamma_board_width (some g), g)

/-- Stateful form of `gamma_board_height` (reads only). -/
def gamma_board_heightS (g : Game) : Nat × Game :=
  (gamma_board_height (some g), g)

/-- Stateful form of `gamma_players_number` (reads only). -/
def gamma_players_numberS (g : Game) : Nat × Game :=
  (gamma_players_number (some g), g)

/-- C10: every query leaves the state it was given — in particular every
cell's owner, emptiness flag, union-find parent and rank, and every player's
counters are those of the argument state. -/
theorem claim_C10_queries_pure (g : Game) (player : Nat) :
    (gamma_busy_fieldsS g player).2 = g ∧
    (gamma_free_fieldsS g player).2 = g ∧
    (gamma_golden_possibleS g player).2 = g ∧
    (gamma_boardS g).2 = g ∧
    (gamma_board_widthS g).2 = g ∧
    (gamma_board_heightS g).2 = g ∧
    (gamma_players_numberS g).2 = g :=
  ⟨rfl, rfl, rfl, rfl, rfl, rfl, rfl⟩

/-! ### Cell sets -/

/-- All board positions `(y, x)`. -/
def cellsF (g : Game) : Finset Pos := Finset.range g.height ×ˢ Finset.range g.width

theorem mem_cellsF (g : Game) (c : Pos) : c ∈ cellsF g ↔ c.1 < g.height ∧ c.2 < g.width := by
  simp [cellsF, Finset.mem_product]

theorem card_cellsF (g : Game) : (cellsF g).card = g.height * g.width := by
  simp [cellsF]

/-- The cell `c` is on the board, occupied, and owned by `p`. -/
def inPB (g : Game) (p : Nat) (c : Pos) : Bool :=
  decide (c.1 < g.height) && decide (c.2 < g.width) &&
  !(g.board c.1 c.2).empty && decide ((g.board c.1 c.2).player = p)

/-- The cells owned by player `p`. -/
def pcells (g : Game) (p : Nat) : Finset Pos :=
  (cellsF g).filter (fun c => inPB g p c = true)

theorem mem_pcells (g : Game) (p : Nat) (c : Pos) :
    c ∈ pcells g p ↔ c.1 < g.height ∧ c.2 < g.width ∧
      (g.board c.1 c.2).empty = false ∧ (g.board c.1 c.2).player = p := by
  simp only [pcells, Finset.mem_filter, mem_cellsF, inPB, Bool.and_eq_true,
    decide_eq_true_eq, Bool.not_eq_true']
  tauto

/-- The occupied cells of the board. -/
def occCells (g : Game) : Finset Pos :=
  (cellsF g).filter (fun c => (g.board c.1 c.2).empty = false)

theorem mem_occCells (g : Game) (c : Pos) :
    c ∈ occCells g ↔ c.1 < g.height ∧ c.2 < g.width ∧ (g.board c.1 c.2).empty = false := by
  simp only [occCells, Finset.mem_filter, mem_cellsF]
  tauto

/-- The four neighbour candidates of a position; at a zero coordinate the
truncated entry coincides with the position itself and is harmless (it is
never owned when the position is empty, and self-membership adds nothing to
connectivity). -/
def nbrCand (a : Pos) : List Pos :=
  [(a.1, a.2 + 1), (a.1 + 1, a.2), (a.1, a.2 - 1), (a.1 - 1, a.2)]

theorem mem_nbrCand_symm {a b : Pos} (h : a ≠ b) : b ∈ nbrCand a ↔ a ∈ nbrCand b := by
  obtain ⟨ay, ax⟩ := a
  obtain ⟨by_, bx⟩ := b
  simp only [nbrCand, List.mem_cons, List.mem_singleton, List.not_mem_nil, or_false,
    Prod.mk.injEq, Ne, not_and] at *
  try omega

/-- The empty cells bordering player `p`'s territory: empty, with at least one
4-neighbour owned by `p`. -/
def borderB (g : Game) (p : Nat) (c : Pos) : Bool :=
  (g.board c.1 c.2).empty && (nbrCand c).any (fun d => inPB g p d)

def borderCells (g : Game) (p : Nat) : Finset Pos :=
  (cellsF g).filter (fun c => borderB g p c = true)

theorem mem_borderCells (g : Game) (p : Nat) (c : Pos) :
    c ∈ borderCells g p ↔ (c.1 < g.height ∧ c.2 < g.width) ∧
      (g.board c.1 c.2).empty = true ∧ ∃ d ∈ nbrCand c, inPB g p d = true := by
  simp only [borderCells, Finset.mem_filter, mem_cellsF, borderB, Bool.and_eq_true,
    List.any_eq_true]
  try tauto

/-! ### Connectivity as a bounded closure computation -/

/-- One breadth step: add every `p`-cell with a neighbour already in `s`. -/
def grow (g : Game) (p : Nat) (s : Finset Pos) : Finset Pos :=
  s ∪ (pcells g p).filter (fun c => ((nbrCand c).any (fun d => decide (d ∈ s))) = true)

/-- The monochromatic component of `a` (plus `a` itself), computed as
`height * width` breadth steps — enough to reach the closure's fixpoint. -/
def closure (g : Game) (p : Nat) (a : Pos) : Finset Pos :=
  (grow g p)^[g.height * g.width] {a}

/-- `a` and `b` lie in one 4-connected monochromatic component of player `p`. -/
def connP (g : Game) (p : Nat) (a b : Pos) : Prop :=
  a ∈ pcells g p ∧ b ∈ closure g p a

theorem subset_grow (g : Game) (p : Nat) (s : Finset Pos) : s ⊆ grow g p s :=
  Finset.subset_union_left

theorem grow_mono (g : Game) (p : Nat) {s t : Finset Pos} (h : s ⊆ t) :
    grow g p s ⊆ grow g p t := by
  intro c hc
  rw [grow, Finset.mem_union] at hc ⊢
  rcases hc with hc | hc
  · exact Or.inl (h hc)
  · right
    rw [Finset.mem_filter] at hc ⊢
    refine ⟨hc.1, ?_⟩
    have := hc.2
    simp only [List.any_eq_true, decide_eq_true_eq] at this ⊢
    obtain ⟨d, hd1, hd2⟩ := this
    exact ⟨d, hd1, h hd2⟩

theorem grow_subset_union (g : Game) (p : Nat) (s : Finset Pos) :
    grow g p s ⊆ s ∪ pcells g p := by
  intro c hc
  rw [grow, Finset.mem_union] at hc
  rw [Finset.mem_union]
  rcases hc with hc | hc
  · exact Or.inl hc
  · exact Or.inr (Finset.mem_filter.mp hc).1

theorem mem_grow_of_nbr (g : Game) (p : Nat) (s : Finset Pos) {b c : Pos}
    (hb : b ∈ s) (hc : c ∈ pcells g p) (hadj : b ∈ nbrCand c) : c ∈ grow g p s := by
  rw [grow, Finset.mem_union]
  right
  rw [Finset.mem_filter]
  refine ⟨hc, ?_⟩
  simp only [List.any_eq_true, decide_eq_true_eq]
  exact ⟨b, hadj, hb⟩

theorem iterate_grow_mono_in_k (g : Game) (p : Nat) (s : Finset Pos) (k : Nat) :
    (grow g p)^[k] s ⊆ (grow g p)^[k + 1] s := by
  induction k generalizing s with
  | zero => simpa using subset_grow g p s
  | succ n ih =>
    rw [Function.iterate_succ_apply, Function.iterate_succ_apply]
    exact ih (grow g p s)

theorem iterate_grow_le (g : Game) (p : Nat) (s : Finset Pos) {j k : Nat} (h : j ≤ k) :
    (grow g p)^[j] s ⊆ (grow g p)^[k] s := by
  induction k with
  | zero => have : j = 0 := by omega
            subst this; exact Finset.Subset.refl _
  | succ n ih =>
    rcases Nat.lt_or_ge j (n + 1) with hj | hj
    · exact (ih (by omega)).trans (iterate_grow_mono_in_k g p s n)
    · have : j = n + 1 := by omega
      subst this; exact Finset.Subset.refl _

theorem iterate_grow_subset_union (g : Game) (p : Nat) (a : Pos) (k : Nat) :
    (grow g p)^[k] {a} ⊆ {a} ∪ pcells g p := by
  induction k with
  | zero => simp
  | succ n ih =>
    rw [Function.iterate_succ_apply']
    refine (grow_subset_union g p _).trans ?_
    intro c hc
    rw [Finset.mem_union] at hc
    rcases hc with hc | hc
    · exact ih hc
    · exact Finset.mem_union_right _ hc

theorem iterate_grow_stab (g : Game) (p : Nat) (s : Finset Pos) (k : Nat)
    (h : (grow g p)^[k + 1] s = (grow g p)^[k] s) :
    ∀ j, k ≤ j → (grow g p)^[j] s = (grow g p)^[k] s := by
  intro j hj
  induction j with
  | zero => have : k = 0 := by omega
            subst this; rfl
  | succ n ih =>
    rcases Nat.lt_or_ge k (n + 1) with hk | hk
    · have hn := ih (by omega)
      calc (grow g p)^[n + 1] s = grow g p ((grow g p)^[n] s) := Function.iterate_succ_apply' _ _ _
        _ = grow g p ((grow g p)^[k] s) := by rw [hn]
        _ = (grow g p)^[k + 1] s := (Function.iterate_succ_apply' _ _ _).symm
        _ = (grow g p)^[k] s := h
    · have : k = n + 1 := by omega
      subst this; rfl

theorem closure_fixed (g : Game) (p : Nat) (a : Pos) :
    grow g p (closure g p a) = closure g p a := by
  set M := g.height * g.width with hM
  by_cases hstep : ∃ k, k ≤ M ∧ (grow g p)^[k + 1] {a} = (grow g p)^[k] {a}
  · obtain ⟨k, hk, hfix⟩ := hstep
    have h1 := iterate_grow_stab g p {a} k hfix M hk
    rw [closure, ← hM, h1]
    calc grow g p ((grow g p)^[k] {a})
        = (grow g p)^[k + 1] {a} := (Function.iterate_succ_apply' _ _ _).symm
      _ = (grow g p)^[k] {a} := hfix
  · push_neg at hstep
    exfalso
    have hcard : ∀ k, k ≤ M + 1 → k + 1 ≤ ((grow g p)^[k] {a}).card := by
      intro k
      induction k with
      | zero => intro _; simp
      | succ n ih =>
        intro hn
        have hne : (grow g p)^[n + 1] {a} ≠ (grow g p)^[n] {a} := hstep n (by omega)
        have hsub := iterate_grow_mono_in_k g p ({a} : Finset Pos) n
        have hlt : ((grow g p)^[n] {a}).card < ((grow g p)^[n + 1] {a}).card :=
          Finset.card_lt_card (Finset.ssubset_iff_subset_ne.mpr ⟨hsub, (Ne.symm hne)⟩)
        have := ih (by omega)
        omega
    have hbound : ((grow g p)^[M + 1] {a}).card ≤ M + 1 := by
      have hsub := iterate_grow_subset_union g p a (M + 1)
      have h1 : (({a} : Finset Pos) ∪ pcells g p).card ≤ 1 + (pcells g p).card := by
        refine (Finset.card_union_le _ _).trans ?_
        simp
      have h2 : (pcells g p).card ≤ M := by
        rw [hM, ← card_cellsF]
        exact Finset.card_le_card (Finset.filter_subset _ _)
      have := Finset.card_le_card hsub
      omega
    have := hcard (M + 1) (by omega)
    omega

theorem self_mem_closure (g : Game) (p : Nat) (a : Pos) : a ∈ closure g p a := by
  have : a ∈ ({a} : Finset Pos) := Finset.mem_singleton_self a
  exact iterate_grow_le g p {a} (Nat.zero_le _) this

theorem closure_subset_union (g : Game) (p : Nat) (a : Pos) :
    closure g p a ⊆ {a} ∪ pcells g p :=
  iterate_grow_subset_union g p a _

theorem mem_closure_of_nbr (g : Game) (p : Nat) {a b c : Pos}
    (hb : b ∈ closure g p a) (hc : c ∈ pcells g p) (hadj : b ∈ nbrCand c) :
    c ∈ closure g p a := by
  have := mem_grow_of_nbr g p (closure g p a) hb hc hadj
  rwa [closure_fixed] at this

/-- Minimality of the closure: it is contained in any adjacency-closed set
containing `a`. -/
theorem closure_subset_closed (g : Game) (p : Nat) (a : Pos) (T : Finset Pos)
    (ha : a ∈ T)
    (hT : ∀ c ∈ pcells g p, (∃ d ∈ nbrCand c, d ∈ T) → c ∈ T) :
    closure g p a ⊆ T := by
  rw [closure]
  generalize g.height * g.width = k
  induction k with
  | zero => simpa using ha
  | succ n ih =>
    rw [Function.iterate_succ_apply']
    intro c hc
    rw [grow, Finset.mem_union] at hc
    rcases hc with hc | hc
    · exact ih hc
    · rw [Finset.mem_filter] at hc
      refine hT c hc.1 ?_
      have := hc.2
      simp only [List.any_eq_true, decide_eq_true_eq] at this
      obtain ⟨d, hd1, hd2⟩ := this
      exact ⟨d, hd1, ih hd2⟩

theorem closure_trans (g : Game) (p : Nat) {a b : Pos} (hb : b ∈ closure g p a) :
    closure g p b ⊆ closure g p a :=
  closure_subset_closed g p b (closure g p a) hb
    (fun c hc ⟨d, hd1, hd2⟩ => mem_closure_of_nbr g p hd2 hc hd1)

theorem closure_symm (g : Game) (p : Nat) {a b : Pos}
    (ha : a ∈ pcells g p) (hb : b ∈ closure g p a) : a ∈ closure g p b := by
  rw [closure] at hb
  generalize hk : g.height * g.width = k at hb
  clear hk
  induction k generalizing b with
  | zero =>
    simp only [Function.iterate_zero, id, Finset.mem_singleton] at hb
    subst hb
    exact self_mem_closure g p b
  | succ n ih =>
    rw [Function.iterate_succ_apply'] at hb
    rw [grow, Finset.mem_union] at hb
    rcases hb with hb | hb
    · exact ih hb
    · rw [Finset.mem_filter] at hb
      obtain ⟨hbp, hbd⟩ := hb
      simp only [List.any_eq_true, decide_eq_true_eq] at hbd
      obtain ⟨d, hd1, hd2⟩ := hbd
      have had : a ∈ closure g p d := ih hd2
      by_cases hdb : d = b
      · subst hdb; exact had
      · have hdpc : d ∈ pcells g p ∨ d = a := by
          have := iterate_grow_subset_union g p a n hd2
          rw [Finset.mem_union, Finset.mem_singleton] at this
          tauto
        have hbd' : b ∈ nbrCand d := (mem_nbrCand_symm (Ne.symm hdb)).mp hd1
        have hdp : d ∈ pcells g p := by
          rcases hdpc with h | h
          · exact h
          · subst h; exact ha
        have hdmem : d ∈ closure g p b :=
          mem_closure_of_nbr g p (self_mem_closure g p b) hdp hbd'
        exact closure_trans g p hdmem had

theorem connP_refl (g : Game) (p : Nat) {a : Pos} (ha : a ∈ pcells g p) : connP g p a a :=
  ⟨ha, self_mem_closure g p a⟩

theorem connP_mem_right (g : Game) (p : Nat) {a b : Pos} (h : connP g p a b)
    (hne : b ≠ a) : b ∈ pcells g p := by
  have := closure_subset_union g p a h.2
  rw [Finset.mem_union, Finset.mem_singleton] at this
  tauto

theorem connP_symm (g : Game) (p : Nat) {a b : Pos} (h : connP g p a b) : connP g p b a := by
  by_cases hab : b = a
  · subst hab; exact h
  · exact ⟨connP_mem_right g p h hab, closure_symm g p h.1 h.2⟩

theorem connP_trans (g : Game) (p : Nat) {a b c : Pos} (h1 : connP g p a b)
    (h2 : connP g p b c) : connP g p a c :=
  ⟨h1.1, closure_trans g p h1.2 h2.2⟩

/-! ### Components and their count -/

instance connP_dec (g : Game) (p : Nat) (a b : Pos) : Decidable (connP g p a b) :=
  inferInstanceAs (Decidable (_ ∧ _))

/-- The component of `c` among player `p`'s cells, as a cell set. -/
def compSet (g : Game) (p : Nat) (c : Pos) : Finset Pos :=
  (pcells g p).filter (fun d => connP g p c d)

/-- The distinct 4-connected monochromatic components of player `p`'s cells. -/
def components (g : Game) (p : Nat) : Finset (Finset Pos) :=
  (pcells g p).image (compSet g p)

/-- The number of distinct 4-connected monochromatic components of `p`'s cells. -/
def compCount (g : Game) (p : Nat) : Nat := (components g p).card

theorem compSet_eq_iff (g : Game) (p : Nat) {a b : Pos}
    (ha : a ∈ pcells g p) (hb : b ∈ pcells g p) :
    compSet g p a = compSet g p b ↔ connP g p a b := by
  constructor
  · intro h
    have hbb : b ∈ compSet g p b := Finset.mem_filter.mpr ⟨hb, connP_refl g p hb⟩
    rw [← h] at hbb
    exact (Finset.mem_filter.mp hbb).2
  · intro h
    ext d
    simp only [compSet, Finset.mem_filter, and_congr_right_iff]
    intro _
    exact ⟨fun hd => connP_trans g p (connP_symm g p h) hd, fun hd => connP_trans g p h hd⟩

/-- Two maps with the same kernel on `S` have image sets of the same size. -/
theorem card_image_eq_of_ker {α β γ : Type} [DecidableEq α] [DecidableEq β] [DecidableEq γ]
    (S : Finset α) (f : α → β) (h : α → γ)
    (hker : ∀ a ∈ S, ∀ b ∈ S, (f a = f b ↔ h a = h b)) :
    (S.image f).card = (S.image h).card := by
  induction S using Finset.induction_on with
  | empty => simp
  | @insert a S' hnot ih =>
    rw [Finset.image_insert, Finset.image_insert]
    have hker' : ∀ x ∈ S', ∀ y ∈ S', (f x = f y ↔ h x = h y) :=
      fun x hx y hy => hker x (Finset.mem_insert_of_mem hx) y (Finset.mem_insert_of_mem hy)
    by_cases hf : f a ∈ S'.image f
    · have hh : h a ∈ S'.image h := by
        obtain ⟨b, hb, hfb⟩ := Finset.mem_image.mp hf
        refine Finset.mem_image.mpr ⟨b, hb, ?_⟩
        exact (hker b (Finset.mem_insert_of_mem hb) a (Finset.mem_insert_self a S')).mp hfb
      rw [Finset.insert_eq_self.mpr hf, Finset.insert_eq_self.mpr hh]
      exact ih hker'
    · have hh : h a ∉ S'.image h := by
        intro hmem
        obtain ⟨b, hb, hfb⟩ := Finset.mem_image.mp hmem
        exact hf (Finset.mem_image.mpr ⟨b, hb,
          (hker b (Finset.mem_insert_of_mem hb) a (Finset.mem_insert_self a S')).mpr hfb⟩)
      rw [Finset.card_insert_of_not_mem hf, Finset.card_insert_of_not_mem hh]
      rw [ih hker']

/-! ### Union-find roots -/

/-- `c` is a union-find root. -/
def isRoot (g : Game) (c : Pos) : Prop := parentOf g c = c

/-- The root of `c` computed by iterating the parent map `height * width`
times; under `UFok` this is the union-find representative. -/
def rootD (g : Game) (c : Pos) : Pos := (parentOf g)^[g.height * g.width] c

/-- Well-formedness of the parent forest: parents stay on the board, and
every cell's parent chain reaches a root. -/
def UFok (g : Game) : Prop :=
  (∀ c ∈ cellsF g, parentOf g c ∈ cellsF g) ∧
  (∀ c ∈ cellsF g, ∃ n, isRoot g ((parentOf g)^[n] c))

theorem iterate_of_isRoot (g : Game) {r : Pos} (h : isRoot g r) (n : Nat) :
    (parentOf g)^[n] r = r :=
  Function.iterate_fixed h n

theorem iterate_stable (g : Game) {c : Pos} {n : Nat}
    (h : isRoot g ((parentOf g)^[n] c)) {m : Nat} (hm : n ≤ m) :
    (parentOf g)^[m] c = (parentOf g)^[n] c := by
  obtain ⟨k, rfl⟩ := Nat.exists_eq_add_of_le hm
  rw [Nat.add_comm, Function.iterate_add_apply]
  exact iterate_of_isRoot g h k

theorem orbit_mem_cells (g : Game) (hin : ∀ c ∈ cellsF g, parentOf g c ∈ cellsF g)
    {c : Pos} (hc : c ∈ cellsF g) (n : Nat) : (parentOf g)^[n] c ∈ cellsF g := by
  induction n with
  | zero => exact hc
  | succ n ih => rw [Function.iterate_succ_apply']; exact hin _ ih

theorem cycle_isRoot (g : Game) (huf : UFok g) {c : Pos} (hc : c ∈ cellsF g)
    {k : Nat} (hk : 0 < k) (hcyc : (parentOf g)^[k] c = c) : isRoot g c := by
  obtain ⟨n, hn⟩ := huf.2 c hc
  have hmul : ∀ t : Nat, (parentOf g)^[k * t] c = c := by
    intro t
    induction t with
    | zero => simp
    | succ m ih =>
      rw [Nat.mul_succ, Function.iterate_add_apply, hcyc, ih]
  have ht : n ≤ k * (n + 1) := by nlinarith
  have h1 : (parentOf g)^[k * (n + 1)] c = (parentOf g)^[n] c := iterate_stable g hn ht
  have h2 := hmul (n + 1)
  rw [h1] at h2
  rw [← h2]
  exact hn

theorem reach_bound (g : Game) (huf : UFok g) {c : Pos} (hc : c ∈ cellsF g) :
    ∃ n, n < g.height * g.width ∧ isRoot g ((parentOf g)^[n] c) := by
  set M := g.height * g.width with hM
  have hmap : ∀ i ∈ Finset.range (M + 1), (parentOf g)^[i] c ∈ cellsF g :=
    fun i _ => orbit_mem_cells g huf.1 hc i
  have hcard : (cellsF g).card < (Finset.range (M + 1)).card := by
    rw [card_cellsF, Finset.card_range]
    omega
  obtain ⟨i, hi, j, hj, hij, heq⟩ :=
    Finset.exists_ne_map_eq_of_card_lt_of_maps_to hcard hmap
  rw [Finset.mem_range] at hi hj
  rcases Nat.lt_or_ge i j with hlt | hge
  · refine ⟨i, by omega, ?_⟩
    refine cycle_isRoot g huf (orbit_mem_cells g huf.1 hc i) (k := j - i) (by omega) ?_
    rw [← Function.iterate_add_apply]
    have : j - i + i = j := by omega
    rw [this, ← heq]
  · have hlt : j < i := by omega
    refine ⟨j, by omega, ?_⟩
    refine cycle_isRoot g huf (orbit_mem_cells g huf.1 hc j) (k := i - j) (by omega) ?_
    rw [← Function.iterate_add_apply]
    have : i - j + j = i := by omega
    rw [this, heq]

theorem rootD_isRoot (g : Game) (huf : UFok g) {c : Pos} (hc : c ∈ cellsF g) :
    isRoot g (rootD g c) := by
  obtain ⟨n, hn, hr⟩ := reach_bound g huf hc
  rw [rootD, iterate_stable g hr (by omega)]
  exact hr

theorem rootD_eq_of_reach (g : Game) (huf : UFok g) {c : Pos} (hc : c ∈ cellsF g)
    {n : Nat} (h : isRoot g ((parentOf g)^[n] c)) : rootD g c = (parentOf g)^[n] c := by
  obtain ⟨m, hm, hr⟩ := reach_bound g huf hc
  rcases Nat.le_total n (g.height * g.width) with hnm | hnm
  · rw [rootD]
    exact iterate_stable g h hnm
  · have h1 : (parentOf g)^[n] c = (parentOf g)^[m] c := iterate_stable g hr (by omega)
    rw [rootD, h1]
    exact iterate_stable g hr (by omega)

theorem rootD_mem_cells (g : Game) (huf : UFok g) {c : Pos} (hc : c ∈ cellsF g) :
    rootD g c ∈ cellsF g :=
  orbit_mem_cells g huf.1 hc _

theorem rootD_parent (g : Game) (huf : UFok g) {c : Pos} (hc : c ∈ cellsF g) :
    rootD g (parentOf g c) = rootD g c := by
  obtain ⟨n, hn, hr⟩ := reach_bound g huf hc
  rcases Nat.eq_zero_or_pos n with h0 | hpos
  · subst h0
    simp only [Function.iterate_zero, id] at hr
    have h1 : rootD g c = c := rootD_eq_of_reach g huf hc (n := 0) (by simpa using hr)
    have h2 : rootD g (parentOf g c) = c := by
      have : parentOf g c = c := hr
      rw [this, h1]
    rw [h1, h2]
  · have hr' : isRoot g ((parentOf g)^[n - 1] (parentOf g c)) := by
      rw [← Function.iterate_succ_apply]
      simp only [Nat.succ_eq_add_one]
      have heq : n - 1 + 1 = n := by omega
      rw [heq]
      exact hr
    rw [rootD_eq_of_reach g huf (huf.1 c hc) hr',
        rootD_eq_of_reach g huf hc hr, ← Function.iterate_succ_apply]
    simp only [Nat.succ_eq_add_one]
    have heq : n - 1 + 1 = n := by omega
    rw [heq]

theorem rootD_of_isRoot (g : Game) {c : Pos} (h : isRoot g c) : rootD g c = c :=
  iterate_of_isRoot g h _

/-! ### Frame congruences -/

theorem pcells_of_UFonly {g1 g2 : Game} (h : UFonly g1 g2) (p : Nat) :
    pcells g1 p = pcells g2 p := by
  obtain ⟨-, -, hh, hw, -, -, hpe⟩ := h
  ext c
  rw [mem_pcells, mem_pcells, hh, hw, (hpe c.1 c.2).1, (hpe c.1 c.2).2]

theorem cellsF_of_UFonly {g1 g2 : Game} (h : UFonly g1 g2) : cellsF g1 = cellsF g2 := by
  obtain ⟨-, -, hh, hw, -, -, -⟩ := h
  rw [cellsF, cellsF, hh, hw]

theorem grow_of_UFonly {g1 g2 : Game} (h : UFonly g1 g2) (p : Nat) (s : Finset Pos) :
    grow g1 p s = grow g2 p s := by
  rw [grow, grow, pcells_of_UFonly h]

theorem closure_of_UFonly {g1 g2 : Game} (h : UFonly g1 g2) (p : Nat) (a : Pos) :
    closure g1 p a = closure g2 p a := by
  rw [closure, closure, h.2.2.1, h.2.2.2.1]
  have hg : grow g1 p = grow g2 p := funext (grow_of_UFonly h p)
  rw [hg]

theorem connP_of_UFonly {g1 g2 : Game} (h : UFonly g1 g2) (p : Nat) (a b : Pos) :
    connP g1 p a b ↔ connP g2 p a b := by
  rw [connP, connP, pcells_of_UFonly h, closure_of_UFonly h]

theorem compCount_of_UFonly {g1 g2 : Game} (h : UFonly g1 g2) (p : Nat) :
    compCount g1 p = compCount g2 p := by
  rw [compCount, compCount, components, components]
  rw [pcells_of_UFonly h]
  congr 1
  apply Finset.image_congr
  intro c _
  rw [compSet, compSet, pcells_of_UFonly h]
  apply Finset.filter_congr
  intro d _
  exact connP_of_UFonly h p c d

theorem occCells_of_UFonly {g1 g2 : Game} (h : UFonly g1 g2) :
    occCells g1 = occCells g2 := by
  obtain ⟨-, -, hh, hw, -, -, hpe⟩ := h
  ext c
  rw [mem_occCells, mem_occCells, hh, hw, (hpe c.1 c.2).2]

theorem inPB_of_UFonly {g1 g2 : Game} (h : UFonly g1 g2) (p : Nat) (c : Pos) :
    inPB g1 p c = inPB g2 p c := by
  obtain ⟨-, -, hh, hw, -, -, hpe⟩ := h
  rw [inPB, inPB, hh, hw, (hpe c.1 c.2).1, (hpe c.1 c.2).2]

theorem borderCells_of_UFonly {g1 g2 : Game} (h : UFonly g1 g2) (p : Nat) :
    borderCells g1 p = borderCells g2 p := by
  ext c
  rw [mem_borderCells, mem_borderCells, h.2.2.1, h.2.2.2.1]
  constructor
  · rintro ⟨h1, h2, d, hd1, hd2⟩
    exact ⟨h1, (h.2.2.2.2.2.2 c.1 c.2).2 ▸ h2, d, hd1, (inPB_of_UFonly h p d) ▸ hd2⟩
  · rintro ⟨h1, h2, d, hd1, hd2⟩
    exact ⟨h1, (h.2.2.2.2.2.2 c.1 c.2).2.symm ▸ h2, d, hd1, (inPB_of_UFonly h p d).symm ▸ hd2⟩

theorem belongs_of_UFonly {g1 g2 : Game} (h : UFonly g1 g2) (x y : Int) (p : Nat) :
    belongs_to_player g1 x y p = belongs_to_player g2 x y p := by
  obtain ⟨-, -, hh, hw, -, -, hpe⟩ := h
  simp only [belongs_to_player, is_within_board, boardAt, hh, hw,
    (hpe y.toNat x.toNat).1, (hpe y.toNat x.toNat).2]

theorem rootD_congr {g1 g2 : Game} (hpar : ∀ d, parentOf g1 d = parentOf g2 d)
    (hh : g1.height = g2.height) (hw : g1.width = g2.width) (d : Pos) :
    rootD g1 d = rootD g2 d := by
  have hf : parentOf g1 = parentOf g2 := funext hpar
  rw [rootD, rootD, hf, hh, hw]

theorem UFok_congr {g1 g2 : Game} (hpar : ∀ d, parentOf g1 d = parentOf g2 d)
    (hcells : cellsF g1 = cellsF g2) (h : UFok g2) : UFok g1 := by
  have hf : parentOf g1 = parentOf g2 := funext hpar
  constructor
  · intro c hc
    rw [hf, hcells] at *
    exact h.1 c hc
  · intro c hc
    rw [hcells] at hc
    obtain ⟨n, hn⟩ := h.2 c hc
    exact ⟨n, by rw [isRoot, hf]; exact hn⟩

/-- Non-root cells are occupied, and their parents are occupied by the same
player: union-find chains stay inside one player's territory. -/
def HownerParent (g : Game) : Prop := ∀ c ∈ cellsF g, parentOf g c ≠ c →
  (g.board c.1 c.2).empty = false ∧
  (g.board (parentOf g c).1 (parentOf g c).2).empty = false ∧
  (g.board (parentOf g c).1 (parentOf g c).2).player = (g.board c.1 c.2).player

theorem empty_parent_self {g : Game} (hop : HownerParent g) {c : Pos}
    (hc : c ∈ cellsF g) (he : (g.board c.1 c.2).empty = true) : parentOf g c = c := by
  by_contra hne
  have := (hop c hc hne).1
  rw [he] at this
  cases this

theorem HownerParent_congr {g1 g2 : Game} (hpar : ∀ d, parentOf g1 d = parentOf g2 d)
    (hu : UFonly g1 g2) (h : HownerParent g2) : HownerParent g1 := by
  intro c hc hne
  rw [hpar] at hne ⊢
  rw [cellsF_of_UFonly hu] at hc
  have hpe := hu.2.2.2.2.2.2
  obtain ⟨h1, h2, h3⟩ := h c hc hne
  refine ⟨by rw [(hpe c.1 c.2).2]; exact h1, ?_, ?_⟩
  · rw [(hpe _ _).2]; exact h2
  · rw [(hpe (parentOf g2 c).1 (parentOf g2 c).2).1, (hpe c.1 c.2).1]
    exact h3

/-- Every cell in a player's territory has its union-find representative in
the same territory. -/
theorem orbit_owned {g : Game} (hop : HownerParent g)
    (hin : ∀ c ∈ cellsF g, parentOf g c ∈ cellsF g) {p : Nat} {c : Pos}
    (hc : c ∈ pcells g p) (n : Nat) : (parentOf g)^[n] c ∈ pcells g p := by
  induction n with
  | zero => exact hc
  | succ n ih =>
    rw [Function.iterate_succ_apply']
    set d := (parentOf g)^[n] c with hd
    rw [mem_pcells] at ih
    have hdc : d ∈ cellsF g := (mem_cellsF g d).mpr ⟨ih.1, ih.2.1⟩
    by_cases hroot : parentOf g d = d
    · rw [hroot, mem_pcells]; exact ih
    · obtain ⟨-, h2, h3⟩ := hop d hdc hroot
      have hmem := hin d hdc
      rw [mem_cellsF] at hmem
      rw [mem_pcells]
      refine ⟨hmem.1, hmem.2, h2, ?_⟩
      rw [h3, ih.2.2.2]

theorem rootD_owned {g : Game} (huf : UFok g) (hop : HownerParent g) {p : Nat} {c : Pos}
    (hc : c ∈ pcells g p) : rootD g c ∈ pcells g p :=
  orbit_owned hop huf.1 hc _

theorem pcells_subset_cellsF (g : Game) (p : Nat) : pcells g p ⊆ cellsF g :=
  Finset.filter_subset _ _

/-! ### Path halving -/

theorem parentOf_setParent (g : Game) (c q d : Pos) :
    parentOf (updBoard g c.1 c.2 (fun f => { f with parent := q })) d =
      if d = c then q else parentOf g d := by
  simp only [parentOf, updBoard_board]
  by_cases h : d = c
  · subst h
    simp
  · have hne : ¬(d.1 = c.1 ∧ d.2 = c.2) := fun hh => h (Prod.ext hh.1 hh.2)
    simp [hne, h]

/-- The state after one path-halving assignment
`field->parent = field->parent->parent` at cell `c`. -/
def halveAt (g : Game) (c : Pos) : Game :=
  updBoard g c.1 c.2 (fun f => { f with parent := parentOf g (parentOf g c) })

theorem fuFindAux_succ (fuel : Nat) (g : Game) (c : Pos) :
    fuFindAux (fuel + 1) g c =
      if parentOf g c = c then (g, c)
      else fuFindAux fuel (halveAt g c) (parentOf g (parentOf g c)) := rfl

theorem parentOf_halveAt (g : Game) (c d : Pos) :
    parentOf (halveAt g c) d = if d = c then parentOf g (parentOf g c) else parentOf g d :=
  parentOf_setParent g c _ d

theorem parentOf_halveAt_self (g : Game) (c : Pos) :
    parentOf (halveAt g c) c = parentOf g (parentOf g c) := by
  rw [parentOf_halveAt, if_pos rfl]

theorem parentOf_halveAt_other (g : Game) (c : Pos) {d : Pos} (h : d ≠ c) :
    parentOf (halveAt g c) d = parentOf g d := by
  rw [parentOf_halveAt, if_neg h]

theorem halveAt_UFonly (g : Game) (c : Pos) : UFonly (halveAt g c) g :=
  UFonly_updBoard_parent g c.1 c.2 _

theorem cellsF_halveAt (g : Game) (c : Pos) : cellsF (halveAt g c) = cellsF g := rfl

theorem halve_SL (g : Game) (huf : UFok g) {c : Pos} (hc : c ∈ cellsF g)
    (hnr : parentOf g c ≠ c) :
    ∀ n, ∀ d ∈ cellsF g, isRoot g ((parentOf g)^[n] d) →
    ∃ n', n' ≤ n ∧ (parentOf (halveAt g c))^[n'] d = (parentOf g)^[n] d ∧
      isRoot (halveAt g c) ((parentOf g)^[n] d) := by
  intro n
  induction n using Nat.strong_induction_on with
  | _ n IH =>
    intro d hd hroot
    by_cases hdr : parentOf g d = d
    · have hval : (parentOf g)^[n] d = d := iterate_of_isRoot g hdr n
      have hdc : d ≠ c := fun h => hnr (h ▸ hdr)
      refine ⟨0, Nat.zero_le n, by simpa using hval.symm, ?_⟩
      rw [hval, isRoot, parentOf_halveAt_other g c hdc]
      exact hdr
    · match n with
      | 0 => exact absurd hroot hdr
      | 1 =>
        simp only [Function.iterate_one] at hroot
        by_cases hdc : d = c
        · subst hdc
          refine ⟨1, le_refl 1, ?_, ?_⟩
          · simp only [Function.iterate_one, parentOf_halveAt_self]
            exact hroot
          · show parentOf (halveAt g d) (parentOf g d) = parentOf g d
            rw [parentOf_halveAt_other g d hdr]
            exact hroot
        · refine ⟨1, le_refl 1, ?_, ?_⟩
          · simp only [Function.iterate_one]
            exact parentOf_halveAt_other g c hdc
          · show parentOf (halveAt g c) (parentOf g d) = parentOf g d
            by_cases hpc : parentOf g d = c
            · exfalso
              rw [hpc] at hroot
              exact hnr hroot
            · rw [parentOf_halveAt_other g c hpc]
              exact hroot
      | (m + 2) =>
        by_cases hdc : d = c
        · subst hdc
          have hgpc : parentOf g (parentOf g d) ∈ cellsF g := huf.1 _ (huf.1 d hd)
          have hiter : (parentOf g)^[m + 2] d =
              (parentOf g)^[m] (parentOf g (parentOf g d)) := by
            rw [show m + 2 = m + 1 + 1 from rfl, Function.iterate_succ_apply,
              Function.iterate_succ_apply]
          have hroot' : isRoot g ((parentOf g)^[m] (parentOf g (parentOf g d))) := by
            rw [← hiter]; exact hroot
          obtain ⟨n'', hn'', hval, hr1⟩ := IH m (by omega) _ hgpc hroot'
          refine ⟨n'' + 1, by omega, ?_, ?_⟩
          · rw [Function.iterate_succ_apply, parentOf_halveAt_self, hval, ← hiter]
          · rw [hiter]; exact hr1
        · have hfd : parentOf g d ∈ cellsF g := huf.1 d hd
          have hiter : (parentOf g)^[m + 2] d = (parentOf g)^[m + 1] (parentOf g d) :=
            Function.iterate_succ_apply _ _ _
          have hroot' : isRoot g ((parentOf g)^[m + 1] (parentOf g d)) := by
            rw [← hiter]; exact hroot
          obtain ⟨n'', hn'', hval, hr1⟩ := IH (m + 1) (by omega) _ hfd hroot'
          refine ⟨n'' + 1, by omega, ?_, ?_⟩
          · rw [Function.iterate_succ_apply, parentOf_halveAt_other g c hdc, hval, ← hiter]
          · rw [hiter]; exact hr1

theorem halve_UFok (g : Game) (huf : UFok g) {c : Pos} (hc : c ∈ cellsF g)
    (hnr : parentOf g c ≠ c) : UFok (halveAt g c) := by
  constructor
  · intro d hd
    rw [cellsF_halveAt] at hd ⊢
    rw [parentOf_halveAt]
    split
    · exact orbit_mem_cells g huf.1 hc 2
    · exact huf.1 d hd
  · intro d hd
    rw [cellsF_halveAt] at hd
    obtain ⟨n, hn⟩ := huf.2 d hd
    obtain ⟨n', _, hval, hr⟩ := halve_SL g huf hc hnr n d hd hn
    exact ⟨n', by rw [hval]; exact hr⟩

theorem halve_rootD (g : Game) (huf : UFok g) {c : Pos} (hc : c ∈ cellsF g)
    (hnr : parentOf g c ≠ c) : ∀ d ∈ cellsF g, rootD (halveAt g c) d = rootD g d := by
  intro d hd
  obtain ⟨n, hn⟩ := huf.2 d hd
  obtain ⟨n', _, hval, hr⟩ := halve_SL g huf hc hnr n d hd hn
  have h1 : rootD g d = (parentOf g)^[n] d := rootD_eq_of_reach g huf hd hn
  have h2 : rootD (halveAt g c) d = (parentOf (halveAt g c))^[n'] d := by
    refine rootD_eq_of_reach (halveAt g c) (halve_UFok g huf hc hnr) ?_ ?_
    · rw [cellsF_halveAt]; exact hd
    · rw [hval]; exact hr
  rw [h1, h2, hval]

theorem halve_HownerParent (g : Game) (huf : UFok g) (hop : HownerParent g) {c : Pos}
    (hc : c ∈ cellsF g) (hnr : parentOf g c ≠ c) : HownerParent (halveAt g c) := by
  intro d hd hne
  rw [cellsF_halveAt] at hd
  have hu := halveAt_UFonly g c
  have hpe := hu.2.2.2.2.2.2
  by_cases hdc : d = c
  · subst hdc
    rw [parentOf_halveAt_self] at hne ⊢
    have h1 := hop d hd hnr
    have hfdc : parentOf g d ∈ cellsF g := huf.1 d hd
    refine ⟨by rw [(hpe d.1 d.2).2]; exact h1.1, ?_, ?_⟩
    · by_cases hroot2 : parentOf g (parentOf g d) = parentOf g d
      · rw [(hpe _ _).2, hroot2]
        exact h1.2.1
      · have h2 := hop (parentOf g d) hfdc hroot2
        rw [(hpe _ _).2]
        exact h2.2.1
    · by_cases hroot2 : parentOf g (parentOf g d) = parentOf g d
      · rw [(hpe _ _).1, (hpe d.1 d.2).1, hroot2]
        exact h1.2.2
      · have h2 := hop (parentOf g d) hfdc hroot2
        rw [(hpe _ _).1, (hpe d.1 d.2).1, h2.2.2]
        exact h1.2.2
  · rw [parentOf_halveAt_other g c hdc] at hne ⊢
    have h1 := hop d hd hne
    exact ⟨by rw [(hpe d.1 d.2).2]; exact h1.1,
      by rw [(hpe _ _).2]; exact h1.2.1,
      by rw [(hpe _ _).1, (hpe d.1 d.2).1]; exact h1.2.2⟩

theorem fuFindAux_spec : ∀ (fuel : Nat) (g : Game) (c : Pos), UFok g → HownerParent g →
    c ∈ cellsF g → (∃ n, n ≤ fuel ∧ isRoot g ((parentOf g)^[n] c)) →
    (fuFindAux fuel g c).2 = rootD g c ∧
    UFok (fuFindAux fuel g c).1 ∧
    HownerParent (fuFindAux fuel g c).1 ∧
    (∀ d ∈ cellsF g, rootD (fuFindAux fuel g c).1 d = rootD g d) := by
  intro fuel
  induction fuel with
  | zero =>
    intro g c huf hop hc hr
    obtain ⟨n, hn, hroot⟩ := hr
    have hn0 : n = 0 := by omega
    subst hn0
    simp only [Function.iterate_zero, id] at hroot
    rw [fuFindAux]
    exact ⟨(rootD_of_isRoot g hroot).symm, huf, hop, fun d _ => rfl⟩
  | succ fuel ih =>
    intro g c huf hop hc hr
    rw [fuFindAux_succ]
    by_cases hroot : parentOf g c = c
    · rw [if_pos hroot]
      exact ⟨(rootD_of_isRoot g hroot).symm, huf, hop, fun d _ => rfl⟩
    · rw [if_neg hroot]
      obtain ⟨n, hn, hnroot⟩ := hr
      have hn1 : 1 ≤ n := by
        rcases Nat.eq_zero_or_pos n with h0 | h1
        · subst h0; simp only [Function.iterate_zero, id] at hnroot; exact absurd hnroot hroot
        · exact h1
      set gp := parentOf g (parentOf g c) with hgp
      have hgpc : gp ∈ cellsF g := huf.1 _ (huf.1 c hc)
      have hkroot : isRoot g ((parentOf g)^[n - 2] gp) := by
        have h1 : (parentOf g)^[n - 2] gp = (parentOf g)^[n - 2 + 2] c := by
          rw [hgp]
          rw [show n - 2 + 2 = n - 2 + 1 + 1 from rfl, Function.iterate_succ_apply,
            Function.iterate_succ_apply]
        have h2 : (parentOf g)^[n - 2 + 2] c = (parentOf g)^[n] c :=
          iterate_stable g hnroot (by omega)
        rw [h1, h2]
        exact hnroot
      have hufg1 : UFok (halveAt g c) := halve_UFok g huf hc hroot
      have hopg1 : HownerParent (halveAt g c) := halve_HownerParent g huf hop hc hroot
      have hr1 : ∃ m, m ≤ fuel ∧ isRoot (halveAt g c) ((parentOf (halveAt g c))^[m] gp) := by
        obtain ⟨n', hn', hval, hroot1⟩ := halve_SL g huf hc hroot (n - 2) gp hgpc hkroot
        exact ⟨n', by omega, by rw [hval]; exact hroot1⟩
      have hgpc1 : gp ∈ cellsF (halveAt g c) := by rw [cellsF_halveAt]; exact hgpc
      obtain ⟨ih1, ih2, ih3, ih4⟩ := ih (halveAt g c) gp hufg1 hopg1 hgpc1 hr1
      refine ⟨?_, ih2, ih3, ?_⟩
      · rw [ih1, halve_rootD g huf hc hroot gp hgpc, hgp,
          rootD_parent g huf (huf.1 c hc), rootD_parent g huf hc]
      · intro d hd
        rw [ih4 d (by rw [cellsF_halveAt]; exact hd), halve_rootD g huf hc hroot d hd]

theorem fuFind_spec (g : Game) (c : Pos) (huf : UFok g) (hop : HownerParent g)
    (hc : c ∈ cellsF g) :
    (fuFind g c).2 = rootD g c ∧
    UFok (fuFind g c).1 ∧
    HownerParent (fuFind g c).1 ∧
    (∀ d ∈ cellsF g, rootD (fuFind g c).1 d = rootD g d) := by
  rw [fuFind]
  refine fuFindAux_spec (g.width * g.height) g c huf hop hc ?_
  obtain ⟨n, hn, hroot⟩ := reach_bound g huf hc
  exact ⟨n, by rw [Nat.mul_comm] at hn; omega, hroot⟩

/-! ### Union by rank -/

theorem parentOf_updBoard_rank (g : Game) (y x : Nat) (h : Field → Nat) (d : Pos) :
    parentOf (updBoard g y x (fun f => { f with rank := h f })) d = parentOf g d := by
  simp only [parentOf, updBoard_board]
  split <;> rfl

theorem parentOf_fuAttach (g : Game) (xr yr d : Pos) :
    parentOf (fuAttach g xr yr) d = if d = yr then xr else parentOf g d := by
  rw [fuAttach]
  split
  · rw [parentOf_updBoard_rank]
    exact parentOf_setParent g yr xr d
  · exact parentOf_setParent g yr xr d

theorem fuAttach_isRoot_xr (g : Game) {xr yr : Pos} (hxr : isRoot g xr) (hne : xr ≠ yr) :
    isRoot (fuAttach g xr yr) xr := by
  rw [isRoot, parentOf_fuAttach, if_neg hne]
  exact hxr

theorem fuAttach_keep (g : Game) {xr yr : Pos} (hyr : isRoot g yr) (hne : xr ≠ yr) :
    ∀ n d r, (parentOf g)^[n] d = r → isRoot g r → r ≠ yr →
      (parentOf (fuAttach g xr yr))^[n] d = r ∧ isRoot (fuAttach g xr yr) r := by
  intro n
  induction n with
  | zero =>
    intro d r hval hroot hry
    simp only [Function.iterate_zero, id] at hval
    subst hval
    refine ⟨rfl, ?_⟩
    rw [isRoot, parentOf_fuAttach, if_neg hry]
    exact hroot
  | succ n ih =>
    intro d r hval hroot hry
    by_cases hdy : d = yr
    · subst hdy
      rw [iterate_of_isRoot g hyr (n + 1)] at hval
      exact absurd hval (Ne.symm hry)
    · rw [Function.iterate_succ_apply] at hval
      obtain ⟨h1, h2⟩ := ih (parentOf g d) r hval hroot hry
      refine ⟨?_, h2⟩
      rw [Function.iterate_succ_apply, parentOf_fuAttach, if_neg hdy]
      exact h1

theorem fuAttach_move (g : Game) {xr yr : Pos} (hyr : isRoot g yr) (hxr : isRoot g xr)
    (hne : xr ≠ yr) :
    ∀ n d, (parentOf g)^[n] d = yr →
      (parentOf (fuAttach g xr yr))^[n] d = yr ∨ (parentOf (fuAttach g xr yr))^[n] d = xr := by
  intro n
  induction n with
  | zero =>
    intro d hval
    exact Or.inl hval
  | succ n ih =>
    intro d hval
    by_cases hdy : d = yr
    · subst hdy
      right
      rw [Function.iterate_succ_apply, parentOf_fuAttach, if_pos rfl]
      exact iterate_of_isRoot _ (fuAttach_isRoot_xr g hxr hne) n
    · rw [Function.iterate_succ_apply] at hval
      rw [Function.iterate_succ_apply, parentOf_fuAttach, if_neg hdy]
      exact ih (parentOf g d) hval

theorem fuAttach_UFok (g : Game) (huf : UFok g) {xr yr : Pos}
    (hxc : xr ∈ cellsF g) (hyr : isRoot g yr) (hxr : isRoot g xr) (hne : xr ≠ yr) :
    UFok (fuAttach g xr yr) := by
  have hcells : cellsF (fuAttach g xr yr) = cellsF g :=
    cellsF_of_UFonly (fuAttach_UFonly g xr yr)
  constructor
  · intro d hd
    rw [hcells] at hd ⊢
    rw [parentOf_fuAttach]
    split
    · exact hxc
    · exact huf.1 d hd
  · intro d hd
    rw [hcells] at hd
    obtain ⟨n, hn⟩ := huf.2 d hd
    have hpy : parentOf (fuAttach g xr yr) yr = xr := by
      rw [parentOf_fuAttach, if_pos rfl]
    by_cases hry : (parentOf g)^[n] d = yr
    · rcases fuAttach_move g hyr hxr hne n d hry with h | h
      · refine ⟨n + 1, ?_⟩
        rw [Function.iterate_succ_apply', h, hpy]
        exact fuAttach_isRoot_xr g hxr hne
      · refine ⟨n, ?_⟩
        rw [h]
        exact fuAttach_isRoot_xr g hxr hne
    · obtain ⟨h1, h2⟩ := fuAttach_keep g hyr hne n d _ rfl hn hry
      exact ⟨n, by rw [h1]; exact h2⟩

theorem fuAttach_rootD (g : Game) (huf : UFok g) {xr yr : Pos}
    (hxc : xr ∈ cellsF g) (hyr : isRoot g yr) (hxr : isRoot g xr) (hne : xr ≠ yr) :
    ∀ d ∈ cellsF g, rootD (fuAttach g xr yr) d =
      if rootD g d = yr then xr else rootD g d := by
  intro d hd
  have hufA := fuAttach_UFok g huf hxc hyr hxr hne
  have hcells : cellsF (fuAttach g xr yr) = cellsF g :=
    cellsF_of_UFonly (fuAttach_UFonly g xr yr)
  have hdA : d ∈ cellsF (fuAttach g xr yr) := by rw [hcells]; exact hd
  obtain ⟨n, hn, hroot⟩ := reach_bound g huf hd
  have hval : rootD g d = (parentOf g)^[n] d := rootD_eq_of_reach g huf hd hroot
  have hpy : parentOf (fuAttach g xr yr) yr = xr := by
    rw [parentOf_fuAttach, if_pos rfl]
  by_cases hry : rootD g d = yr
  · rw [if_pos hry]
    rw [hval] at hry
    rcases fuAttach_move g hyr hxr hne n d hry with h | h
    · have hr : isRoot (fuAttach g xr yr) ((parentOf (fuAttach g xr yr))^[n + 1] d) := by
        rw [Function.iterate_succ_apply', h, hpy]
        exact fuAttach_isRoot_xr g hxr hne
      have heq := rootD_eq_of_reach (fuAttach g xr yr) hufA hdA hr
      rw [heq, Function.iterate_succ_apply', h, hpy]
    · have hr : isRoot (fuAttach g xr yr) ((parentOf (fuAttach g xr yr))^[n] d) := by
        rw [h]
        exact fuAttach_isRoot_xr g hxr hne
      have := rootD_eq_of_reach (fuAttach g xr yr) hufA hdA hr
      rw [this, h]
  · rw [if_neg hry]
    rw [hval] at hry
    obtain ⟨h1, h2⟩ := fuAttach_keep g hyr hne n d _ rfl hroot hry
    have hr : isRoot (fuAttach g xr yr) ((parentOf (fuAttach g xr yr))^[n] d) := by
      rw [h1]; exact h2
    have := rootD_eq_of_reach (fuAttach g xr yr) hufA hdA hr
    rw [this, h1, hval]

theorem fuAttach_HownerParent (g : Game) (hop : HownerParent g) {p : Nat} {xr yr : Pos}
    (hxp : xr ∈ pcells g p) (hyp2 : yr ∈ pcells g p) (hne : xr ≠ yr) :
    HownerParent (fuAttach g xr yr) := by
  intro d hd hne1
  have hu := fuAttach_UFonly g xr yr
  have hpe := hu.2.2.2.2.2.2
  rw [cellsF_of_UFonly hu] at hd
  rw [parentOf_fuAttach] at hne1 ⊢
  rw [mem_pcells] at hxp hyp2
  by_cases hdy : d = yr
  · subst hdy
    rw [if_pos rfl] at hne1 ⊢
    refine ⟨by rw [(hpe d.1 d.2).2]; exact hyp2.2.2.1, ?_, ?_⟩
    · rw [(hpe xr.1 xr.2).2]; exact hxp.2.2.1
    · rw [(hpe xr.1 xr.2).1, (hpe d.1 d.2).1, hxp.2.2.2, hyp2.2.2.2]
  · rw [if_neg hdy] at hne1 ⊢
    obtain ⟨h1, h2, h3⟩ := hop d hd hne1
    exact ⟨by rw [(hpe d.1 d.2).2]; exact h1,
      by rw [(hpe _ _).2]; exact h2,
      by rw [(hpe _ _).1, (hpe d.1 d.2).1]; exact h3⟩

theorem fuFind_UFonly2 (g : Game) (c : Pos) : UFonly (fuFind g c).1 g :=
  fuFindAux_UFonly _ g c

theorem fuUnion_spec (g : Game) (p : Nat) (a b : Pos) (huf : UFok g) (hop : HownerParent g)
    (ha : a ∈ pcells g p) (hb : b ∈ pcells g p) :
    UFok (fuUnion g a b).1 ∧ HownerParent (fuUnion g a b).1 ∧
    ((fuUnion g a b).2 = true ↔ rootD g a ≠ rootD g b) ∧
    ((fuUnion g a b).2 = false → ∀ d ∈ cellsF g, rootD (fuUnion g a b).1 d = rootD g d) ∧
    ((fuUnion g a b).2 = true → ∃ R, (R = rootD g a ∨ R = rootD g b) ∧
      ∀ d ∈ cellsF g, rootD (fuUnion g a b).1 d =
        (if rootD g d = rootD g a ∨ rootD g d = rootD g b then R else rootD g d)) := by
  have hac : a ∈ cellsF g := pcells_subset_cellsF g p ha
  have hbc : b ∈ cellsF g := pcells_subset_cellsF g p hb
  obtain ⟨hF1v, hF1uf, hF1op, hF1r⟩ := fuFind_spec g a huf hop hac
  have hu1 : UFonly (fuFind g a).1 g := fuFind_UFonly2 g a
  have hcells1 : cellsF (fuFind g a).1 = cellsF g := cellsF_of_UFonly hu1
  have hb1 : b ∈ cellsF (fuFind g a).1 := by rw [hcells1]; exact hbc
  obtain ⟨hF2v, hF2uf, hF2op, hF2r⟩ := fuFind_spec (fuFind g a).1 b hF1uf hF1op hb1
  have hu2 : UFonly (fuFind (fuFind g a).1 b).1 (fuFind g a).1 :=
    fuFind_UFonly2 (fuFind g a).1 b
  have hu21 : UFonly (fuFind (fuFind g a).1 b).1 g := UFonly_trans hu2 hu1
  have hcells2 : cellsF (fuFind (fuFind g a).1 b).1 = cellsF g := cellsF_of_UFonly hu21
  have hrA : (fuFind g a).2 = rootD g a := hF1v
  have hrB : (fuFind (fuFind g a).1 b).2 = rootD g b := by
    rw [hF2v]; exact hF1r b hbc
  have hr2 : ∀ d ∈ cellsF g, rootD (fuFind (fuFind g a).1 b).1 d = rootD g d := by
    intro d hd
    rw [hF2r d (by rw [hcells1]; exact hd), hF1r d hd]
  by_cases heq : (fuFind g a).2 = (fuFind (fuFind g a).1 b).2
  · have hun : fuUnion g a b = ((fuFind (fuFind g a).1 b).1, false) := by
      simp only [fuUnion]
      rw [if_pos heq]
    have hreq : rootD g a = rootD g b := by rw [← hrA, ← hrB]; exact heq
    rw [hun]
    refine ⟨hF2uf, hF2op, ?_, ?_, ?_⟩
    · simp only [Bool.false_eq_true, false_iff, Ne, not_not]
      exact hreq
    · intro _; exact hr2
    · intro h; cases h
  · have hrne : rootD g a ≠ rootD g b := by rw [← hrA, ← hrB]; exact heq
    have main : ∀ xr yr : Pos,
        (xr = rootD g a ∨ xr = rootD g b) → (yr = rootD g a ∨ yr = rootD g b) → xr ≠ yr →
        UFok (fuAttach (fuFind (fuFind g a).1 b).1 xr yr) ∧
        HownerParent (fuAttach (fuFind (fuFind g a).1 b).1 xr yr) ∧
        (∃ R, (R = rootD g a ∨ R = rootD g b) ∧
          ∀ d ∈ cellsF g, rootD (fuAttach (fuFind (fuFind g a).1 b).1 xr yr) d =
            (if rootD g d = rootD g a ∨ rootD g d = rootD g b then R
             else rootD g d)) := by
      intro xr yr hxAB hyAB hxyne
      have hrootg : ∀ z : Pos, (z = rootD g a ∨ z = rootD g b) → isRoot g z := by
        rintro z (rfl | rfl)
        · exact rootD_isRoot g huf hac
        · exact rootD_isRoot g huf hbc
      have hpcg : ∀ z : Pos, (z = rootD g a ∨ z = rootD g b) → z ∈ pcells g p := by
        rintro z (rfl | rfl)
        · exact rootD_owned huf hop ha
        · exact rootD_owned huf hop hb
      have hcellz : ∀ z : Pos, (z = rootD g a ∨ z = rootD g b) → z ∈ cellsF g :=
        fun z hz => pcells_subset_cellsF g p (hpcg z hz)
      have hroot2 : ∀ z : Pos, (z = rootD g a ∨ z = rootD g b) →
          isRoot (fuFind (fuFind g a).1 b).1 z := by
        intro z hz
        have h1 : rootD (fuFind (fuFind g a).1 b).1 z = z := by
          rw [hr2 z (hcellz z hz)]
          exact rootD_of_isRoot g (hrootg z hz)
        have := rootD_isRoot (fuFind (fuFind g a).1 b).1 hF2uf
          (c := z) (by rw [hcells2]; exact hcellz z hz)
        rwa [h1] at this
      have hpc2 : ∀ z : Pos, (z = rootD g a ∨ z = rootD g b) →
          z ∈ pcells (fuFind (fuFind g a).1 b).1 p := by
        intro z hz
        rw [pcells_of_UFonly hu21]
        exact hpcg z hz
      have hxr2 := hroot2 xr hxAB
      have hyr2 := hroot2 yr hyAB
      have hxc2 : xr ∈ cellsF (fuFind (fuFind g a).1 b).1 := by
        rw [hcells2]; exact hcellz xr hxAB
      refine ⟨fuAttach_UFok _ hF2uf hxc2 hyr2 hxr2 hxyne, ?_, ?_⟩
      · exact fuAttach_HownerParent _ hF2op (hpc2 xr hxAB) (hpc2 yr hyAB) hxyne
      · refine ⟨xr, hxAB, ?_⟩
        intro d hd
        have hAd := fuAttach_rootD _ hF2uf hxc2 hyr2 hxr2 hxyne d (by rw [hcells2]; exact hd)
        rw [hAd, hr2 d hd]
        by_cases hcy : rootD g d = yr
        · rw [if_pos hcy, if_pos]
          rcases hyAB with rfl | rfl
          · exact Or.inl hcy
          · exact Or.inr hcy
        · rw [if_neg hcy]
          by_cases hcx : rootD g d = xr
          · rw [if_pos, hcx]
            rcases hxAB with rfl | rfl
            · exact Or.inl hcx
            · exact Or.inr hcx
          · rw [if_neg]
            rintro (hda | hdb)
            · rcases hxAB with rfl | h
              · exact hcx hda
              · rcases hyAB with rfl | h2
                · exact hcy hda
                · exact hxyne (h.trans h2.symm)
            · rcases hxAB with h | rfl
              · rcases hyAB with h2 | rfl
                · exact hxyne (h.trans h2.symm)
                · exact hcy hdb
              · exact hcx hdb
    have hun : fuUnion g a b =
        (fuAttach (fuFind (fuFind g a).1 b).1
          (if ((fuFind (fuFind g a).1 b).1.board (fuFind g a).2.1 (fuFind g a).2.2).rank <
              ((fuFind (fuFind g a).1 b).1.board (fuFind (fuFind g a).1 b).2.1
                (fuFind (fuFind g a).1 b).2.2).rank
           then (fuFind (fuFind g a).1 b).2 else (fuFind g a).2)
          (if ((fuFind (fuFind g a).1 b).1.board (fuFind g a).2.1 (fuFind g a).2.2).rank <
              ((fuFind (fuFind g a).1 b).1.board (fuFind (fuFind g a).1 b).2.1
                (fuFind (fuFind g a).1 b).2.2).rank
           then (fuFind g a).2 else (fuFind (fuFind g a).1 b).2), true) := by
      simp only [fuUnion]
      rw [if_neg heq]
    rw [hun]
    by_cases hsw : ((fuFind (fuFind g a).1 b).1.board (fuFind g a).2.1 (fuFind g a).2.2).rank <
        ((fuFind (fuFind g a).1 b).1.board (fuFind (fuFind g a).1 b).2.1
          (fuFind (fuFind g a).1 b).2.2).rank
    · rw [if_pos hsw, if_pos hsw]
      obtain ⟨m1, m2, m3⟩ := main (fuFind (fuFind g a).1 b).2 (fuFind g a).2
        (by rw [hrB]; exact Or.inr rfl) (by rw [hrA]; exact Or.inl rfl)
        (by rw [hrA, hrB]; exact Ne.symm hrne)
      refine ⟨m1, m2, by simp [hrne], ?_, fun _ => m3⟩
      intro h
      cases h
    · rw [if_neg hsw, if_neg hsw]
      obtain ⟨m1, m2, m3⟩ := main (fuFind g a).2 (fuFind (fuFind g a).1 b).2
        (by rw [hrA]; exact Or.inl rfl) (by rw [hrB]; exact Or.inr rfl)
        (by rw [hrA, hrB]; exact hrne)
      refine ⟨m1, m2, by simp [hrne], ?_, fun _ => m3⟩
      intro h
      cases h

/-! ### `union_neighbors` -/

/-- Relation between the state before `union_neighbors` (`g`) and an
intermediate state `g'`: the classes with `g`-roots in `S` have been merged
into one class with representative `R`, everything else is untouched. -/
def URel (g : Game) (p : Nat) (S : Finset Pos) (R : Pos) (g' : Game) : Prop :=
  UFok g' ∧ HownerParent g' ∧ UFonly g' g ∧ R ∈ S ∧
  (∀ r ∈ S, r ∈ pcells g p ∧ isRoot g r) ∧
  (∀ d ∈ cellsF g, rootD g' d = if rootD g d ∈ S then R else rootD g d)

theorem unionFold_spec (g : Game) (p : Nat) (tf : Pos) (hufg : UFok g)
    (hopg : HownerParent g) :
    ∀ (cands : List (Int × Int × Pos)) (g' : Game) (m : Nat) (S : Finset Pos) (R : Pos),
    tf ∈ pcells g p →
    (∀ cd ∈ cands, belongs_to_player g cd.1 cd.2.1 p = true → cd.2.2 ∈ pcells g p) →
    URel g p S R g' → rootD g tf ∈ S →
    ∃ R', URel g p
        (S ∪ ((cands.filter (fun cd => belongs_to_player g cd.1 cd.2.1 p)).map
          (fun cd => rootD g cd.2.2)).toFinset) R'
        ((cands.foldl (unionStep p tf) (g', m)).1) ∧
      (cands.foldl (unionStep p tf) (g', m)).2 =
        m + ((S ∪ ((cands.filter (fun cd => belongs_to_player g cd.1 cd.2.1 p)).map
          (fun cd => rootD g cd.2.2)).toFinset).card - S.card) := by
  intro cands
  induction cands with
  | nil =>
    intro g' m S R htf hcands hrel hS
    refine ⟨R, ?_, ?_⟩
    · simpa using hrel
    · simp
  | cons cd rest ih =>
    intro g' m S R htf hcands hrel hS
    obtain ⟨hq1, hq2, hq3, hq4, hq5, hq6⟩ := hrel
    have hrel : URel g p S R g' := ⟨hq1, hq2, hq3, hq4, hq5, hq6⟩
    have hcellsg' : cellsF g' = cellsF g := cellsF_of_UFonly hq3
    have hbel : belongs_to_player g' cd.1 cd.2.1 p = belongs_to_player g cd.1 cd.2.1 p :=
      belongs_of_UFonly hq3 cd.1 cd.2.1 p
    rw [List.foldl_cons]
    by_cases hb : belongs_to_player g cd.1 cd.2.1 p = true
    · have hcd : cd.2.2 ∈ pcells g p := hcands cd (List.mem_cons_self cd rest) hb
      have hstep : unionStep p tf (g', m) cd =
          ((fuUnion g' tf cd.2.2).1,
            m + (if (fuUnion g' tf cd.2.2).2 then 1 else 0)) := by
        rw [unionStep, if_pos (by rw [hbel]; exact hb)]
      rw [hstep]
      have htfg' : tf ∈ pcells g' p := by rw [pcells_of_UFonly hq3]; exact htf
      have hcdg' : cd.2.2 ∈ pcells g' p := by rw [pcells_of_UFonly hq3]; exact hcd
      obtain ⟨fu1, fu2, fu3, fu4, fu5⟩ :=
        fuUnion_spec g' p tf cd.2.2 hq1 hq2 htfg' hcdg'
      have hroottf : rootD g' tf = R := by
        have := hq6 tf (pcells_subset_cellsF g p htf)
        rwa [if_pos hS] at this
      have hrootcd : rootD g' cd.2.2 =
          if rootD g cd.2.2 ∈ S then R else rootD g cd.2.2 :=
        hq6 cd.2.2 (pcells_subset_cellsF g p hcd)
      have hufonly_fu : UFonly (fuUnion g' tf cd.2.2).1 g :=
        UFonly_trans (fuUnion_UFonly g' tf cd.2.2) hq3
      by_cases hrn : rootD g cd.2.2 ∈ S
      · -- the candidate's class is already merged: no-op union
        have hfalse : (fuUnion g' tf cd.2.2).2 = false := by
          rw [← Bool.not_eq_true]
          intro htrue
          apply fu3.mp htrue
          rw [hroottf, hrootcd, if_pos hrn]
        have hrel' : URel g p S R (fuUnion g' tf cd.2.2).1 := by
          refine ⟨fu1, fu2, hufonly_fu, hq4, hq5, ?_⟩
          intro d hd
          rw [fu4 hfalse d (by rw [hcellsg']; exact hd)]
          exact hq6 d hd
        obtain ⟨R', hrest, hcount⟩ := ih _ _ S R htf
          (fun c hc hbc => hcands c (List.mem_cons_of_mem cd hc) hbc) hrel' hS
        have hSeq : S ∪ ((rest.filter (fun c => belongs_to_player g c.1 c.2.1 p)).map
              (fun c => rootD g c.2.2)).toFinset =
            S ∪ (((cd :: rest).filter (fun c => belongs_to_player g c.1 c.2.1 p)).map
              (fun c => rootD g c.2.2)).toFinset := by
          rw [List.filter_cons_of_pos (by simpa using hb), List.map_cons, List.toFinset_cons]
          ext z
          simp only [Finset.mem_union, Finset.mem_insert, List.mem_toFinset]
          constructor
          · rintro (hz | hz)
            · exact Or.inl hz
            · exact Or.inr (Or.inr hz)
          · rintro (hz | hz | hz)
            · exact Or.inl hz
            · exact Or.inl (hz ▸ hrn)
            · exact Or.inr hz
        rw [hfalse]
        simp only [Bool.false_eq_true, if_false, Nat.add_zero]
        rw [← hSeq]
        exact ⟨R', hrest, hcount⟩
      · -- genuinely new class: the union merges it
        have htrue : (fuUnion g' tf cd.2.2).2 = true := by
          rw [fu3, hroottf, hrootcd, if_neg hrn]
          intro hRe
          exact hrn (hRe ▸ hq4)
        obtain ⟨R2, hR2or, hR2pt⟩ := fu5 htrue
        rw [hroottf, hrootcd, if_neg hrn] at hR2or
        have hR2S1 : R2 ∈ insert (rootD g cd.2.2) S := by
          rcases hR2or with rfl | rfl
          · exact Finset.mem_insert_of_mem hq4
          · exact Finset.mem_insert_self _ _
        have hrel' : URel g p (insert (rootD g cd.2.2) S) R2 (fuUnion g' tf cd.2.2).1 := by
          refine ⟨fu1, fu2, hufonly_fu, hR2S1, ?_, ?_⟩
          · intro r hr
            rw [Finset.mem_insert] at hr
            rcases hr with rfl | hr
            · exact ⟨rootD_owned hufg hopg hcd,
                rootD_isRoot g hufg (pcells_subset_cellsF g p hcd)⟩
            · exact hq5 r hr
          · intro d hd
            rw [hR2pt d (by rw [hcellsg']; exact hd), hroottf, hrootcd, if_neg hrn]
            rw [hq6 d hd]
            by_cases hdS : rootD g d ∈ S
            · rw [if_pos hdS, if_pos (Finset.mem_insert_of_mem hdS), if_pos (Or.inl rfl)]
            · rw [if_neg hdS]
              by_cases hdrn : rootD g d = rootD g cd.2.2
              · rw [if_pos (Or.inr hdrn), if_pos (by rw [hdrn]; exact Finset.mem_insert_self _ _)]
              · have hdR : rootD g d ≠ R := fun h => hdS (h ▸ hq4)
                rw [if_neg (by rintro (h | h); exacts [hdR h, hdrn h]),
                  if_neg (by rw [Finset.mem_insert]; rintro (h | h); exacts [hdrn h, hdS h])]
        have hS1 : rootD g tf ∈ insert (rootD g cd.2.2) S := Finset.mem_insert_of_mem hS
        obtain ⟨R', hrest, hcount⟩ := ih _ (m + 1) (insert (rootD g cd.2.2) S) R2 htf
          (fun c hc hbc => hcands c (List.mem_cons_of_mem cd hc) hbc) hrel' hS1
        rw [htrue] at *
        simp only [if_true] at *
        have hSeq : insert (rootD g cd.2.2) S ∪
              ((rest.filter (fun c => belongs_to_player g c.1 c.2.1 p)).map
                (fun c => rootD g c.2.2)).toFinset =
            S ∪ (((cd :: rest).filter (fun c => belongs_to_player g c.1 c.2.1 p)).map
              (fun c => rootD g c.2.2)).toFinset := by
          rw [List.filter_cons_of_pos (by simpa using hb), List.map_cons, List.toFinset_cons,
            Finset.insert_union, Finset.union_insert]
        rw [hSeq] at hrest hcount
        refine ⟨R', hrest, ?_⟩
        rw [hcount]
        have hsub1 : S ⊆ S ∪ (((cd :: rest).filter
            (fun c => belongs_to_player g c.1 c.2.1 p)).map
            (fun c => rootD g c.2.2)).toFinset := Finset.subset_union_left
        have hsub2 : insert (rootD g cd.2.2) S ⊆
            S ∪ (((cd :: rest).filter (fun c => belongs_to_player g c.1 c.2.1 p)).map
              (fun c => rootD g c.2.2)).toFinset := by
          rw [← hSeq]
          exact Finset.subset_union_left
        have hc1 := Finset.card_le_card hsub2
        have hc2 : (insert (rootD g cd.2.2) S).card = S.card + 1 :=
          Finset.card_insert_of_not_mem hrn
        omega
    · have hstep : unionStep p tf (g', m) cd = (g', m) := by
        rw [unionStep, if_neg (by rw [hbel]; exact hb)]
      rw [hstep]
      obtain ⟨R', hrest, hcount⟩ := ih _ _ S R htf
        (fun c hc hbc => hcands c (List.mem_cons_of_mem cd hc) hbc) hrel hS
      rw [List.filter_cons_of_neg (by simpa using hb)]
      exact ⟨R', hrest, hcount⟩

/-- `belongs_to_player` at nonnegative (Nat-cast) coordinates is membership of
the corresponding position in the player's cell set. -/
theorem belongs_nat_iff (g : Game) (u v p : Nat) :
    belongs_to_player g (u : Int) (v : Int) p = true ↔ (v, u) ∈ pcells g p := by
  rw [belongs_to_player, is_within_board, boardAt, mem_pcells]
  simp only [Int.toNat_ofNat, Bool.and_eq_true, decide_eq_true_eq, Bool.not_eq_true',
    Nat.cast_nonneg, true_and, Nat.cast_lt]
  tauto

/-- The root classes touched by `union_neighbors` at `(row, column)`: the
placed cell's own class and the classes of its owned neighbours. -/
def nbrRootsU (g : Game) (p : Nat) (column row : Nat) : Finset Pos :=
  insert (rootD g (row, column))
    (((unionCand column row).filter (fun cd => belongs_to_player g cd.1 cd.2.1 p)).map
      (fun cd => rootD g cd.2.2)).toFinset

/-- Specification of `union_neighbors`: it merges the placed cell's class with
every owned neighbour's class into one representative and reports the number
of class merges, i.e. one less than the number of distinct classes touched. -/
theorem union_neighbors_spec (g : Game) (p column row : Nat) (huf : UFok g)
    (hop : HownerParent g) (hp : (g.board row column).player = p)
    (htf : (row, column) ∈ pcells g p) :
    ∃ R, URel g p (nbrRootsU g p column row) R (union_neighbors g column row).1 ∧
      (union_neighbors g column row).2 = (nbrRootsU g p column row).card - 1 := by
  have hcands : ∀ cd ∈ unionCand column row,
      belongs_to_player g cd.1 cd.2.1 p = true → cd.2.2 ∈ pcells g p := by
    intro cd hcd hb
    simp only [unionCand, List.mem_cons, List.not_mem_nil, or_false] at hcd
    rcases hcd with rfl | rfl | rfl | rfl
    · exact (belongs_nat_iff g (column + 1) row p).mp hb
    · exact (belongs_nat_iff g (u32dec column) row p).mp hb
    · exact (belongs_nat_iff g column (row + 1) p).mp hb
    · exact (belongs_nat_iff g column (u32dec row) p).mp hb
  have hrel0 : URel g p {rootD g (row, column)} (rootD g (row, column)) g := by
    refine ⟨huf, hop, UFonly_refl g, Finset.mem_singleton_self _, ?_, ?_⟩
    · intro r hr
      rw [Finset.mem_singleton] at hr
      subst hr
      exact ⟨rootD_owned huf hop htf, rootD_isRoot g huf (pcells_subset_cellsF g p htf)⟩
    · intro d hd
      by_cases h : rootD g d ∈ ({rootD g (row, column)} : Finset Pos)
      · rw [if_pos h, (Finset.mem_singleton.mp h)]
      · rw [if_neg h]
  obtain ⟨R, hrel, hcount⟩ := unionFold_spec g p (row, column) huf hop
    (unionCand column row) g 0 {rootD g (row, column)} (rootD g (row, column))
    htf hcands hrel0 (Finset.mem_singleton_self _)
  have hset : ({rootD g (row, column)} : Finset Pos) ∪
      (((unionCand column row).filter (fun cd => belongs_to_player g cd.1 cd.2.1 p)).map
        (fun cd => rootD g cd.2.2)).toFinset = nbrRootsU g p column row := by
    rw [nbrRootsU, Finset.insert_eq]
  refine ⟨R, ?_, ?_⟩
  · rw [union_neighbors, hp, ← hset]
    exact hrel
  · rw [union_neighbors, hp, hcount, hset, Finset.card_singleton, Nat.zero_add]

/-! ### Connectivity congruence in the board ownership -/

theorem grow_congr {g1 g2 : Game} {q : Nat} (hp : pcells g1 q = pcells g2 q)
    (s : Finset Pos) : grow g1 q s = grow g2 q s := by
  rw [grow, grow, hp]

theorem closure_congr {g1 g2 : Game} {q : Nat} (hp : pcells g1 q = pcells g2 q)
    (hh : g1.height = g2.height) (hw : g1.width = g2.width) (a : Pos) :
    closure g1 q a = closure g2 q a := by
  rw [closure, closure, hh, hw, funext (grow_congr hp)]

theorem connP_congr {g1 g2 : Game} {q : Nat} (hp : pcells g1 q = pcells g2 q)
    (hh : g1.height = g2.height) (hw : g1.width = g2.width) (a b : Pos) :
    connP g1 q a b ↔ connP g2 q a b := by
  rw [connP, connP, hp, closure_congr hp hh hw]

theorem compCount_congr {g1 g2 : Game} {q : Nat} (hp : pcells g1 q = pcells g2 q)
    (hh : g1.height = g2.height) (hw : g1.width = g2.width) :
    compCount g1 q = compCount g2 q := by
  rw [compCount, compCount, components, components, hp]
  congr 1
  apply Finset.image_congr
  intro c _
  rw [compSet, compSet, hp]
  apply Finset.filter_congr
  intro d _
  exact connP_congr hp hh hw c d

theorem iterate_grow_mono_pcells {g1 g2 : Game} {q : Nat}
    (hp : pcells g1 q ⊆ pcells g2 q) (s : Finset Pos) (k : Nat) :
    (grow g1 q)^[k] s ⊆ (grow g2 q)^[k] s := by
  induction k with
  | zero => exact fun c h => h
  | succ n ih =>
    rw [Function.iterate_succ_apply', Function.iterate_succ_apply']
    intro c hc
    rw [grow, Finset.mem_union] at hc
    rcases hc with hc | hc
    · exact subset_grow g2 q _ (ih hc)
    · rw [Finset.mem_filter] at hc
      obtain ⟨hc1, hc2⟩ := hc
      simp only [List.any_eq_true, decide_eq_true_eq] at hc2
      obtain ⟨d, hd1, hd2⟩ := hc2
      exact mem_grow_of_nbr g2 q _ (ih hd2) (hp hc1) hd1

theorem closure_mono_pcells {g1 g2 : Game} {q : Nat}
    (hp : pcells g1 q ⊆ pcells g2 q) (hh : g1.height = g2.height)
    (hw : g1.width = g2.width) (a : Pos) : closure g1 q a ⊆ closure g2 q a := by
  rw [closure, closure, hh, hw]
  exact iterate_grow_mono_pcells hp {a} _

theorem connP_mono_pcells {g1 g2 : Game} {q : Nat}
    (hp : pcells g1 q ⊆ pcells g2 q) (hh : g1.height = g2.height)
    (hw : g1.width = g2.width) {a b : Pos} (h : connP g1 q a b) : connP g2 q a b :=
  ⟨hp h.1, closure_mono_pcells hp hh hw a h.2⟩

/-! ### Effect on connectivity of occupying one empty cell -/

/-- `a` is joined to the freshly placed cell `tf` through `g`'s board: some
neighbour candidate of `tf` is a `p`-cell of `g` connected to `a`. -/
def touches (g : Game) (p : Nat) (tf a : Pos) : Prop :=
  ∃ n ∈ nbrCand tf, n ∈ pcells g p ∧ connP g p n a

instance touches_dec (g : Game) (p : Nat) (tf a : Pos) : Decidable (touches g p tf a) :=
  List.decidableBEx _ (nbrCand tf)

theorem closure_notouch {gA gB : Game} {p : Nat} {tf : Pos}
    (hins : pcells gB p = insert tf (pcells gA p))
    (hh : gA.height = gB.height) (hw : gA.width = gB.width) {a : Pos}
    (ha : a ∈ pcells gA p) (hnt : ¬ touches gA p tf a) :
    closure gB p a ⊆ closure gA p a := by
  refine closure_subset_closed gB p a _ (self_mem_closure gA p a) ?_
  rintro c hc ⟨d, hd1, hd2⟩
  have hd2' : connP gA p a d := ⟨ha, hd2⟩
  by_cases hct : c = tf
  · subst hct
    exfalso
    have hdp : d ∈ pcells gA p := by
      have := closure_subset_union gA p a hd2
      rw [Finset.mem_union, Finset.mem_singleton] at this
      rcases this with h | h
      · subst h; exact ha
      · exact h
    exact hnt ⟨d, hd1, hdp, connP_symm gA p hd2'⟩
  · have hcA : c ∈ pcells gA p := by
      rw [hins, Finset.mem_insert] at hc
      tauto
    exact mem_closure_of_nbr gA p hd2 hcA hd1

theorem touches_connB {gA gB : Game} {p : Nat} {tf : Pos}
    (hins : pcells gB p = insert tf (pcells gA p))
    (hh : gA.height = gB.height) (hw : gA.width = gB.width) {a : Pos}
    (ha : a ∈ pcells gA p) (ht : touches gA p tf a) : connP gB p a tf := by
  obtain ⟨n, hn1, hn2, hn3⟩ := ht
  have hsub : pcells gA p ⊆ pcells gB p := by
    rw [hins]; exact Finset.subset_insert _ _
  have han : connP gB p a n :=
    connP_mono_pcells hsub hh hw (connP_symm gA p hn3)
  have htfB : tf ∈ pcells gB p := by rw [hins]; exact Finset.mem_insert_self _ _
  exact ⟨han.1, mem_closure_of_nbr gB p han.2 htfB hn1⟩

theorem connP_addcell {gA gB : Game} {p : Nat} {tf : Pos}
    (hins : pcells gB p = insert tf (pcells gA p))
    (hh : gA.height = gB.height) (hw : gA.width = gB.width) {a b : Pos}
    (ha : a ∈ pcells gA p) (hb : b ∈ pcells gA p) :
    connP gB p a b ↔ connP gA p a b ∨ (touches gA p tf a ∧ touches gA p tf b) := by
  constructor
  · intro h
    by_cases hta : touches gA p tf a
    · by_cases htb : touches gA p tf b
      · exact Or.inr ⟨hta, htb⟩
      · exfalso
        have h' := connP_symm gB p h
        have hba : connP gA p b a :=
          ⟨hb, closure_notouch hins hh hw hb htb h'.2⟩
        obtain ⟨n, hn1, hn2, hn3⟩ := hta
        exact htb ⟨n, hn1, hn2, connP_trans gA p hn3 (connP_symm gA p hba)⟩
    · exact Or.inl ⟨ha, closure_notouch hins hh hw ha hta h.2⟩
  · rintro (h | ⟨hta, htb⟩)
    · exact connP_mono_pcells (by rw [hins]; exact Finset.subset_insert _ _) hh hw h
    · have h1 := touches_connB hins hh hw ha hta
      have h2 := touches_connB hins hh hw hb htb
      exact connP_trans gB p h1 (connP_symm gB p h2)

theorem connP_addcell_tf {gA gB : Game} {p : Nat} {tf : Pos}
    (hins : pcells gB p = insert tf (pcells gA p)) (htfA : tf ∉ pcells gA p)
    (hh : gA.height = gB.height) (hw : gA.width = gB.width) {a : Pos}
    (ha : a ∈ pcells gA p) :
    connP gB p a tf ↔ touches gA p tf a := by
  constructor
  · intro h
    by_cases hta : touches gA p tf a
    · exact hta
    · exfalso
      have := closure_notouch hins hh hw ha hta h.2
      have h2 := closure_subset_union gA p a this
      rw [Finset.mem_union, Finset.mem_singleton] at h2
      rcases h2 with h2 | h2
      · exact htfA (h2 ▸ ha)
      · exact htfA h2
  · exact touches_connB hins hh hw ha

/-! ### Union-find representatives classify connectivity -/

/-- The union-find representative map classifies connectivity exactly: two
cells of one player have equal roots iff they are 4-connected through that
player's territory. -/
def UFrepr (g : Game) : Prop :=
  ∀ p : Nat, ∀ a ∈ pcells g p, ∀ b ∈ pcells g p,
    (rootD g a = rootD g b ↔ connP g p a b)

/-- Under a classifying union-find structure, the component count is the
number of distinct roots. -/
theorem compCount_eq_image_card {g : Game} (hrepr : UFrepr g) (p : Nat) :
    compCount g p = ((pcells g p).image (rootD g)).card := by
  rw [compCount, components]
  refine card_image_eq_of_ker (pcells g p) (compSet g p) (rootD g) ?_
  intro a ha b hb
  rw [compSet_eq_iff g p ha hb]
  exact (hrepr p a ha b hb).symm

/-! ### Neighbour candidates: Int-coordinate and Nat-position views -/

/-- `u32dec` on a positive in-range value is plain decrement. -/
theorem u32dec_pos {a : Nat} (h0 : 0 < a) (h32 : a < U32) : u32dec a = a - 1 := by
  have h32' : a < 4294967296 := h32
  rw [u32dec]
  show (a + 4294967295) % 4294967296 = a - 1
  omega

/-- `has_neighbor` at in-board Nat coordinates of a cell not owned by `p`
matches the `nbrCand` candidate list. -/
theorem has_neighbor_nbrCand (g : Game) (p x y : Nat)
    (hself : (y, x) ∉ pcells g p) :
    has_neighbor g (x : Int) (y : Int) p = true ↔
      ∃ n ∈ nbrCand (y, x), n ∈ pcells g p := by
  have e1 : ((x : Int) + 1) = ((x + 1 : Nat) : Int) := by push_cast; ring
  have e3 : ((y : Int) + 1) = ((y + 1 : Nat) : Int) := by push_cast; ring
  rw [has_neighbor, Bool.or_eq_true, Bool.or_eq_true, Bool.or_eq_true]
  rw [e1, e3, belongs_nat_iff, belongs_nat_iff]
  constructor
  · rintro (((h | h) | h) | h)
    · exact ⟨(y, x + 1), by simp [nbrCand], h⟩
    · rcases Nat.eq_zero_or_pos x with rfl | hx
      · exfalso
        revert h
        rw [show ((0 : Nat) : Int) - 1 = (-1 : Int) by norm_num]
        rw [belongs_to_player, is_within_board]
        simp
      · rw [show ((x : Int) - 1) = ((x - 1 : Nat) : Int) by omega, belongs_nat_iff] at h
        exact ⟨(y, x - 1), by simp [nbrCand], h⟩
    · exact ⟨(y + 1, x), by simp [nbrCand], h⟩
    · rcases Nat.eq_zero_or_pos y with rfl | hy
      · exfalso
        revert h
        rw [show ((0 : Nat) : Int) - 1 = (-1 : Int) by norm_num]
        rw [belongs_to_player, is_within_board]
        simp
      · rw [show ((y : Int) - 1) = ((y - 1 : Nat) : Int) by omega, belongs_nat_iff] at h
        exact ⟨(y - 1, x), by simp [nbrCand], h⟩
  · rintro ⟨n, hn1, hn2⟩
    simp only [nbrCand, List.mem_cons, List.not_mem_nil, or_false] at hn1
    rcases hn1 with rfl | rfl | rfl | rfl
    · exact Or.inl (Or.inl (Or.inl hn2))
    · exact Or.inl (Or.inr hn2)
    · rcases Nat.eq_zero_or_pos x with rfl | hx
      · exact absurd hn2 hself
      · refine Or.inl (Or.inl (Or.inr ?_))
        rw [show ((x : Int) - 1) = ((x - 1 : Nat) : Int) by omega, belongs_nat_iff]
        exact hn2
    · rcases Nat.eq_zero_or_pos y with rfl | hy
      · exact absurd hn2 hself
      · refine Or.inr ?_
        rw [show ((y : Int) - 1) = ((y - 1 : Nat) : Int) by omega, belongs_nat_iff]
        exact hn2

/-- The distinct neighbour classes of `tf` in `g`: the union-find roots of the
owned neighbour candidates. -/
def tRoots (g : Game) (p : Nat) (tf : Pos) : Finset Pos :=
  (((nbrCand tf).filter (fun n => decide (n ∈ pcells g p))).map (rootD g)).toFinset

/-- The owned-neighbour root classes that `union_neighbors` sees in the
post-placement board `gB` are the `tRoots` of the pre-placement board `gA`. -/
theorem unionCand_roots_eq (gB gA : Game) (p x y : Nat)
    (hroot : ∀ d, rootD gB d = rootD gA d)
    (hins : pcells gB p = insert (y, x) (pcells gA p))
    (htfA : (y, x) ∉ pcells gA p)
    (hx : x < gB.width) (hy : y < gB.height)
    (hw32 : gB.width < U32) (hh32 : gB.height < U32) :
    (((unionCand x y).filter (fun cd => belongs_to_player gB cd.1 cd.2.1 p)).map
      (fun cd => rootD gB cd.2.2)).toFinset = tRoots gA p (y, x) := by
  have hmemB : ∀ n : Pos, n ≠ (y, x) → (n ∈ pcells gB p ↔ n ∈ pcells gA p) := by
    intro n hne
    rw [hins, Finset.mem_insert]
    exact ⟨fun h => h.resolve_left hne, Or.inr⟩
  ext z
  simp only [List.mem_toFinset, List.mem_map, List.mem_filter, tRoots, unionCand, nbrCand,
    List.mem_cons, List.not_mem_nil, or_false, decide_eq_true_eq]
  constructor
  · rintro ⟨cd, ⟨hcd, hb⟩, hz⟩
    rcases hcd with rfl | rfl | rfl | rfl
    · rw [belongs_nat_iff] at hb
      have hb' := (hmemB _ (by intro hc; rw [Prod.ext_iff] at hc; omega)).mp hb
      exact ⟨(y, x + 1), ⟨Or.inl rfl, hb'⟩, by rw [← hz, hroot]⟩
    · rw [belongs_nat_iff] at hb
      rcases Nat.eq_zero_or_pos x with rfl | hxpos
      · exfalso
        rw [mem_pcells] at hb
        have h2 := hb.2.1
        have hw' : gB.width < 4294967296 := hw32
        rw [u32dec, U32] at h2
        omega
      · rw [u32dec_pos hxpos (lt_trans hx hw32)] at hb
        have hz' : rootD gB (y, u32dec x) = z := hz
        rw [u32dec_pos hxpos (lt_trans hx hw32)] at hz'
        have hb' := (hmemB _ (by intro hc; rw [Prod.ext_iff] at hc; omega)).mp hb
        exact ⟨(y, x - 1), ⟨Or.inr (Or.inr (Or.inl rfl)), hb'⟩, by rw [← hz', hroot]⟩
    · rw [belongs_nat_iff] at hb
      have hb' := (hmemB _ (by intro hc; rw [Prod.ext_iff] at hc; omega)).mp hb
      exact ⟨(y + 1, x), ⟨Or.inr (Or.inl rfl), hb'⟩, by rw [← hz, hroot]⟩
    · rw [belongs_nat_iff] at hb
      rcases Nat.eq_zero_or_pos y with rfl | hypos
      · exfalso
        rw [mem_pcells] at hb
        have h2 := hb.1
        have hh' : gB.height < 4294967296 := hh32
        rw [u32dec, U32] at h2
        omega
      · rw [u32dec_pos hypos (lt_trans hy hh32)] at hb
        have hz' : rootD gB (u32dec y, x) = z := hz
        rw [u32dec_pos hypos (lt_trans hy hh32)] at hz'
        have hb' := (hmemB _ (by intro hc; rw [Prod.ext_iff] at hc; omega)).mp hb
        exact ⟨(y - 1, x), ⟨Or.inr (Or.inr (Or.inr rfl)), hb'⟩, by rw [← hz', hroot]⟩
  · rintro ⟨n, ⟨hn, hmem⟩, hz⟩
    rcases hn with rfl | rfl | rfl | rfl
    · refine ⟨(((x + 1 : Nat) : Int), ((y : Nat) : Int), (y, x + 1)), ⟨Or.inl rfl, ?_⟩,
        by rw [hroot]; exact hz⟩
      rw [belongs_nat_iff]
      exact (hmemB _ (by intro hc; rw [Prod.ext_iff] at hc; omega)).mpr hmem
    · refine ⟨(((x : Nat) : Int), ((y + 1 : Nat) : Int), (y + 1, x)),
        ⟨Or.inr (Or.inr (Or.inl rfl)), ?_⟩, by rw [hroot]; exact hz⟩
      rw [belongs_nat_iff]
      exact (hmemB _ (by intro hc; rw [Prod.ext_iff] at hc; omega)).mpr hmem
    · rcases Nat.eq_zero_or_pos x with rfl | hxpos
      · exact absurd hmem htfA
      · refine ⟨(((u32dec x : Nat) : Int), ((y : Nat) : Int), (y, u32dec x)),
          ⟨Or.inr (Or.inl rfl), ?_⟩, ?_⟩
        · rw [belongs_nat_iff, u32dec_pos hxpos (lt_trans hx hw32)]
          exact (hmemB _ (by intro hc; rw [Prod.ext_iff] at hc; omega)).mpr hmem
        · rw [u32dec_pos hxpos (lt_trans hx hw32), hroot]
          exact hz
    · rcases Nat.eq_zero_or_pos y with rfl | hypos
      · exact absurd hmem htfA
      · refine ⟨(((x : Nat) : Int), ((u32dec y : Nat) : Int), (u32dec y, x)),
          ⟨Or.inr (Or.inr (Or.inr rfl)), ?_⟩, ?_⟩
        · rw [belongs_nat_iff, u32dec_pos hypos (lt_trans hy hh32)]
          exact (hmemB _ (by intro hc; rw [Prod.ext_iff] at hc; omega)).mpr hmem
        · rw [u32dec_pos hypos (lt_trans hy hh32), hroot]
          exact hz

/-! ### Placing a stone on an empty cell -/

/-- Board-level facts about a state `gB` that agrees with `gA` everywhere
except that the empty cell `(y, x)` now holds a stone of player `p` (same
parent and any rank there). -/
theorem place_cell_facts (gA gB : Game) (p x y : Nat)
    (hufA : UFok gA) (hopA : HownerParent gA)
    (hh : gB.height = gA.height) (hw : gB.width = gA.width)
    (hx : x < gA.width) (hy : y < gA.height)
    (hboard_ne : ∀ c : Pos, c ≠ (y, x) → gB.board c.1 c.2 = gA.board c.1 c.2)
    (htf_e : (gB.board y x).empty = false) (htf_p : (gB.board y x).player = p)
    (htf_par : (gB.board y x).parent = (gA.board y x).parent)
    (hA_e : (gA.board y x).empty = true) :
    (∀ d, parentOf gB d = parentOf gA d) ∧
    pcells gB p = insert (y, x) (pcells gA p) ∧
    (∀ q, q ≠ p → pcells gB q = pcells gA q) ∧
    (y, x) ∉ pcells gA p ∧
    UFok gB ∧ HownerParent gB ∧ rootD gB (y, x) = (y, x) := by
  have htfcellA : (y, x) ∈ cellsF gA := (mem_cellsF gA _).mpr ⟨hy, hx⟩
  have hpar : ∀ d, parentOf gB d = parentOf gA d := by
    intro d
    by_cases hd : d = (y, x)
    · subst hd
      rw [parentOf, parentOf]
      exact htf_par
    · rw [parentOf, parentOf, hboard_ne d hd]
  have hcells : cellsF gB = cellsF gA := by rw [cellsF, cellsF, hh, hw]
  have hins : pcells gB p = insert (y, x) (pcells gA p) := by
    ext c
    by_cases hc : c = (y, x)
    · subst hc
      rw [mem_pcells, hh, hw]
      simp only [Finset.mem_insert]
      exact ⟨fun _ => Or.inl trivial, fun _ => ⟨hy, hx, htf_e, htf_p⟩⟩
    · rw [mem_pcells, Finset.mem_insert, mem_pcells, hh, hw, hboard_ne c hc]
      simp only [hc, false_or]
  have htfA_not : (y, x) ∉ pcells gA p := by
    rw [mem_pcells]
    rintro ⟨-, -, he, -⟩
    rw [hA_e] at he
    cases he
  have hqeq : ∀ q, q ≠ p → pcells gB q = pcells gA q := by
    intro q hq
    ext c
    by_cases hc : c = (y, x)
    · subst hc
      rw [mem_pcells, mem_pcells]
      constructor
      · rintro ⟨-, -, -, hpq⟩
        exact absurd (htf_p ▸ hpq.symm) hq
      · rintro ⟨-, -, he, -⟩
        rw [hA_e] at he
        cases he
    · rw [mem_pcells, mem_pcells, hh, hw, hboard_ne c hc]
  have hparA_tf : parentOf gA (y, x) = (y, x) := empty_parent_self hopA htfcellA hA_e
  have hopB : HownerParent gB := by
    intro c hc hne
    rw [hpar] at hne
    by_cases hctf : c = (y, x)
    · subst hctf
      exact absurd hparA_tf hne
    · rw [hcells] at hc
      obtain ⟨h1, h2, h3⟩ := hopA c hc hne
      have hptf : parentOf gA c ≠ (y, x) := by
        intro hcontra
        rw [hcontra] at h2
        rw [hA_e] at h2
        cases h2
      rw [hpar c, hboard_ne c hctf, hboard_ne _ hptf]
      exact ⟨h1, h2, h3⟩
  refine ⟨hpar, hins, hqeq, htfA_not, UFok_congr hpar hcells hufA, hopB, ?_⟩
  apply rootD_of_isRoot
  rw [isRoot, hpar]
  exact hparA_tf

/-- Placing one stone and running `union_neighbors`: the union-find structure
becomes classifying again and the merge counter reports exactly the number of
distinct neighbouring classes of the new stone. -/
theorem place_union_spec (gA gB : Game) (p x y : Nat)
    (hufA : UFok gA) (hopA : HownerParent gA) (hreprA : UFrepr gA)
    (hh : gB.height = gA.height) (hw : gB.width = gA.width)
    (hw32 : gA.width < U32) (hh32 : gA.height < U32)
    (hx : x < gA.width) (hy : y < gA.height)
    (hboard_ne : ∀ c : Pos, c ≠ (y, x) → gB.board c.1 c.2 = gA.board c.1 c.2)
    (htf_e : (gB.board y x).empty = false) (htf_p : (gB.board y x).player = p)
    (htf_par : (gB.board y x).parent = (gA.board y x).parent)
    (hA_e : (gA.board y x).empty = true) :
    UFok (union_neighbors gB x y).1 ∧ HownerParent (union_neighbors gB x y).1 ∧
    UFonly (union_neighbors gB x y).1 gB ∧ UFrepr (union_neighbors gB x y).1 ∧
    (union_neighbors gB x y).2 = (tRoots gA p (y, x)).card ∧
    compCount gB p + (tRoots gA p (y, x)).card = compCount gA p + 1 ∧
    (∀ q, q ≠ p → compCount gB q = compCount gA q) ∧
    (tRoots gA p (y, x)).card ≤ compCount gA p := by
  obtain ⟨hpar, hins, hqeq, htfA_not, hufB, hopB, hrtfB⟩ :=
    place_cell_facts gA gB p x y hufA hopA hh hw hx hy hboard_ne htf_e htf_p htf_par hA_e
  have hcells : cellsF gB = cellsF gA := by rw [cellsF, cellsF, hh, hw]
  have hroot : ∀ d, rootD gB d = rootD gA d := rootD_congr hpar hh hw
  have htfB : (y, x) ∈ pcells gB p := by rw [hins]; exact Finset.mem_insert_self _ _
  obtain ⟨R, hrel, hmerged⟩ := union_neighbors_spec gB p x y hufB hopB htf_p htfB
  obtain ⟨hufH, hopH, hUFonlyH, hRNR, hSprop, hptH⟩ := hrel
  have hNReq : nbrRootsU gB p x y = insert (y, x) (tRoots gA p (y, x)) := by
    rw [nbrRootsU, hrtfB,
      unionCand_roots_eq gB gA p x y hroot hins htfA_not (hw ▸ hx) (hh ▸ hy)
        (hw ▸ hw32) (hh ▸ hh32)]
  have htR_mem : ∀ z ∈ tRoots gA p (y, x), z ∈ pcells gA p := by
    intro z hz
    simp only [tRoots, List.mem_toFinset, List.mem_map, List.mem_filter,
      decide_eq_true_eq] at hz
    obtain ⟨n, ⟨-, hn2⟩, rfl⟩ := hz
    exact rootD_owned hufA hopA hn2
  have htR_sub : tRoots gA p (y, x) ⊆ (pcells gA p).image (rootD gA) := by
    intro z hz
    simp only [tRoots, List.mem_toFinset, List.mem_map, List.mem_filter,
      decide_eq_true_eq] at hz
    obtain ⟨n, ⟨-, hn2⟩, rfl⟩ := hz
    exact Finset.mem_image_of_mem _ hn2
  have htf_not_tR : (y, x) ∉ tRoots gA p (y, x) := fun h => htfA_not (htR_mem _ h)
  have hcardNR : (nbrRootsU gB p x y).card = (tRoots gA p (y, x)).card + 1 := by
    rw [hNReq, Finset.card_insert_of_not_mem htf_not_tR]
  have htouch_iff : ∀ a ∈ pcells gA p,
      (rootD gA a ∈ nbrRootsU gB p x y ↔ touches gA p (y, x) a) := by
    intro a ha
    rw [hNReq, Finset.mem_insert]
    have hra : rootD gA a ∈ pcells gA p := rootD_owned hufA hopA ha
    have hne : rootD gA a ≠ (y, x) := fun h => htfA_not (h ▸ hra)
    simp only [hne, false_or]
    simp only [tRoots, List.mem_toFinset, List.mem_map, List.mem_filter,
      decide_eq_true_eq, touches]
    constructor
    · rintro ⟨n, ⟨hn1, hn2⟩, hn3⟩
      exact ⟨n, hn1, hn2, (hreprA p n hn2 a ha).mp hn3⟩
    · rintro ⟨n, hn1, hn2, hn3⟩
      exact ⟨n, ⟨hn1, hn2⟩, (hreprA p n hn2 a ha).mpr hn3⟩
  have hptH' : ∀ d ∈ cellsF gA, rootD (union_neighbors gB x y).1 d =
      if rootD gA d ∈ nbrRootsU gB p x y then R else rootD gA d := by
    intro d hd
    rw [hptH d (by rw [hcells]; exact hd), hroot d]
  have hrootH_tf : rootD (union_neighbors gB x y).1 (y, x) = R := by
    rw [hptH (y, x) (by rw [hcells]; exact (mem_cellsF gA _).mpr ⟨hy, hx⟩), hrtfB,
      if_pos (by rw [hNReq]; exact Finset.mem_insert_self _ _)]
  have hrootH_oldT : ∀ a ∈ pcells gA p, touches gA p (y, x) a →
      rootD (union_neighbors gB x y).1 a = R := by
    intro a ha ht
    rw [hptH' a (pcells_subset_cellsF gA p ha), if_pos ((htouch_iff a ha).mpr ht)]
  have hrootH_oldF : ∀ a ∈ pcells gA p, ¬ touches gA p (y, x) a →
      rootD (union_neighbors gB x y).1 a = rootD gA a := by
    intro a ha ht
    rw [hptH' a (pcells_subset_cellsF gA p ha),
      if_neg (fun h => ht ((htouch_iff a ha).mp h))]
  have hR_old_ne : ∀ a ∈ pcells gA p, ¬ touches gA p (y, x) a → rootD gA a ≠ R := by
    intro a ha ht h
    exact ht ((htouch_iff a ha).mp (h ▸ hRNR))
  have hdimsH : (union_neighbors gB x y).1.height = gB.height ∧
      (union_neighbors gB x y).1.width = gB.width := ⟨hUFonlyH.2.2.1, hUFonlyH.2.2.2.1⟩
  have hpcH : ∀ q, pcells (union_neighbors gB x y).1 q = pcells gB q :=
    pcells_of_UFonly hUFonlyH
  have hreprH : UFrepr (union_neighbors gB x y).1 := by
    intro q a ha b hb
    rw [hpcH q] at ha hb
    by_cases hqp : q = p
    · rw [hqp] at ha hb ⊢
      have hconn : connP (union_neighbors gB x y).1 p a b ↔ connP gB p a b :=
        connP_of_UFonly hUFonlyH p a b
      rw [hins, Finset.mem_insert] at ha hb
      rcases ha with rfl | ha
      · rcases hb with rfl | hb
        · exact iff_of_true rfl
            (connP_refl _ p (by rw [hpcH p, hins]; exact Finset.mem_insert_self _ _))
        · rw [hrootH_tf, hconn]
          have hiff : connP gB p (y, x) b ↔ touches gA p (y, x) b := by
            constructor
            · intro h
              exact (connP_addcell_tf hins htfA_not hh.symm hw.symm hb).mp (connP_symm gB p h)
            · intro h
              exact connP_symm gB p ((connP_addcell_tf hins htfA_not hh.symm hw.symm hb).mpr h)
          rw [hiff]
          by_cases ht : touches gA p (y, x) b
          · rw [hrootH_oldT b hb ht]
            exact iff_of_true rfl ht
          · rw [hrootH_oldF b hb ht]
            exact iff_of_false (fun h => (hR_old_ne b hb ht) h.symm) ht
      · rcases hb with rfl | hb
        · rw [hrootH_tf, hconn]
          have hiff : connP gB p a (y, x) ↔ touches gA p (y, x) a :=
            connP_addcell_tf hins htfA_not hh.symm hw.symm ha
          rw [hiff]
          by_cases ht : touches gA p (y, x) a
          · rw [hrootH_oldT a ha ht]
            exact iff_of_true rfl ht
          · rw [hrootH_oldF a ha ht]
            exact iff_of_false (hR_old_ne a ha ht) ht
        · rw [hconn, connP_addcell hins hh.symm hw.symm ha hb]
          by_cases hta : touches gA p (y, x) a
          · by_cases htb : touches gA p (y, x) b
            · rw [hrootH_oldT a ha hta, hrootH_oldT b hb htb]
              exact iff_of_true rfl (Or.inr ⟨hta, htb⟩)
            · rw [hrootH_oldT a ha hta, hrootH_oldF b hb htb]
              refine iff_of_false (fun h => (hR_old_ne b hb htb) h.symm) ?_
              rintro (h | ⟨-, h⟩)
              · obtain ⟨n, hn1, hn2, hn3⟩ := hta
                exact htb ⟨n, hn1, hn2, connP_trans gA p hn3 h⟩
              · exact htb h
          · by_cases htb : touches gA p (y, x) b
            · rw [hrootH_oldF a ha hta, hrootH_oldT b hb htb]
              refine iff_of_false (hR_old_ne a ha hta) ?_
              rintro (h | ⟨h, -⟩)
              · obtain ⟨n, hn1, hn2, hn3⟩ := htb
                exact hta ⟨n, hn1, hn2, connP_trans gA p hn3 (connP_symm gA p h)⟩
              · exact hta h
            · rw [hrootH_oldF a ha hta, hrootH_oldF b hb htb]
              rw [hreprA p a ha b hb]
              exact ⟨Or.inl, fun h => by
                rcases h with h | ⟨h, -⟩
                · exact h
                · exact absurd h hta⟩
    · rw [hqeq q hqp] at ha hb
      have hconn : connP (union_neighbors gB x y).1 q a b ↔ connP gB q a b :=
        connP_of_UFonly hUFonlyH q a b
      have hnotin : ∀ c ∈ pcells gA q, rootD gA c ∉ nbrRootsU gB p x y := by
        intro c hc hmem
        rw [hNReq, Finset.mem_insert] at hmem
        have hrc : rootD gA c ∈ pcells gA q := rootD_owned hufA hopA hc
        rcases hmem with h | h
        · rw [mem_pcells] at hrc
          have := hrc.2.2.1
          rw [h] at this
          rw [hA_e] at this
          cases this
        · have hrp : rootD gA c ∈ pcells gA p := htR_mem _ h
          rw [mem_pcells] at hrc hrp
          exact hqp (hrc.2.2.2 ▸ hrp.2.2.2)
      have hra : rootD (union_neighbors gB x y).1 a = rootD gA a := by
        rw [hptH' a (pcells_subset_cellsF gA q ha), if_neg (hnotin a ha)]
      have hrb : rootD (union_neighbors gB x y).1 b = rootD gA b := by
        rw [hptH' b (pcells_subset_cellsF gA q hb), if_neg (hnotin b hb)]
      rw [hra, hrb, hconn, connP_congr (hqeq q hqp) hh hw, hreprA q a ha b hb]
  have hccB : compCount gB p = ((pcells gB p).image (rootD (union_neighbors gB x y).1)).card := by
    rw [compCount, components]
    refine card_image_eq_of_ker (pcells gB p) (compSet gB p)
      (rootD (union_neighbors gB x y).1) ?_
    intro a ha b hb
    rw [compSet_eq_iff gB p ha hb, ← connP_of_UFonly hUFonlyH p a b]
    exact (hreprH p a (by rw [hpcH p]; exact ha) b (by rw [hpcH p]; exact hb)).symm
  have himg : (pcells gB p).image (rootD (union_neighbors gB x y).1) =
      insert R (((pcells gA p).image (rootD gA)) \ tRoots gA p (y, x)) := by
    rw [hins, Finset.image_insert, hrootH_tf]
    ext z
    simp only [Finset.mem_insert]
    constructor
    · rintro (rfl | hz)
      · exact Or.inl rfl
      · obtain ⟨a, ha, hz⟩ := Finset.mem_image.mp hz
        by_cases ht : touches gA p (y, x) a
        · rw [hrootH_oldT a ha ht] at hz
          exact Or.inl hz.symm
        · rw [hrootH_oldF a ha ht] at hz
          right
          rw [Finset.mem_sdiff]
          refine ⟨hz ▸ Finset.mem_image_of_mem _ ha, ?_⟩
          intro hmem
          exact ht ((htouch_iff a ha).mp
            (by rw [hNReq]; exact Finset.mem_insert_of_mem (hz ▸ hmem)))
    · rintro (rfl | hz)
      · exact Or.inl rfl
      · rw [Finset.mem_sdiff] at hz
        obtain ⟨hzi, hznot⟩ := hz
        obtain ⟨a, ha, hza⟩ := Finset.mem_image.mp hzi
        right
        have ht : ¬ touches gA p (y, x) a := by
          intro ht
          have := (htouch_iff a ha).mpr ht
          rw [hNReq, Finset.mem_insert] at this
          rcases this with h | h
          · exact htfA_not (h ▸ rootD_owned hufA hopA ha)
          · exact hznot (hza ▸ h)
        refine Finset.mem_image.mpr ⟨a, ha, ?_⟩
        rw [hrootH_oldF a ha ht]
        exact hza
  have hRnot : R ∉ ((pcells gA p).image (rootD gA)) \ tRoots gA p (y, x) := by
    intro h
    rw [Finset.mem_sdiff] at h
    have hmem : R ∈ nbrRootsU gB p x y := hRNR
    rw [hNReq, Finset.mem_insert] at hmem
    rcases hmem with rfl | hmem
    · obtain ⟨a, ha, hz⟩ := Finset.mem_image.mp h.1
      exact htfA_not (hz ▸ rootD_owned hufA hopA ha)
    · exact h.2 hmem
  have hBcard : ((pcells gA p).image (rootD gA)).card = compCount gA p :=
    (compCount_eq_image_card hreprA p).symm
  have htRle : (tRoots gA p (y, x)).card ≤ compCount gA p :=
    hBcard ▸ Finset.card_le_card htR_sub
  have hcard : compCount gB p =
      compCount gA p - (tRoots gA p (y, x)).card + 1 := by
    rw [hccB, himg, Finset.card_insert_of_not_mem hRnot, Finset.card_sdiff htR_sub, hBcard]
  refine ⟨hufH, hopH, hUFonlyH, hreprH, ?_, ?_, ?_, htRle⟩
  · rw [hmerged, hcardNR]
    omega
  · omega
  · intro q hq
    exact compCount_congr (hqeq q hq) hh hw

/-! ### The decrement loop of `decrement_neighbors_border_empty_fields` -/

/-- The owners of the occupied fields in a neighbour-slot list. -/
def ownersF : List (Option Field) → Finset Nat
  | [] => ∅
  | none :: r => ownersF r
  | some f :: r => if f.empty then ownersF r else insert f.player (ownersF r)

theorem ownersF_nil : ownersF [] = ∅ := rfl

theorem ownersF_none (r : List (Option Field)) : ownersF (none :: r) = ownersF r := rfl

theorem ownersF_some (f : Field) (r : List (Option Field)) :
    ownersF (some f :: r) =
      if f.empty then ownersF r else insert f.player (ownersF r) := rfl

theorem nullOutPlayer_cons_none (q : Nat) (r : List (Option Field)) :
    nullOutPlayer q (none :: r) = none :: nullOutPlayer q r := rfl

theorem nullOutPlayer_cons_some (q : Nat) (f : Field) (r : List (Option Field)) :
    nullOutPlayer q (some f :: r) =
      (if f.player = q then none else some f) :: nullOutPlayer q r := rfl

theorem decLoop_zero (g : Game) (l : List (Option Field)) : decLoop 0 g l = g := rfl

theorem decLoop_nil (n : Nat) (g : Game) : decLoop (n + 1) g [] = g := rfl

theorem decLoop_none (n : Nat) (g : Game) (r : List (Option Field)) :
    decLoop (n + 1) g (none :: r) = decLoop n g r := rfl

theorem decLoop_some (n : Nat) (g : Game) (f : Field) (r : List (Option Field)) :
    decLoop (n + 1) g (some f :: r) =
      if f.empty then decLoop n g r
      else decLoop n (updPlayer g (f.player % g.players_num) (fun pr =>
        { pr with border_empty_fields := sub64 pr.border_empty_fields 1 }))
        (nullOutPlayer f.player r) := rfl

theorem ownersF_nullOut (q : Nat) : ∀ l : List (Option Field),
    ownersF (nullOutPlayer q l) = (ownersF l).erase q := by
  intro l
  induction l with
  | nil =>
    rw [ownersF_nil, Finset.erase_empty]
    rfl
  | cons o r ih =>
    match o with
    | none => rw [nullOutPlayer_cons_none, ownersF_none, ownersF_none, ih]
    | some f =>
      rw [nullOutPlayer_cons_some]
      by_cases hq : f.player = q
      · rw [if_pos hq, ownersF_none, ih, ownersF_some]
        by_cases he : f.empty
        · rw [if_pos he]
        · rw [if_neg he, hq, Finset.erase_insert_eq_erase]
      · rw [if_neg hq, ownersF_some, ownersF_some, ih]
        by_cases he : f.empty
        · rw [if_pos he, if_pos he]
        · rw [if_neg he, if_neg he, Finset.erase_insert_of_ne hq]

theorem mem_ownersF (q : Nat) : ∀ l : List (Option Field),
    (q ∈ ownersF l ↔ ∃ f, some f ∈ l ∧ f.empty = false ∧ f.player = q) := by
  intro l
  induction l with
  | nil => simp [ownersF_nil]
  | cons o r ih =>
    match o with
    | none =>
      rw [ownersF_none, ih]
      simp only [List.mem_cons]
      constructor
      · rintro ⟨f, h1, h2, h3⟩
        exact ⟨f, Or.inr h1, h2, h3⟩
      · rintro ⟨f, h1 | h1, h2, h3⟩
        · cases h1
        · exact ⟨f, h1, h2, h3⟩
    | some f =>
      rw [ownersF_some]
      by_cases he : f.empty
      · rw [if_pos he, ih]
        simp only [List.mem_cons]
        constructor
        · rintro ⟨f2, h1, h2, h3⟩
          exact ⟨f2, Or.inr h1, h2, h3⟩
        · rintro ⟨f2, h1 | h1, h2, h3⟩
          · rw [Option.some.injEq] at h1
            rw [h1, he] at h2
            cases h2
          · exact ⟨f2, h1, h2, h3⟩
      · rw [if_neg he, Finset.mem_insert, ih]
        simp only [List.mem_cons]
        constructor
        · rintro (rfl | ⟨f2, h1, h2, h3⟩)
          · exact ⟨f, Or.inl rfl, Bool.not_eq_true _ ▸ he, rfl⟩
          · exact ⟨f2, Or.inr h1, h2, h3⟩
        · rintro ⟨f2, h1 | h1, h2, h3⟩
          · rw [Option.some.injEq] at h1
            rw [h1] at h3
            exact Or.inl h3.symm
          · exact Or.inr ⟨f2, h1, h2, h3⟩

/-- The decrement loop subtracts 1 from the border counter of every distinct
owner occurring in the slot list (owners distinct modulo the player-table size
by hypothesis), and touches nothing else in the player table. -/
theorem decLoop_spec : ∀ (fuel : Nat) (l : List (Option Field)) (g : Game),
    l.length ≤ fuel →
    (∀ q1 ∈ ownersF l, ∀ q2 ∈ ownersF l,
      q1 % g.players_num = q2 % g.players_num → q1 = q2) →
    ∀ j, (decLoop fuel g l).players j =
      if ∃ q ∈ ownersF l, q % g.players_num = j then
        { g.players j with border_empty_fields := sub64 (g.players j).border_empty_fields 1 }
      else g.players j := by
  intro fuel
  induction fuel with
  | zero =>
    intro l g hlen hinj j
    have hl : l = [] := List.eq_nil_of_length_eq_zero (Nat.le_zero.mp hlen)
    subst hl
    rw [decLoop_zero, ownersF_nil]
    simp
  | succ n ih =>
    intro l g hlen hinj j
    match l with
    | [] =>
      rw [decLoop_nil, ownersF_nil]
      simp
    | none :: r =>
      rw [decLoop_none, ownersF_none]
      rw [ownersF_none] at hinj
      exact ih r g (by simpa using Nat.le_of_succ_le_succ hlen) hinj j
    | some f :: r =>
      rw [decLoop_some]
      by_cases he : f.empty
      · rw [if_pos he]
        have hof : ownersF (some f :: r) = ownersF r := by rw [ownersF_some, if_pos he]
        rw [hof]
        rw [hof] at hinj
        exact ih r g (by simpa using Nat.le_of_succ_le_succ hlen) hinj j
      · rw [if_neg he]
        have hof : ownersF (some f :: r) = insert f.player (ownersF r) := by
          rw [ownersF_some, if_neg he]
        have hlen2 : (nullOutPlayer f.player r).length ≤ n := by
          rw [nullOutPlayer, List.length_map]
          simpa using Nat.le_of_succ_le_succ hlen
        have hsub : ownersF (nullOutPlayer f.player r) ⊆ ownersF (some f :: r) := by
          rw [ownersF_nullOut, hof]
          intro z hz
          exact Finset.mem_insert_of_mem (Finset.mem_of_mem_erase hz)
        have hN : (updPlayer g (f.player % g.players_num) (fun pr =>
            { pr with border_empty_fields := sub64 pr.border_empty_fields 1 })).players_num =
            g.players_num := rfl
        have hinj2 : ∀ q1 ∈ ownersF (nullOutPlayer f.player r),
            ∀ q2 ∈ ownersF (nullOutPlayer f.player r),
            q1 % g.players_num = q2 % g.players_num → q1 = q2 :=
          fun q1 h1 q2 h2 h12 => hinj q1 (hsub h1) q2 (hsub h2) h12
        rw [ih (nullOutPlayer f.player r) _ hlen2 (by rw [hN]; exact hinj2) j]
        rw [ownersF_nullOut, hN, hof]
        rw [updPlayer_players]
        by_cases hex : ∃ q ∈ (ownersF r).erase f.player, q % g.players_num = j
        · obtain ⟨q, hq, hqj⟩ := hex
          have hqne : q ≠ f.player := (Finset.mem_erase.mp hq).1
          have hjne : ¬ (j = f.player % g.players_num) := by
            intro hj
            exact hqne (hinj q (hof ▸ Finset.mem_insert_of_mem (Finset.mem_of_mem_erase hq))
              f.player (hof ▸ Finset.mem_insert_self _ _) (hqj.trans hj))
          rw [if_pos ⟨q, hq, hqj⟩, if_neg hjne,
            if_pos ⟨q, Finset.mem_insert_of_mem (Finset.mem_of_mem_erase hq), hqj⟩]
        · rw [if_neg hex]
          by_cases hj : j = f.player % g.players_num
          · rw [if_pos hj, if_pos ⟨f.player, Finset.mem_insert_self _ _, hj.symm⟩]
          · have hcond : ¬ ∃ q ∈ insert f.player (ownersF r), q % g.players_num = j := by
              rintro ⟨q, hq, hqj⟩
              rw [Finset.mem_insert] at hq
              rcases hq with rfl | hq
              · exact hj hqj.symm
              · by_cases hqf : q = f.player
                · subst hqf
                  exact hj hqj.symm
                · exact hex ⟨q, Finset.mem_erase.mpr ⟨hqf, hq⟩, hqj⟩
            rw [if_neg hj, if_neg hcond]

/-! ### Border bookkeeping: `new_border_empty_fields` as a set size -/

theorem borderInd_none (g : Game) (x y : Int) (p : Nat) (h : get_field g x y = none) :
    borderInd g x y p = 0 := by rw [borderInd, h]

theorem borderInd_some (g : Game) (x y : Int) (p : Nat) (f : Field)
    (h : get_field g x y = some f) :
    borderInd g x y p = if f.empty && !has_neighbor g x y p then 1 else 0 := by
  rw [borderInd, h]

theorem belongs_decomp (g : Game) (X Y : Int) (q : Nat) :
    belongs_to_player g X Y q = true ↔
      is_within_board g X Y = true ∧ (boardAt g X Y).empty = false ∧
      (boardAt g X Y).player = q := by
  rw [belongs_to_player]
  simp only [Bool.and_eq_true, Bool.not_eq_true', decide_eq_true_eq]
  tauto

theorem is_within_nat (g : Game) (u v : Nat) :
    is_within_board g (u : Int) (v : Int) = true ↔ u < g.width ∧ v < g.height := by
  rw [is_within_board]
  simp only [Bool.and_eq_true, decide_eq_true_eq, Nat.cast_nonneg, true_and, Nat.cast_lt]
  try tauto

/-- `borderInd` at Nat-cast coordinates, as an indicator of the gain
predicate. -/
theorem borderInd_eq_ind (g : Game) (p u v : Nat) :
    borderInd g (u : Int) (v : Int) p =
      if v < g.height ∧ u < g.width ∧ (g.board v u).empty = true ∧
          ¬∃ d ∈ nbrCand (v, u), d ∈ pcells g p then 1 else 0 := by
  by_cases hwin : is_within_board g (u : Int) (v : Int) = true
  · have huv := (is_within_nat g u v).mp hwin
    have hget : get_field g (u : Int) (v : Int) = some (g.board v u) := by
      rw [get_field, if_pos hwin, boardAt]
      norm_num
    rw [borderInd_some g _ _ p _ hget]
    by_cases hemp : (g.board v u).empty = true
    · have hself : (v, u) ∉ pcells g p := by
        rw [mem_pcells]
        rintro ⟨-, -, he, -⟩
        rw [hemp] at he
        cases he
      by_cases hex : ∃ d ∈ nbrCand (v, u), d ∈ pcells g p
      · have hnb : has_neighbor g (u : Int) (v : Int) p = true :=
          (has_neighbor_nbrCand g p u v hself).mpr hex
        have hL : (if (g.board v u).empty && !has_neighbor g (u : Int) (v : Int) p
            then 1 else 0) = 0 := by
          rw [hemp, hnb]
          simp
        rw [hL, if_neg (by rintro ⟨-, -, -, h⟩; exact h hex)]
      · have hnb : has_neighbor g (u : Int) (v : Int) p = false := by
          rw [← Bool.not_eq_true, has_neighbor_nbrCand g p u v hself]
          exact hex
        have hL : (if (g.board v u).empty && !has_neighbor g (u : Int) (v : Int) p
            then 1 else 0) = 1 := by
          rw [hemp, hnb]
          simp
        rw [hL, if_pos ⟨huv.2, huv.1, hemp, hex⟩]
    · rw [Bool.not_eq_true] at hemp
      have hL : (if (g.board v u).empty && !has_neighbor g (u : Int) (v : Int) p
          then 1 else 0) = 0 := by
        rw [hemp]
        simp
      rw [hL, if_neg (by rintro ⟨-, -, h, -⟩; rw [hemp] at h; cases h)]
  · have hget : get_field g (u : Int) (v : Int) = none := by
      rw [get_field, if_neg hwin]
    rw [borderInd_none g _ _ p hget]
    rw [if_neg (by rintro ⟨hv, hu, -, -⟩; exact hwin ((is_within_nat g u v).mpr ⟨hu, hv⟩))]

/-- One candidate slot of the gain set: the singleton `{c}` when `c` is a cell
other than `tf`, on the board, empty, with no `p`-owned neighbour. -/
def gside (g : Game) (p : Nat) (tf c : Pos) : Finset Pos :=
  if c ≠ tf ∧ c.1 < g.height ∧ c.2 < g.width ∧ (g.board c.1 c.2).empty = true ∧
      ¬∃ d ∈ nbrCand c, d ∈ pcells g p then {c} else ∅

/-- The empty cells adjacent to `(y, x)` that have no `p`-owned neighbour in
`g`: exactly the cells that `new_border_empty_fields` counts. -/
def gainB (g : Game) (p : Nat) (x y : Nat) : Finset Pos :=
  gside g p (y, x) (y, x + 1) ∪ gside g p (y, x) (y + 1, x) ∪
  gside g p (y, x) (y, x - 1) ∪ gside g p (y, x) (y - 1, x)

theorem mem_gside (g : Game) (p : Nat) (tf c z : Pos) :
    z ∈ gside g p tf c ↔ z = c ∧ c ≠ tf ∧ c.1 < g.height ∧ c.2 < g.width ∧
      (g.board c.1 c.2).empty = true ∧ ¬∃ d ∈ nbrCand c, d ∈ pcells g p := by
  rw [gside]
  by_cases hc : c ≠ tf ∧ c.1 < g.height ∧ c.2 < g.width ∧ (g.board c.1 c.2).empty = true ∧
      ¬∃ d ∈ nbrCand c, d ∈ pcells g p
  · rw [if_pos hc, Finset.mem_singleton]
    exact ⟨fun h => ⟨h, hc⟩, fun h => h.1⟩
  · rw [if_neg hc]
    simp only [Finset.not_mem_empty, false_iff]
    rintro ⟨-, h⟩
    exact hc h

theorem card_gside (g : Game) (p : Nat) (tf c : Pos) :
    (gside g p tf c).card =
      if c ≠ tf ∧ c.1 < g.height ∧ c.2 < g.width ∧ (g.board c.1 c.2).empty = true ∧
        ¬∃ d ∈ nbrCand c, d ∈ pcells g p then 1 else 0 := by
  rw [gside]
  by_cases hc : c ≠ tf ∧ c.1 < g.height ∧ c.2 < g.width ∧ (g.board c.1 c.2).empty = true ∧
      ¬∃ d ∈ nbrCand c, d ∈ pcells g p
  · rw [if_pos hc, if_pos hc, Finset.card_singleton]
  · rw [if_neg hc, if_neg hc, Finset.card_empty]

theorem gside_disj (g : Game) (p : Nat) (tf c1 c2 : Pos) (h : c1 = c2 → c1 = tf) :
    Disjoint (gside g p tf c1) (gside g p tf c2) := by
  rw [Finset.disjoint_left]
  intro z hz1 hz2
  rw [mem_gside] at hz1 hz2
  have hc12 : c1 = c2 := hz1.1.symm.trans hz2.1
  exact hz1.2.1 (h hc12)

theorem mem_gainB (g : Game) (p x y : Nat) (z : Pos) :
    z ∈ gainB g p x y ↔ z ∈ nbrCand (y, x) ∧ z ≠ (y, x) ∧ z.1 < g.height ∧
      z.2 < g.width ∧ (g.board z.1 z.2).empty = true ∧
      ¬∃ d ∈ nbrCand z, d ∈ pcells g p := by
  rw [gainB]
  simp only [Finset.mem_union, mem_gside]
  constructor
  · rintro (((⟨rfl, h⟩ | ⟨rfl, h⟩) | ⟨rfl, h⟩) | ⟨rfl, h⟩)
    · exact ⟨by simp [nbrCand], h⟩
    · exact ⟨by simp [nbrCand], h⟩
    · exact ⟨by simp [nbrCand], h⟩
    · exact ⟨by simp [nbrCand], h⟩
  · rintro ⟨hmem, h⟩
    simp only [nbrCand, List.mem_cons, List.not_mem_nil, or_false] at hmem
    rcases hmem with rfl | rfl | rfl | rfl
    · exact Or.inl (Or.inl (Or.inl ⟨rfl, h⟩))
    · exact Or.inl (Or.inl (Or.inr ⟨rfl, h⟩))
    · exact Or.inl (Or.inr ⟨rfl, h⟩)
    · exact Or.inr ⟨rfl, h⟩

/-- `new_border_empty_fields` counts exactly the gain set. -/
theorem new_border_card (g : Game) (p x y : Nat) :
    new_border_empty_fields g (x : Int) (y : Int) p = (gainB g p x y).card := by
  have d12 : Disjoint (gside g p (y, x) (y, x + 1)) (gside g p (y, x) (y + 1, x)) :=
    gside_disj g p _ _ _ (by intro h; rw [Prod.ext_iff] at h; omega)
  have d13 : Disjoint (gside g p (y, x) (y, x + 1)) (gside g p (y, x) (y, x - 1)) :=
    gside_disj g p _ _ _ (by intro h; rw [Prod.ext_iff] at h; omega)
  have d14 : Disjoint (gside g p (y, x) (y, x + 1)) (gside g p (y, x) (y - 1, x)) :=
    gside_disj g p _ _ _ (by intro h; rw [Prod.ext_iff] at h; omega)
  have d23 : Disjoint (gside g p (y, x) (y + 1, x)) (gside g p (y, x) (y, x - 1)) :=
    gside_disj g p _ _ _ (by intro h; rw [Prod.ext_iff] at h; omega)
  have d24 : Disjoint (gside g p (y, x) (y + 1, x)) (gside g p (y, x) (y - 1, x)) :=
    gside_disj g p _ _ _ (by intro h; rw [Prod.ext_iff] at h; omega)
  have d34 : Disjoint (gside g p (y, x) (y, x - 1)) (gside g p (y, x) (y - 1, x)) := by
    refine gside_disj g p _ _ _ ?_
    intro h
    rw [Prod.ext_iff] at h ⊢
    omega
  have hcard : (gainB g p x y).card =
      (gside g p (y, x) (y, x + 1)).card + (gside g p (y, x) (y + 1, x)).card +
      (gside g p (y, x) (y, x - 1)).card + (gside g p (y, x) (y - 1, x)).card := by
    rw [gainB, Finset.card_union_of_disjoint
        (by rw [Finset.disjoint_union_left]; exact ⟨Finset.disjoint_union_left.mpr ⟨d14, d24⟩
          |>.mono_left (le_refl _) |>.mono_left (le_refl _), d34⟩),
      Finset.card_union_of_disjoint (Finset.disjoint_union_left.mpr ⟨d13, d23⟩),
      Finset.card_union_of_disjoint d12]
  have hb1 : borderInd g ((x : Int) + 1) (y : Int) p = (gside g p (y, x) (y, x + 1)).card := by
    rw [show ((x : Int) + 1) = ((x + 1 : Nat) : Int) by push_cast; ring, borderInd_eq_ind,
      card_gside]
    refine if_congr ?_ rfl rfl
    constructor
    · rintro ⟨hv, hu, he, hx2⟩
      exact ⟨by intro hc; rw [Prod.ext_iff] at hc; omega, hv, hu, he, hx2⟩
    · rintro ⟨-, hv, hu, he, hx2⟩
      exact ⟨hv, hu, he, hx2⟩
  have hb2 : borderInd g (x : Int) ((y : Int) + 1) p = (gside g p (y, x) (y + 1, x)).card := by
    rw [show ((y : Int) + 1) = ((y + 1 : Nat) : Int) by push_cast; ring, borderInd_eq_ind,
      card_gside]
    refine if_congr ?_ rfl rfl
    constructor
    · rintro ⟨hv, hu, he, hx2⟩
      exact ⟨by intro hc; rw [Prod.ext_iff] at hc; omega, hv, hu, he, hx2⟩
    · rintro ⟨-, hv, hu, he, hx2⟩
      exact ⟨hv, hu, he, hx2⟩
  have hb3 : borderInd g ((x : Int) - 1) (y : Int) p = (gside g p (y, x) (y, x - 1)).card := by
    rcases Nat.eq_zero_or_pos x with rfl | hxpos
    · rw [show ((0 : Nat) : Int) - 1 = (-1 : Int) by norm_num]
      rw [borderInd_none g _ _ p (by rw [get_field, if_neg (by rw [is_within_board]; simp)])]
      rw [gside, if_neg (by rintro ⟨hne, -⟩; exact hne rfl), Finset.card_empty]
    · rw [show ((x : Int) - 1) = ((x - 1 : Nat) : Int) by omega, borderInd_eq_ind, card_gside]
      refine if_congr ?_ rfl rfl
      constructor
      · rintro ⟨hv, hu, he, hx2⟩
        exact ⟨by intro hc; rw [Prod.ext_iff] at hc; omega, hv, hu, he, hx2⟩
      · rintro ⟨-, hv, hu, he, hx2⟩
        exact ⟨hv, hu, he, hx2⟩
  have hb4 : borderInd g (x : Int) ((y : Int) - 1) p = (gside g p (y, x) (y - 1, x)).card := by
    rcases Nat.eq_zero_or_pos y with rfl | hypos
    · rw [show ((0 : Nat) : Int) - 1 = (-1 : Int) by norm_num]
      rw [borderInd_none g _ _ p (by rw [get_field, if_neg (by rw [is_within_board]; simp)])]
      rw [gside, if_neg (by rintro ⟨hne, -⟩; exact hne rfl), Finset.card_empty]
    · rw [show ((y : Int) - 1) = ((y - 1 : Nat) : Int) by omega, borderInd_eq_ind, card_gside]
      refine if_congr ?_ rfl rfl
      constructor
      · rintro ⟨hv, hu, he, hx2⟩
        exact ⟨by intro hc; rw [Prod.ext_iff] at hc; omega, hv, hu, he, hx2⟩
      · rintro ⟨-, hv, hu, he, hx2⟩
        exact ⟨hv, hu, he, hx2⟩
  rw [new_border_empty_fields, hb1, hb2, hb3, hb4, hcard]
  ring

theorem inPB_iff (g : Game) (p : Nat) (c : Pos) : inPB g p c = true ↔ c ∈ pcells g p := by
  rw [mem_pcells, inPB]
  simp only [Bool.and_eq_true, decide_eq_true_eq, Bool.not_eq_true']
  tauto

/-- Border-cell sets after placing a stone of `p` on the empty cell `(y, x)`:
`p` loses the cell itself and gains its empty neighbours that had no `p`-owned
neighbour before; every other player just loses the cell. -/
theorem borderCells_place (gA gB : Game) (p x y : Nat)
    (hh : gB.height = gA.height) (hw : gB.width = gA.width)
    (hboard_ne : ∀ c : Pos, c ≠ (y, x) → gB.board c.1 c.2 = gA.board c.1 c.2)
    (htf_e : (gB.board y x).empty = false) (htf_p : (gB.board y x).player = p)
    (hA_e : (gA.board y x).empty = true)
    (hx : x < gA.width) (hy : y < gA.height) :
    borderCells gB p = ((borderCells gA p).erase (y, x)) ∪ gainB gA p x y ∧
    Disjoint ((borderCells gA p).erase (y, x)) (gainB gA p x y) ∧
    (∀ q, q ≠ p → borderCells gB q = (borderCells gA q).erase (y, x)) := by
  have hne_in : ∀ q : Nat, ∀ d : Pos, d ≠ (y, x) → inPB gB q d = inPB gA q d := by
    intro q d hd
    rw [inPB, inPB, hh, hw, hboard_ne d hd]
  have htfB_in : inPB gB p (y, x) = true := by
    rw [inPB_iff, mem_pcells, hh, hw]
    exact ⟨hy, hx, htf_e, htf_p⟩
  have htfA_in : ∀ q, inPB gA q (y, x) = false := by
    intro q
    rw [← Bool.not_eq_true, inPB_iff, mem_pcells]
    rintro ⟨-, -, he, -⟩
    rw [hA_e] at he
    cases he
  have htfB_q : ∀ q, q ≠ p → inPB gB q (y, x) = false := by
    intro q hq
    rw [← Bool.not_eq_true, inPB_iff, mem_pcells]
    rintro ⟨-, -, -, hp2⟩
    exact hq (htf_p ▸ hp2.symm)
  have hemp_ne : ∀ z : Pos, z ≠ (y, x) → (gB.board z.1 z.2).empty = (gA.board z.1 z.2).empty := by
    intro z hz
    rw [hboard_ne z hz]
  refine ⟨?_, ?_, ?_⟩
  · ext z
    rw [Finset.mem_union, mem_borderCells, Finset.mem_erase, mem_borderCells, mem_gainB, hh, hw]
    constructor
    · rintro ⟨hbounds, hemp, d, hd1, hd2⟩
      have hznetf : z ≠ (y, x) := by
        intro hz
        rw [hz] at hemp
        rw [htf_e] at hemp
        cases hemp
      have hempA : (gA.board z.1 z.2).empty = true := (hemp_ne z hznetf) ▸ hemp
      by_cases hex : ∃ d2 ∈ nbrCand z, inPB gA p d2 = true
      · obtain ⟨d2, hd21, hd22⟩ := hex
        exact Or.inl ⟨hznetf, hbounds, hempA, d2, hd21, hd22⟩
      · right
        have hdtf : d = (y, x) := by
          by_contra hdne
          exact hex ⟨d, hd1, (hne_in p d hdne) ▸ hd2⟩
        refine ⟨(mem_nbrCand_symm hznetf).mp (hdtf ▸ hd1), hznetf, hbounds.1, hbounds.2,
          hempA, ?_⟩
        rintro ⟨d2, hd21, hd22⟩
        exact hex ⟨d2, hd21, (inPB_iff gA p d2).mpr hd22⟩
    · rintro (⟨hzne, hbounds, hemp, d, hd1, hd2⟩ | ⟨hadj, hzne, hb1, hb2, hemp, hnb⟩)
      · have hdne : d ≠ (y, x) := by
          intro hd
          rw [hd, htfA_in p] at hd2
          cases hd2
        exact ⟨hbounds, (hemp_ne z hzne) ▸ hemp, d, hd1, (hne_in p d hdne) ▸ hd2⟩
      · refine ⟨⟨hb1, hb2⟩, (hemp_ne z hzne) ▸ hemp, (y, x),
          (mem_nbrCand_symm hzne).mpr hadj, htfB_in⟩
  · rw [Finset.disjoint_left]
    intro z hz1 hz2
    rw [Finset.mem_erase, mem_borderCells] at hz1
    rw [mem_gainB] at hz2
    obtain ⟨-, -, -, d, hd1, hd2⟩ := hz1
    exact hz2.2.2.2.2.2 ⟨d, hd1, (inPB_iff gA p d).mp hd2⟩
  · intro q hq
    ext z
    rw [mem_borderCells, Finset.mem_erase, mem_borderCells, hh, hw]
    constructor
    · rintro ⟨hbounds, hemp, d, hd1, hd2⟩
      have hznetf : z ≠ (y, x) := by
        intro hz
        rw [hz] at hemp
        rw [htf_e] at hemp
        cases hemp
      have hdne : d ≠ (y, x) := by
        intro hd
        rw [hd, htfB_q q hq] at hd2
        cases hd2
      exact ⟨hznetf, hbounds, (hemp_ne z hznetf) ▸ hemp, d, hd1, (hne_in q d hdne) ▸ hd2⟩
    · rintro ⟨hzne, hbounds, hemp, d, hd1, hd2⟩
      have hdne : d ≠ (y, x) := by
        intro hd
        rw [hd, htfA_in q] at hd2
        cases hd2
      exact ⟨hbounds, (hemp_ne z hzne) ▸ hemp, d, hd1, (hne_in q d hdne) ▸ hd2⟩

/-- Border-cell sets after the owner of the occupied cell `(y, x)` changes
from `q0` to `p`: `p` gains the adjacent empty cells that had no `p`-owned
neighbour, `q0` loses the adjacent empty cells that retain no other `q0`-owned
neighbour, and every other player's border set is unchanged. -/
theorem borderCells_golden (gA gB : Game) (p q0 x y : Nat)
    (hh : gB.height = gA.height) (hw : gB.width = gA.width)
    (hboard_ne : ∀ c : Pos, c ≠ (y, x) → gB.board c.1 c.2 = gA.board c.1 c.2)
    (htf_eB : (gB.board y x).empty = false) (htf_pB : (gB.board y x).player = p)
    (htf_eA : (gA.board y x).empty = false) (htf_pA : (gA.board y x).player = q0)
    (hpq : p ≠ q0)
    (hx : x < gA.width) (hy : y < gA.height) :
    borderCells gB p = borderCells gA p ∪ gainB gA p x y ∧
    Disjoint (borderCells gA p) (gainB gA p x y) ∧
    borderCells gB q0 = borderCells gA q0 \ gainB gB q0 x y ∧
    gainB gB q0 x y ⊆ borderCells gA q0 ∧
    (∀ r, r ≠ p → r ≠ q0 → borderCells gB r = borderCells gA r) := by
  have hne_in : ∀ q : Nat, ∀ d : Pos, d ≠ (y, x) → inPB gB q d = inPB gA q d := by
    intro q d hd
    rw [inPB, inPB, hh, hw, hboard_ne d hd]
  have htfB_in : inPB gB p (y, x) = true := by
    rw [inPB_iff, mem_pcells, hh, hw]
    exact ⟨hy, hx, htf_eB, htf_pB⟩
  have htfA_in : inPB gA q0 (y, x) = true := by
    rw [inPB_iff, mem_pcells]
    exact ⟨hy, hx, htf_eA, htf_pA⟩
  have htfA_r : ∀ r, r ≠ q0 → inPB gA r (y, x) = false := by
    intro r hr
    rw [← Bool.not_eq_true, inPB_iff, mem_pcells]
    rintro ⟨-, -, -, hp2⟩
    exact hr (htf_pA ▸ hp2.symm)
  have htfB_r : ∀ r, r ≠ p → inPB gB r (y, x) = false := by
    intro r hr
    rw [← Bool.not_eq_true, inPB_iff, mem_pcells]
    rintro ⟨-, -, -, hp2⟩
    exact hr (htf_pB ▸ hp2.symm)
  have hemp_ne : ∀ z : Pos, z ≠ (y, x) →
      (gB.board z.1 z.2).empty = (gA.board z.1 z.2).empty := by
    intro z hz
    rw [hboard_ne z hz]
  refine ⟨?_, ?_, ?_, ?_, ?_⟩
  · ext z
    rw [Finset.mem_union, mem_borderCells, mem_borderCells, mem_gainB, hh, hw]
    constructor
    · rintro ⟨hbounds, hemp, d, hd1, hd2⟩
      have hznetf : z ≠ (y, x) := by
        intro hz
        rw [hz] at hemp
        rw [htf_eB] at hemp
        cases hemp
      have hempA : (gA.board z.1 z.2).empty = true := (hemp_ne z hznetf) ▸ hemp
      by_cases hex : ∃ d2 ∈ nbrCand z, inPB gA p d2 = true
      · obtain ⟨d2, hd21, hd22⟩ := hex
        exact Or.inl ⟨hbounds, hempA, d2, hd21, hd22⟩
      · right
        have hdtf : d = (y, x) := by
          by_contra hdne
          exact hex ⟨d, hd1, (hne_in p d hdne) ▸ hd2⟩
        refine ⟨(mem_nbrCand_symm hznetf).mp (hdtf ▸ hd1), hznetf, hbounds.1, hbounds.2,
          hempA, ?_⟩
        rintro ⟨d2, hd21, hd22⟩
        exact hex ⟨d2, hd21, (inPB_iff gA p d2).mpr hd22⟩
    · rintro (⟨hbounds, hemp, d, hd1, hd2⟩ | ⟨hadj, hzne, hb1, hb2, hemp, hnb⟩)
      · have hznetf : z ≠ (y, x) := by
          intro hz
          rw [hz] at hemp
          rw [htf_eA] at hemp
          cases hemp
        have hdne : d ≠ (y, x) := by
          intro hd
          rw [hd, htfA_r p hpq] at hd2
          cases hd2
        exact ⟨hbounds, (hemp_ne z hznetf) ▸ hemp, d, hd1, (hne_in p d hdne) ▸ hd2⟩
      · refine ⟨⟨hb1, hb2⟩, (hemp_ne z hzne) ▸ hemp, (y, x),
          (mem_nbrCand_symm hzne).mpr hadj, htfB_in⟩
  · rw [Finset.disjoint_left]
    intro z hz1 hz2
    rw [mem_borderCells] at hz1
    rw [mem_gainB] at hz2
    obtain ⟨-, -, d, hd1, hd2⟩ := hz1
    exact hz2.2.2.2.2.2 ⟨d, hd1, (inPB_iff gA p d).mp hd2⟩
  · ext z
    rw [Finset.mem_sdiff, mem_borderCells, mem_borderCells, mem_gainB, hh, hw]
    constructor
    · rintro ⟨hbounds, hemp, d, hd1, hd2⟩
      have hznetf : z ≠ (y, x) := by
        intro hz
        rw [hz] at hemp
        rw [htf_eB] at hemp
        cases hemp
      have hdne : d ≠ (y, x) := by
        intro hd
        rw [hd, htfB_r q0 (fun h => hpq h.symm)] at hd2
        cases hd2
      refine ⟨⟨hbounds, (hemp_ne z hznetf) ▸ hemp, d, hd1, (hne_in q0 d hdne) ▸ hd2⟩, ?_⟩
      rintro ⟨-, -, -, -, -, hnb⟩
      exact hnb ⟨d, hd1, (inPB_iff gB q0 d).mp hd2⟩
    · rintro ⟨⟨hbounds, hemp, d, hd1, hd2⟩, hnot⟩
      have hznetf : z ≠ (y, x) := by
        intro hz
        rw [hz] at hemp
        rw [htf_eA] at hemp
        cases hemp
      have hempB : (gB.board z.1 z.2).empty = true := (hemp_ne z hznetf).symm ▸ hemp
      by_cases hadj : z ∈ nbrCand (y, x)
      · by_cases hexB : ∃ d2 ∈ nbrCand z, d2 ∈ pcells gB q0
        · obtain ⟨d2, hd21, hd22⟩ := hexB
          exact ⟨hbounds, hempB, d2, hd21, (inPB_iff gB q0 d2).mpr hd22⟩
        · exact absurd ⟨hadj, hznetf, hbounds.1, hbounds.2, hempB, hexB⟩ hnot
      · have hdne : d ≠ (y, x) := by
          intro hd
          rw [hd] at hd1
          exact hadj ((mem_nbrCand_symm hznetf).mp hd1)
        exact ⟨hbounds, hempB, d, hd1, (hne_in q0 d hdne).symm ▸ hd2⟩
  · intro z hz
    rw [mem_gainB] at hz
    obtain ⟨hadj, hzne, hb1, hb2, hemp, -⟩ := hz
    rw [mem_borderCells]
    exact ⟨⟨hh ▸ hb1, hw ▸ hb2⟩, (hemp_ne z hzne) ▸ hemp, (y, x),
      (mem_nbrCand_symm hzne).mpr hadj, htfA_in⟩
  · intro r hrp hrq
    ext z
    rw [mem_borderCells, mem_borderCells, hh, hw]
    constructor
    · rintro ⟨hbounds, hemp, d, hd1, hd2⟩
      have hznetf : z ≠ (y, x) := by
        intro hz
        rw [hz] at hemp
        rw [htf_eB] at hemp
        cases hemp
      have hdne : d ≠ (y, x) := by
        intro hd
        rw [hd, htfB_r r hrp] at hd2
        cases hd2
      exact ⟨hbounds, (hemp_ne z hznetf) ▸ hemp, d, hd1, (hne_in r d hdne) ▸ hd2⟩
    · rintro ⟨hbounds, hemp, d, hd1, hd2⟩
      have hznetf : z ≠ (y, x) := by
        intro hz
        rw [hz] at hemp
        rw [htf_eA] at hemp
        cases hemp
      have hdne : d ≠ (y, x) := by
        intro hd
        rw [hd, htfA_r r hrq] at hd2
        cases hd2
      exact ⟨hbounds, (hemp_ne z hznetf).symm ▸ hemp, d, hd1, (hne_in r d hdne).symm ▸ hd2⟩

/-! ### Transfer of structural facts along board-preserving state changes -/

theorem parentOf_of_board_eq {g1 g2 : Game} (hb : g1.board = g2.board) :
    ∀ d, parentOf g1 d = parentOf g2 d := by
  intro d
  rw [parentOf, parentOf, hb]

theorem cellsF_of_dims_eq {g1 g2 : Game} (hh : g1.height = g2.height)
    (hw : g1.width = g2.width) : cellsF g1 = cellsF g2 := by
  rw [cellsF, cellsF, hh, hw]

theorem pcells_of_board_eq {g1 g2 : Game} (hb : g1.board = g2.board)
    (hh : g1.height = g2.height) (hw : g1.width = g2.width) (q : Nat) :
    pcells g1 q = pcells g2 q := by
  ext c
  rw [mem_pcells, mem_pcells, hb, hh, hw]

theorem occCells_of_board_eq {g1 g2 : Game} (hb : g1.board = g2.board)
    (hh : g1.height = g2.height) (hw : g1.width = g2.width) :
    occCells g1 = occCells g2 := by
  ext c
  rw [mem_occCells, mem_occCells, hb, hh, hw]

theorem borderCells_of_board_eq {g1 g2 : Game} (hb : g1.board = g2.board)
    (hh : g1.height = g2.height) (hw : g1.width = g2.width) (q : Nat) :
    borderCells g1 q = borderCells g2 q := by
  ext c
  rw [mem_borderCells, mem_borderCells, hb, hh, hw]
  have : ∀ d, inPB g1 q d = inPB g2 q d := by
    intro d
    rw [inPB, inPB, hb, hh, hw]
  constructor
  · rintro ⟨h1, h2, d, hd1, hd2⟩
    exact ⟨h1, h2, d, hd1, (this d) ▸ hd2⟩
  · rintro ⟨h1, h2, d, hd1, hd2⟩
    exact ⟨h1, h2, d, hd1, (this d).symm ▸ hd2⟩

theorem UFok_of_board_eq {g1 g2 : Game} (hb : g1.board = g2.board)
    (hh : g1.height = g2.height) (hw : g1.width = g2.width) (h : UFok g2) : UFok g1 :=
  UFok_congr (parentOf_of_board_eq hb) (cellsF_of_dims_eq hh hw) h

theorem HownerParent_of_board_eq {g1 g2 : Game} (hb : g1.board = g2.board)
    (hh : g1.height = g2.height) (hw : g1.width = g2.width) (h : HownerParent g2) :
    HownerParent g1 := by
  intro c hc hne
  rw [cellsF_of_dims_eq hh hw] at hc
  rw [parentOf_of_board_eq hb] at hne ⊢
  rw [hb]
  exact h c hc hne

theorem UFrepr_of_board_eq {g1 g2 : Game} (hb : g1.board = g2.board)
    (hh : g1.height = g2.height) (hw : g1.width = g2.width) (h : UFrepr g2) :
    UFrepr g1 := by
  intro q a ha b hb2
  rw [pcells_of_board_eq hb hh hw] at ha hb2
  rw [rootD_congr (parentOf_of_board_eq hb) hh hw, rootD_congr (parentOf_of_board_eq hb) hh hw,
    connP_congr (pcells_of_board_eq hb hh hw q) hh hw]
  exact h q a ha b hb2

theorem compCount_of_board_eq {g1 g2 : Game} (hb : g1.board = g2.board)
    (hh : g1.height = g2.height) (hw : g1.width = g2.width) (q : Nat) :
    compCount g1 q = compCount g2 q :=
  compCount_congr (pcells_of_board_eq hb hh hw q) hh hw

/-! ### Auxiliary counting and arithmetic facts -/

theorem tRoots_card_le (g : Game) (p : Nat) (tf : Pos) : (tRoots g p tf).card ≤ 4 := by
  have h1 := List.toFinset_card_le (((nbrCand tf).filter
    (fun n => decide (n ∈ pcells g p))).map (rootD g))
  have h2 : (((nbrCand tf).filter (fun n => decide (n ∈ pcells g p))).map (rootD g)).length ≤
      4 := by
    rw [List.length_map]
    calc ((nbrCand tf).filter (fun n => decide (n ∈ pcells g p))).length
        ≤ (nbrCand tf).length := List.length_filter_le _ _
      _ = 4 := rfl
  exact le_trans h1 h2

theorem tRoots_card_zero_iff (g : Game) (p : Nat) (tf : Pos) :
    (tRoots g p tf).card = 0 ↔ ¬∃ n ∈ nbrCand tf, n ∈ pcells g p := by
  rw [Finset.card_eq_zero, tRoots]
  constructor
  · intro h
    rintro ⟨n, hn1, hn2⟩
    have : rootD g n ∈ (((nbrCand tf).filter
        (fun n => decide (n ∈ pcells g p))).map (rootD g)).toFinset := by
      rw [List.mem_toFinset, List.mem_map]
      exact ⟨n, List.mem_filter.mpr ⟨hn1, by rw [decide_eq_true_eq]; exact hn2⟩, rfl⟩
    rw [h] at this
    exact absurd this (Finset.not_mem_empty _)
  · intro h
    rw [Finset.eq_empty_iff_forall_not_mem]
    intro z hz
    rw [List.mem_toFinset, List.mem_map] at hz
    obtain ⟨n, hn, -⟩ := hz
    rw [List.mem_filter, decide_eq_true_eq] at hn
    exact h ⟨n, hn.1, hn.2⟩

/-- Wrap-safe area counter update: `areas := areas + 1 - merged` in `uint32`,
applied to a stored value `cc % 2^32`, yields `cc' % 2^32` whenever
`cc' + merged = cc + 1`. -/
theorem areas_arith (cc cc2 m : Nat) (hm : m < U32) (h : cc2 + m = cc + 1) :
    sub32 (add32 (cc % U32) 1) m = cc2 % U32 := by
  rw [add32, sub32]
  have hmm : m % U32 = m := Nat.mod_eq_of_lt hm
  rw [hmm]
  show ((cc % 4294967296 + 1) % 4294967296 + (4294967296 - m)) % 4294967296 =
    cc2 % 4294967296
  have hm2 : m < 4294967296 := hm
  omega

/-- The owners of the four neighbour slots are the players owning a neighbour
of `(x, y)`. -/
theorem mem_ownersF_neighbors (g : Game) (x y : Int) (q : Nat) :
    q ∈ ownersF [get_field g (x + 1) y, get_field g (x - 1) y,
      get_field g x (y + 1), get_field g x (y - 1)] ↔ has_neighbor g x y q := by
  rw [mem_ownersF, has_neighbor]
  simp only [List.mem_cons, List.not_mem_nil, or_false, Bool.or_eq_true]
  have hbel : ∀ (X Y : Int) f, get_field g X Y = some f → f.empty = false → f.player = q →
      belongs_to_player g X Y q = true := by
    intro X Y f hXY hfe hfp
    rw [get_field] at hXY
    by_cases hwin : is_within_board g X Y = true
    · rw [if_pos hwin, Option.some.injEq] at hXY
      rw [belongs_decomp]
      exact ⟨hwin, hXY.symm ▸ hfe, hXY.symm ▸ hfp⟩
    · rw [if_neg hwin] at hXY
      cases hXY
  have hfld : ∀ (X Y : Int), belongs_to_player g X Y q = true →
      get_field g X Y = some (boardAt g X Y) ∧ (boardAt g X Y).empty = false ∧
        (boardAt g X Y).player = q := by
    intro X Y hb
    rw [belongs_decomp] at hb
    exact ⟨by rw [get_field, if_pos hb.1], hb.2.1, hb.2.2⟩
  constructor
  · rintro ⟨f, hf, hfe, hfp⟩
    rcases hf with h | h | h | h
    · exact Or.inl (Or.inl (Or.inl (hbel _ _ f h.symm hfe hfp)))
    · exact Or.inl (Or.inl (Or.inr (hbel _ _ f h.symm hfe hfp)))
    · exact Or.inl (Or.inr (hbel _ _ f h.symm hfe hfp))
    · exact Or.inr (hbel _ _ f h.symm hfe hfp)
  · rintro (((h | h) | h) | h)
    · obtain ⟨h1, h2, h3⟩ := hfld _ _ h
      exact ⟨boardAt g (x + 1) y, Or.inl h1.symm, h2, h3⟩
    · obtain ⟨h1, h2, h3⟩ := hfld _ _ h
      exact ⟨boardAt g (x - 1) y, Or.inr (Or.inl h1.symm), h2, h3⟩
    · obtain ⟨h1, h2, h3⟩ := hfld _ _ h
      exact ⟨boardAt g x (y + 1), Or.inr (Or.inr (Or.inl h1.symm)), h2, h3⟩
    · obtain ⟨h1, h2, h3⟩ := hfld _ _ h
      exact ⟨boardAt g x (y - 1), Or.inr (Or.inr (Or.inr h1.symm)), h2, h3⟩

theorem occCells_place (gA gB : Game) (x y : Nat)
    (hh : gB.height = gA.height) (hw : gB.width = gA.width)
    (hboard_ne : ∀ c : Pos, c ≠ (y, x) → gB.board c.1 c.2 = gA.board c.1 c.2)
    (htf_e : (gB.board y x).empty = false) (hA_e : (gA.board y x).empty = true)
    (hx : x < gA.width) (hy : y < gA.height) :
    occCells gB = insert (y, x) (occCells gA) ∧ (y, x) ∉ occCells gA := by
  constructor
  · ext c
    by_cases hc : c = (y, x)
    · subst hc
      rw [mem_occCells, hh, hw]
      simp only [Finset.mem_insert]
      exact ⟨fun _ => Or.inl trivial, fun _ => ⟨hy, hx, htf_e⟩⟩
    · rw [mem_occCells, Finset.mem_insert, mem_occCells, hh, hw, hboard_ne c hc]
      simp only [hc, false_or]
  · rw [mem_occCells]
    rintro ⟨-, -, he⟩
    rw [hA_e] at he
    cases he

theorem cells_golden (gA gB : Game) (p q0 x y : Nat)
    (hh : gB.height = gA.height) (hw : gB.width = gA.width)
    (hboard_ne : ∀ c : Pos, c ≠ (y, x) → gB.board c.1 c.2 = gA.board c.1 c.2)
    (htf_eB : (gB.board y x).empty = false) (htf_pB : (gB.board y x).player = p)
    (htf_eA : (gA.board y x).empty = false) (htf_pA : (gA.board y x).player = q0)
    (hpq : p ≠ q0)
    (hx : x < gA.width) (hy : y < gA.height) :
    pcells gB p = insert (y, x) (pcells gA p) ∧ (y, x) ∉ pcells gA p ∧
    pcells gB q0 = (pcells gA q0).erase (y, x) ∧ (y, x) ∈ pcells gA q0 ∧
    (∀ r, r ≠ p → r ≠ q0 → pcells gB r = pcells gA r) ∧
    occCells gB = occCells gA := by
  refine ⟨?_, ?_, ?_, ?_, ?_, ?_⟩
  · ext c
    by_cases hc : c = (y, x)
    · subst hc
      rw [mem_pcells, hh, hw]
      simp only [Finset.mem_insert]
      exact ⟨fun _ => Or.inl trivial, fun _ => ⟨hy, hx, htf_eB, htf_pB⟩⟩
    · rw [mem_pcells, Finset.mem_insert, mem_pcells, hh, hw, hboard_ne c hc]
      simp only [hc, false_or]
  · rw [mem_pcells]
    rintro ⟨-, -, -, hp2⟩
    exact hpq (htf_pA ▸ hp2.symm)
  · ext c
    by_cases hc : c = (y, x)
    · subst hc
      rw [mem_pcells]
      simp only [Finset.mem_erase, ne_eq, not_true_eq_false, false_and, iff_false]
      rintro ⟨-, -, -, hp2⟩
      exact hpq (htf_pB ▸ hp2)
    · rw [mem_pcells, Finset.mem_erase, mem_pcells, hh, hw, hboard_ne c hc]
      simp only [hc, ne_eq, not_false_eq_true, true_and]
  · rw [mem_pcells]
    exact ⟨hy, hx, htf_eA, htf_pA⟩
  · intro r hrp hrq
    ext c
    by_cases hc : c = (y, x)
    · subst hc
      rw [mem_pcells, mem_pcells]
      constructor
      · rintro ⟨-, -, -, hp2⟩
        exact absurd (htf_pB ▸ hp2.symm) hrp
      · rintro ⟨-, -, -, hp2⟩
        exact absurd (htf_pA ▸ hp2.symm) hrq
    · rw [mem_pcells, mem_pcells, hh, hw, hboard_ne c hc]
  · ext c
    by_cases hc : c = (y, x)
    · subst hc
      rw [mem_occCells, mem_occCells, hh, hw]
      simp only [htf_eB, htf_eA, and_true]
    · rw [mem_occCells, mem_occCells, hh, hw, hboard_ne c hc]

theorem occCells_subset (g : Game) : occCells g ⊆ cellsF g := Finset.filter_subset _ _

theorem borderCells_subset (g : Game) (p : Nat) : borderCells g p ⊆ cellsF g :=
  Finset.filter_subset _ _

theorem card_le_cells {g : Game} {X : Finset Pos} (h : X ⊆ cellsF g) :
    X.card ≤ g.height * g.width := by
  calc X.card ≤ (cellsF g).card := Finset.card_le_card h
    _ = g.height * g.width := card_cellsF g

theorem hw_lt_U64 {g : Game} (hh32 : g.height < U32) (hw32 : g.width < U32) :
    g.height * g.width < U64 := by
  have h1 : g.height * g.width < U32 * U32 :=
    Nat.mul_lt_mul_of_lt_of_le hh32 (le_of_lt hw32) (by rw [U32]; omega)
  have h2 : U32 * U32 = U64 := by rw [U32, U64]
  rw [h2] at h1
  exact h1

/-! ### The master invariant of reachable states -/

/-- Every occupied cell's owner is a real player id. -/
def ownersValid (g : Game) : Prop :=
  ∀ c ∈ cellsF g, (g.board c.1 c.2).empty = false →
    1 ≤ (g.board c.1 c.2).player ∧ (g.board c.1 c.2).player ≤ g.players_num

/-- The master invariant: structural bounds, a classifying union-find forest,
valid owners, and correct counters.  The stored area counter is the component
count modulo 2^32 (exact, and within `max_areas`, whenever the whole board has
fewer than 2^32 cells). -/
def InvG (g : Game) : Prop :=
  0 < g.players_num ∧ 0 < g.width ∧ 0 < g.height ∧ 0 < g.max_areas ∧
  g.players_num < U32 ∧ g.width < U32 ∧ g.height < U32 ∧ g.max_areas < U32 ∧
  UFok g ∧ HownerParent g ∧ UFrepr g ∧ ownersValid g ∧
  g.occupied_fields = (occCells g).card ∧
  ∀ p, 1 ≤ p → p ≤ g.players_num →
    (g.players (p % g.players_num)).areas = compCount g p % U32 ∧
    (g.width * g.height < U32 → (g.players (p % g.players_num)).areas ≤ g.max_areas) ∧
    (g.players (p % g.players_num)).occupied_fields = (pcells g p).card ∧
    (g.players (p % g.players_num)).border_empty_fields = (borderCells g p).card

theorem hw_succ_lt_U64 {g : Game} (hh32 : g.height < U32) (hw32 : g.width < U32) :
    g.height * g.width + 5 < U64 := by
  have h1 : g.height * g.width ≤ (U32 - 1) * (U32 - 1) :=
    Nat.mul_le_mul (by omega) (by omega)
  have h2 : (U32 - 1) * (U32 - 1) + 5 < U64 := by
    rw [U32, U64]
    norm_num
  omega

theorem compCount_le_pcells (g : Game) (p : Nat) : compCount g p ≤ (pcells g p).card :=
  Finset.card_image_le

/-- A slot produced by `get_field` holds an on-board cell; if occupied, its
owner is a valid player id. -/
theorem get_field_some_valid (g : Game) (hov : ownersValid g) (X Y : Int) (f : Field)
    (h : get_field g X Y = some f) (hfe : f.empty = false) :
    1 ≤ f.player ∧ f.player ≤ g.players_num := by
  rw [get_field] at h
  by_cases hwin : is_within_board g X Y = true
  · rw [if_pos hwin, Option.some.injEq] at h
    rw [is_within_board] at hwin
    simp only [Bool.and_eq_true, decide_eq_true_eq] at hwin
    obtain ⟨⟨⟨hx0, hy0⟩, hxw⟩, hyh⟩ := hwin
    have hcell : (Y.toNat, X.toNat) ∈ cellsF g := by
      rw [mem_cellsF]
      constructor
      · omega
      · omega
    have := hov _ hcell
    rw [boardAt] at h
    rw [h] at this
    exact this hfe
  · rw [if_neg hwin] at h
    cases h

/-- `has_neighbor` at a cell's own coordinates only inspects the four strict
neighbours, so it is unchanged when the boards agree outside the cell. -/
theorem has_neighbor_board_eq_outside {g1 g2 : Game} (x y : Nat)
    (hdh : g1.height = g2.height) (hdw : g1.width = g2.width)
    (hne : ∀ c : Pos, c ≠ (y, x) →
      (g1.board c.1 c.2).player = (g2.board c.1 c.2).player ∧
      (g1.board c.1 c.2).empty = (g2.board c.1 c.2).empty) (q : Nat) :
    has_neighbor g1 (x : Int) (y : Int) q = has_neighbor g2 (x : Int) (y : Int) q := by
  have hwin : ∀ X Y : Int, is_within_board g1 X Y = is_within_board g2 X Y := by
    intro X Y
    rw [is_within_board, is_within_board, hdh, hdw]
  have hbel : ∀ X Y : Int, (Y.toNat, X.toNat) ≠ ((y, x) : Pos) ∨
      is_within_board g1 X Y = false →
      belongs_to_player g1 X Y q = belongs_to_player g2 X Y q := by
    rintro X Y (hpos | hout)
    · rw [belongs_to_player, belongs_to_player, hwin, boardAt, boardAt]
      have := hne (Y.toNat, X.toNat) hpos
      rw [this.1, this.2]
    · have hout2 : is_within_board g2 X Y = false := by rw [← hwin]; exact hout
      rw [belongs_to_player, belongs_to_player, hout, hout2]
      simp
  rw [has_neighbor, has_neighbor]
  have e1 : belongs_to_player g1 ((x : Int) + 1) (y : Int) q =
      belongs_to_player g2 ((x : Int) + 1) (y : Int) q := by
    refine hbel _ _ (Or.inl ?_)
    intro hc
    rw [Prod.ext_iff] at hc
    omega
  have e2 : belongs_to_player g1 ((x : Int) - 1) (y : Int) q =
      belongs_to_player g2 ((x : Int) - 1) (y : Int) q := by
    rcases Nat.eq_zero_or_pos x with rfl | hxpos
    · refine hbel _ _ (Or.inr ?_)
      rw [show ((0 : Nat) : Int) - 1 = (-1 : Int) by norm_num, is_within_board]
      simp
    · refine hbel _ _ (Or.inl ?_)
      intro hc
      rw [Prod.ext_iff] at hc
      have : ((x : Int) - 1).toNat = x - 1 := by omega
      rw [this] at hc
      omega
  have e3 : belongs_to_player g1 (x : Int) ((y : Int) + 1) q =
      belongs_to_player g2 (x : Int) ((y : Int) + 1) q := by
    refine hbel _ _ (Or.inl ?_)
    intro hc
    rw [Prod.ext_iff] at hc
    omega
  have e4 : belongs_to_player g1 (x : Int) ((y : Int) - 1) q =
      belongs_to_player g2 (x : Int) ((y : Int) - 1) q := by
    rcases Nat.eq_zero_or_pos y with rfl | hypos
    · refine hbel _ _ (Or.inr ?_)
      rw [show ((0 : Nat) : Int) - 1 = (-1 : Int) by norm_num, is_within_board]
      simp
    · refine hbel _ _ (Or.inl ?_)
      intro hc
      rw [Prod.ext_iff] at hc
      have : ((y : Int) - 1).toNat = y - 1 := by omega
      rw [this] at hc
      omega
  rw [e1, e2, e3, e4]

set_option maxHeartbeats 2000000 in
set_option linter.constructorNameAsVariable false in
/-- A successful `gamma_move` preserves the master invariant. -/
theorem gammaMoveApply_InvG (g : Game) (player x y : Nat) (hinv : InvG g)
    (hleg : moveLegalSpec g player x y) :
    InvG (gammaMoveApply g player x y) := by
  obtain ⟨hN, hW, hH, hM, hN32, hW32, hH32, hM32, huf, hop, hrepr, hov, hocc, hctr⟩ := hinv
  obtain ⟨hp1, hp2, hx, hy, hempty, hguard⟩ := hleg
  set idx := player % g.players_num with hidx
  set bta := new_border_empty_fields g (x : Int) (y : Int) player with hbta
  set gb : Game := updBoard (updBoard g y x (fun f => { f with player := player })) y x
      (fun f => { f with empty := false }) with hgb
  set g3 : Game := { gb with occupied_fields := add64 gb.occupied_fields 1 } with hg3
  set g4 : Game := updPlayer g3 idx (fun pr => { pr with areas := add32 pr.areas 1 }) with hg4
  set g5 : Game := updPlayer g4 idx
      (fun pr => { pr with occupied_fields := add64 pr.occupied_fields 1 }) with hg5
  set r : Game × Nat := union_neighbors g5 x y with hr
  set g6 : Game := updPlayer r.1 idx (fun pr => { pr with areas := sub32 pr.areas r.2 }) with hg6
  set g7 : Game := updPlayer g6 idx
      (fun pr => { pr with border_empty_fields := add64 pr.border_empty_fields bta }) with hg7
  have happly : gammaMoveApply g player x y =
      decrement_neighbors_border_empty_fields g7 (x : Int) (y : Int) := rfl
  -- board facts for the intermediate state that union_neighbors runs on
  have hb_ne : ∀ c : Pos, c ≠ (y, x) → g5.board c.1 c.2 = g.board c.1 c.2 := by
    intro c hc
    have hcond : ¬ (c.1 = y ∧ c.2 = x) := by
      intro h2
      exact hc (Prod.ext h2.1 h2.2)
    show (updBoard (updBoard g y x (fun f => { f with player := player })) y x
        (fun f => { f with empty := false })).board c.1 c.2 = g.board c.1 c.2
    rw [updBoard_board, if_neg hcond, updBoard_board, if_neg hcond]
  have hbtf_e : (g5.board y x).empty = false := by
    show ((updBoard (updBoard g y x (fun f => { f with player := player })) y x
        (fun f => { f with empty := false })).board y x).empty = false
    rw [updBoard_board, if_pos ⟨rfl, rfl⟩]
  have hbtf_p : (g5.board y x).player = player := by
    show ((updBoard (updBoard g y x (fun f => { f with player := player })) y x
        (fun f => { f with empty := false })).board y x).player = player
    rw [updBoard_board, if_pos ⟨rfl, rfl⟩]
    show ((updBoard g y x (fun f => { f with player := player })).board y x).player = player
    rw [updBoard_board, if_pos ⟨rfl, rfl⟩]
  have hbtf_par : (g5.board y x).parent = (g.board y x).parent := by
    show ((updBoard (updBoard g y x (fun f => { f with player := player })) y x
        (fun f => { f with empty := false })).board y x).parent = (g.board y x).parent
    rw [updBoard_board, if_pos ⟨rfl, rfl⟩]
    show ((updBoard g y x (fun f => { f with player := player })).board y x).parent =
      (g.board y x).parent
    rw [updBoard_board, if_pos ⟨rfl, rfl⟩]
  obtain ⟨hpar5, hins, hqeq, htfA_not, huf5, hop5, hrtf5⟩ :=
    place_cell_facts g g5 player x y huf hop rfl rfl hx hy hb_ne hbtf_e hbtf_p hbtf_par hempty
  obtain ⟨hufH, hopH, hUFonlyH, hreprH, hmerged, hccP, hccQ, hmle⟩ :=
    place_union_spec g g5 player x y huf hop hrepr rfl rfl hW32 hH32 hx hy
      hb_ne hbtf_e hbtf_p hbtf_par hempty
  have hUB : UFonly r.1 g5 := union_neighbors_UFonly g5 x y
  have hUBpl : r.1.players = g5.players := hUB.2.2.2.2.2.1
  have hUBocc : r.1.occupied_fields = g5.occupied_fields := hUB.2.2.2.2.1
  have hUBh : r.1.height = g5.height := hUB.2.2.1
  have hUBw : r.1.width = g5.width := hUB.2.2.2.1
  have hUBn : r.1.players_num = g5.players_num := hUB.2.1
  have hUBm : r.1.max_areas = g5.max_areas := hUB.1
  have hUBpe : ∀ y2 x2, (r.1.board y2 x2).player = (g5.board y2 x2).player ∧
      (r.1.board y2 x2).empty = (g5.board y2 x2).empty := hUB.2.2.2.2.2.2
  -- the final state's board is the post-union board
  have hdecPO : PlayersOnly (decrement_neighbors_border_empty_fields g7 (x : Int) (y : Int)) g7 :=
    decrement_neighbors_PlayersOnly g7 (x : Int) (y : Int)
  have hPO76 : PlayersOnly g7 r.1 := by
    rw [hg7, hg6]
    exact PlayersOnly_trans (updPlayer_PlayersOnly _ _ _) (updPlayer_PlayersOnly _ _ _)
  have hg7b : g7.board = r.1.board := hPO76.2.2.2.2.2
  have hFb : (gammaMoveApply g player x y).board = r.1.board := by
    rw [happly, hdecPO.2.2.2.2.2]
    exact hg7b
  have hg5h : g5.height = g.height := rfl
  have hg5w : g5.width = g.width := rfl
  have hg5n : g5.players_num = g.players_num := rfl
  have hg5m : g5.max_areas = g.max_areas := rfl
  have hg7h : g7.height = g.height := by rw [hPO76.2.2.1, hUBh, hg5h]
  have hg7w : g7.width = g.width := by rw [hPO76.2.2.2.1, hUBw, hg5w]
  have hg7n : g7.players_num = g.players_num := by rw [hPO76.2.1, hUBn, hg5n]
  have hg7m : g7.max_areas = g.max_areas := by rw [hPO76.1, hUBm, hg5m]
  have hFh : (gammaMoveApply g player x y).height = g.height := by
    rw [happly, hdecPO.2.2.1, hg7h]
  have hFw : (gammaMoveApply g player x y).width = g.width := by
    rw [happly, hdecPO.2.2.2.1, hg7w]
  have hFn : (gammaMoveApply g player x y).players_num = g.players_num := by
    rw [happly, hdecPO.2.1, hg7n]
  have hFm : (gammaMoveApply g player x y).max_areas = g.max_areas := by
    rw [happly, hdecPO.1, hg7m]
  have hFhr : (gammaMoveApply g player x y).height = r.1.height := by
    rw [hFh, hUBh]
    exact hg5h.symm
  have hFwr : (gammaMoveApply g player x y).width = r.1.width := by
    rw [hFw, hUBw]
    exact hg5w.symm
  -- structural components transfer from the post-union state
  have hufF : UFok (gammaMoveApply g player x y) := UFok_of_board_eq hFb hFhr hFwr hufH
  have hopF : HownerParent (gammaMoveApply g player x y) :=
    HownerParent_of_board_eq hFb hFhr hFwr hopH
  have hreprF : UFrepr (gammaMoveApply g player x y) := UFrepr_of_board_eq hFb hFhr hFwr hreprH
  -- ownership validity of the final board
  have hovR : ∀ c : Pos, c.1 < g.height → c.2 < g.width → (r.1.board c.1 c.2).empty = false →
      1 ≤ (r.1.board c.1 c.2).player ∧ (r.1.board c.1 c.2).player ≤ g.players_num := by
    intro c hc1 hc2 hce
    by_cases hctf : c = (y, x)
    · rw [hctf] at hce ⊢
      rw [(hUBpe (y, x).1 (y, x).2).1]
      show 1 ≤ (g5.board y x).player ∧ (g5.board y x).player ≤ g.players_num
      rw [hbtf_p]
      exact ⟨hp1, hp2⟩
    · rw [(hUBpe c.1 c.2).2, hb_ne c hctf] at hce
      rw [(hUBpe c.1 c.2).1, hb_ne c hctf]
      exact hov c ((mem_cellsF g c).mpr ⟨hc1, hc2⟩) hce
  have hovF : ownersValid (gammaMoveApply g player x y) := by
    intro c hc hce
    rw [hFb] at hce ⊢
    rw [mem_cellsF, hFh, hFw] at hc
    rw [hFn]
    exact hovR c hc.1 hc.2 hce
  have hovg7 : ownersValid g7 := by
    intro c hc hce
    rw [hg7b] at hce ⊢
    rw [mem_cellsF, hg7h, hg7w] at hc
    rw [hg7n]
    exact hovR c hc.1 hc.2 hce
  -- cell sets of the final state
  have hoccins : occCells g5 = insert (y, x) (occCells g) ∧ (y, x) ∉ occCells g :=
    occCells_place g g5 x y rfl rfl hb_ne hbtf_e hempty hx hy
  have hoccF : occCells (gammaMoveApply g player x y) = insert (y, x) (occCells g) := by
    rw [occCells_of_board_eq hFb hFhr hFwr, occCells_of_UFonly hUB, hoccins.1]
  have hpcF : ∀ q, pcells (gammaMoveApply g player x y) q = pcells g5 q := by
    intro q
    rw [pcells_of_board_eq hFb hFhr hFwr, pcells_of_UFonly hUB]
  have hbcF : ∀ q, borderCells (gammaMoveApply g player x y) q = borderCells g5 q := by
    intro q
    rw [borderCells_of_board_eq hFb hFhr hFwr, borderCells_of_UFonly hUB]
  obtain ⟨hbc_p, hbc_disj, hbc_q⟩ :=
    borderCells_place g g5 player x y rfl rfl hb_ne hbtf_e hbtf_p hempty hx hy
  have hccF : ∀ q, compCount (gammaMoveApply g player x y) q = compCount g5 q := by
    intro q
    exact compCount_congr (hpcF q) (by rw [hFhr, hUBh]) (by rw [hFwr, hUBw])
  -- counter bookkeeping through the player-table updates
  have h4p : g4.players idx = { g.players idx with areas := add32 (g.players idx).areas 1 } := by
    rw [hg4, updPlayer_players, if_pos rfl]
    rfl
  have h4pne : ∀ j, j ≠ idx → g4.players j = g.players j := by
    intro j hj
    rw [hg4, updPlayer_players, if_neg hj]
    rfl
  have h5p : g5.players idx = { g.players idx with
      areas := add32 (g.players idx).areas 1
      occupied_fields := add64 (g.players idx).occupied_fields 1 } := by
    rw [hg5, updPlayer_players, if_pos rfl, h4p]
  have h5pne : ∀ j, j ≠ idx → g5.players j = g.players j := by
    intro j hj
    rw [hg5, updPlayer_players, if_neg hj]
    exact h4pne j hj
  have h6p : g6.players idx = { g.players idx with
      areas := sub32 (add32 (g.players idx).areas 1) r.2
      occupied_fields := add64 (g.players idx).occupied_fields 1 } := by
    rw [hg6, updPlayer_players, if_pos rfl, hUBpl, h5p]
  have h6pne : ∀ j, j ≠ idx → g6.players j = g.players j := by
    intro j hj
    rw [hg6, updPlayer_players, if_neg hj, hUBpl]
    exact h5pne j hj
  have h7p : g7.players idx = { g.players idx with
      areas := sub32 (add32 (g.players idx).areas 1) r.2
      occupied_fields := add64 (g.players idx).occupied_fields 1
      border_empty_fields := add64 (g.players idx).border_empty_fields bta } := by
    rw [hg7, updPlayer_players, if_pos rfl, h6p]
  have h7pne : ∀ j, j ≠ idx → g7.players j = g.players j := by
    intro j hj
    rw [hg7, updPlayer_players, if_neg hj]
    exact h6pne j hj
  -- the decrement loop
  have hFdec : gammaMoveApply g player x y = decLoop 4 g7
      [get_field g7 ((x : Int) + 1) (y : Int), get_field g7 ((x : Int) - 1) (y : Int),
       get_field g7 (x : Int) ((y : Int) + 1), get_field g7 (x : Int) ((y : Int) - 1)] := rfl
  have hownval : ∀ q ∈ ownersF
      [get_field g7 ((x : Int) + 1) (y : Int), get_field g7 ((x : Int) - 1) (y : Int),
       get_field g7 (x : Int) ((y : Int) + 1), get_field g7 (x : Int) ((y : Int) - 1)],
      1 ≤ q ∧ q ≤ g.players_num := by
    intro q hq
    rw [mem_ownersF] at hq
    obtain ⟨f, hf, hfe, hfp⟩ := hq
    simp only [List.mem_cons, List.not_mem_nil, or_false] at hf
    have : 1 ≤ f.player ∧ f.player ≤ g7.players_num := by
      rcases hf with h | h | h | h <;>
        exact get_field_some_valid g7 hovg7 _ _ f h.symm hfe
    rw [hg7n] at this
    rw [← hfp]
    exact this
  have hinj : ∀ q1 ∈ ownersF
      [get_field g7 ((x : Int) + 1) (y : Int), get_field g7 ((x : Int) - 1) (y : Int),
       get_field g7 (x : Int) ((y : Int) + 1), get_field g7 (x : Int) ((y : Int) - 1)],
      ∀ q2 ∈ ownersF
      [get_field g7 ((x : Int) + 1) (y : Int), get_field g7 ((x : Int) - 1) (y : Int),
       get_field g7 (x : Int) ((y : Int) + 1), get_field g7 (x : Int) ((y : Int) - 1)],
      q1 % g7.players_num = q2 % g7.players_num → q1 = q2 := by
    intro q1 h1 q2 h2 h12
    obtain ⟨h1a, h1b⟩ := hownval q1 h1
    obtain ⟨h2a, h2b⟩ := hownval q2 h2
    rw [hg7n] at h12
    exact mod_players_inj h1a h1b h2a h2b h12
  have hFp0 := decLoop_spec 4
      [get_field g7 ((x : Int) + 1) (y : Int), get_field g7 ((x : Int) - 1) (y : Int),
       get_field g7 (x : Int) ((y : Int) + 1), get_field g7 (x : Int) ((y : Int) - 1)] g7
      (by norm_num) hinj
  have hFpd : ∀ j, (gammaMoveApply g player x y).players j = (decLoop 4 g7
      [get_field g7 ((x : Int) + 1) (y : Int), get_field g7 ((x : Int) - 1) (y : Int),
       get_field g7 (x : Int) ((y : Int) + 1), get_field g7 (x : Int) ((y : Int) - 1)]).players
        j := by
    intro j
    rw [hFdec]
  -- the neighbour-owner condition is membership of the placed cell in the
  -- pre-move border set
  have hnbr_eq : ∀ q, has_neighbor g7 (x : Int) (y : Int) q =
      has_neighbor g (x : Int) (y : Int) q := by
    intro q
    refine has_neighbor_board_eq_outside x y (by rw [hg7h]) (by rw [hg7w]) ?_ q
    intro c hc
    rw [hg7b, (hUBpe c.1 c.2).1, (hUBpe c.1 c.2).2, hb_ne c hc]
    exact ⟨rfl, rfl⟩
  have hcond_iff : ∀ p2, 1 ≤ p2 → p2 ≤ g.players_num →
      ((∃ q ∈ ownersF
        [get_field g7 ((x : Int) + 1) (y : Int), get_field g7 ((x : Int) - 1) (y : Int),
         get_field g7 (x : Int) ((y : Int) + 1), get_field g7 (x : Int) ((y : Int) - 1)],
        q % g7.players_num = p2 % g.players_num) ↔ (y, x) ∈ borderCells g p2) := by
    intro p2 hp21 hp22
    have hself : (y, x) ∉ pcells g p2 := by
      rw [mem_pcells]
      rintro ⟨-, -, he, -⟩
      rw [hempty] at he
      cases he
    constructor
    · rintro ⟨q, hq, hqj⟩
      obtain ⟨hq1, hq2⟩ := hownval q hq
      rw [hg7n] at hqj
      have hq_eq : q = p2 := mod_players_inj hq1 hq2 hp21 hp22 hqj
      subst hq_eq
      rw [mem_ownersF_neighbors, hnbr_eq, has_neighbor_nbrCand g q x y hself] at hq
      obtain ⟨n, hn1, hn2⟩ := hq
      rw [mem_borderCells]
      exact ⟨⟨hy, hx⟩, hempty, n, hn1, (inPB_iff g q n).mpr hn2⟩
    · intro hmem
      rw [mem_borderCells] at hmem
      obtain ⟨-, -, n, hn1, hn2⟩ := hmem
      refine ⟨p2, ?_, by rw [hg7n]⟩
      rw [mem_ownersF_neighbors, hnbr_eq, has_neighbor_nbrCand g p2 x y hself]
      exact ⟨n, hn1, (inPB_iff g p2 n).mp hn2⟩
  -- global occupied counter
  have hFocc : (gammaMoveApply g player x y).occupied_fields = add64 g.occupied_fields 1 := by
    rw [happly, hdecPO.2.2.2.2.1, hPO76.2.2.2.2.1, hUBocc]
    rfl
  have hocccard : (occCells g).card + 5 < U64 := by
    have h1 := card_le_cells (occCells_subset g)
    have h2 := hw_succ_lt_U64 hH32 hW32
    omega
  have hoccF2 : (gammaMoveApply g player x y).occupied_fields =
      (occCells (gammaMoveApply g player x y)).card := by
    rw [hFocc, hocc, hoccF, Finset.card_insert_of_not_mem hoccins.2, add64]
    exact Nat.mod_eq_of_lt (by omega)
  -- per-player counters
  refine ⟨by rw [hFn]; exact hN, by rw [hFw]; exact hW, by rw [hFh]; exact hH,
    by rw [hFm]; exact hM, by rw [hFn]; exact hN32, by rw [hFw]; exact hW32,
    by rw [hFh]; exact hH32, by rw [hFm]; exact hM32, hufF, hopF, hreprF, hovF, hoccF2, ?_⟩
  intro p2 hp21 hp22
  rw [hFn] at hp22
  obtain ⟨hA, hAs, hO, hB⟩ := hctr p2 hp21 hp22
  have hjface : p2 % (gammaMoveApply g player x y).players_num = p2 % g.players_num := by
    rw [hFn]
  rw [hjface]
  have hr2lt : r.2 < U32 := by
    have h1 := tRoots_card_le g player (y, x)
    rw [hmerged, U32]
    omega
  by_cases hpp : p2 = player
  · rw [hpp] at hp21 hp22 hA hAs hO hB ⊢
    rw [← hidx] at hA hO hB
    rw [hFpd (player % g.players_num), hFp0 (player % g.players_num)]
    have hbcard : (borderCells g5 player).card =
        ((borderCells g player).erase (y, x)).card + (gainB g player x y).card := by
      rw [hbc_p, Finset.card_union_of_disjoint hbc_disj]
    have hbta_card : bta = (gainB g player x y).card := new_border_card g player x y
    have hbound1 : (borderCells g player).card + 5 < U64 := by
      have h1 := card_le_cells (borderCells_subset g player)
      have h2 := hw_succ_lt_U64 hH32 hW32
      omega
    have hbound5 : (borderCells g5 player).card + 5 < U64 := by
      have h1 : borderCells g5 player ⊆ cellsF g5 := borderCells_subset g5 player
      have h2 := card_le_cells h1
      have h3 : g5.height * g5.width = g.height * g.width := rfl
      have h4 := hw_succ_lt_U64 hH32 hW32
      omega
    have harea : sub32 (add32 (g.players idx).areas 1) r.2 = compCount g5 player % U32 := by
      rw [hA]
      exact areas_arith (compCount g player) (compCount g5 player) r.2 hr2lt
        (by rw [hmerged]; exact hccP)
    have hoccp : add64 (g.players idx).occupied_fields 1 = (pcells g5 player).card := by
      rw [hO, hins, Finset.card_insert_of_not_mem htfA_not, add64]
      have h1 := card_le_cells (pcells_subset_cellsF g player)
      have h2 := hw_succ_lt_U64 hH32 hW32
      exact Nat.mod_eq_of_lt (by omega)
    have hsmall : g.width * g.height < U32 →
        compCount g5 player % U32 ≤ g.max_areas := by
      intro hsm
      have hcc5 : compCount g5 player < U32 := by
        have h1 := compCount_le_pcells g5 player
        have h2 := card_le_cells (pcells_subset_cellsF g5 player)
        have h3 : g5.height * g5.width = g.height * g.width := rfl
        have h4 : g.height * g.width = g.width * g.height := Nat.mul_comm _ _
        omega
      rw [Nat.mod_eq_of_lt hcc5]
      have hccg : compCount g player < U32 := by
        have h1 := compCount_le_pcells g player
        have h2 := card_le_cells (pcells_subset_cellsF g player)
        have h4 : g.height * g.width = g.width * g.height := Nat.mul_comm _ _
        omega
      have hstored : (g.players idx).areas = compCount g player := by
        rw [hA, Nat.mod_eq_of_lt hccg]
      have hmax : compCount g player ≤ g.max_areas := by
        rw [← hstored]
        have := hAs hsm
        rw [← hidx] at this
        exact this
      by_cases hmz : r.2 = 0
      · have hnonbr : ¬∃ n ∈ nbrCand (y, x), n ∈ pcells g player := by
          rw [← tRoots_card_zero_iff g player (y, x), ← hmerged]
          exact hmz
        have hnbF : has_neighbor g (x : Int) (y : Int) player = false := by
          rw [← Bool.not_eq_true, has_neighbor_nbrCand g player x y (by
            rw [mem_pcells]
            rintro ⟨-, -, he, -⟩
            rw [hempty] at he
            cases he)]
          exact hnonbr
        have hnosome : ¬ someNeighborOwnedBy g x y player := by
          rw [← has_neighbor_iff, hnbF]
          exact Bool.false_ne_true
        have hanm : (g.players idx).areas ≠ g.max_areas := by
          intro hcontra
          exact hguard ⟨hcontra, hnosome⟩
        have : compCount g player < g.max_areas := by
          rw [← hstored]
          omega
        have hcc5e : compCount g5 player + r.2 = compCount g player + 1 := by
          rw [hmerged]
          exact hccP
        omega
      · have hcc5e : compCount g5 player + r.2 = compCount g player + 1 := by
          rw [hmerged]
          exact hccP
        omega
    by_cases hmem : (y, x) ∈ borderCells g player
    · rw [if_pos ((hcond_iff player hp21 hp22).mpr hmem), ← hidx, h7p]
      have hbcard2 : ((borderCells g player).erase (y, x)).card =
          (borderCells g player).card - 1 := Finset.card_erase_of_mem hmem
      have hbpos : 1 ≤ (borderCells g player).card := Finset.card_pos.mpr ⟨_, hmem⟩
      refine ⟨?_, ?_, ?_, ?_⟩
      · rw [hccF player]
        exact harea
      · intro hsm
        rw [hFw, hFh] at hsm
        show sub32 (add32 (g.players idx).areas 1) r.2 ≤ _
        rw [harea, hFm]
        exact hsmall hsm
      · show add64 (g.players idx).occupied_fields 1 = _
        rw [hpcF player]
        exact hoccp
      · show sub64 (add64 (g.players idx).border_empty_fields bta) 1 = _
        rw [hbcF player, hbcard, hbcard2, hB, hbta_card, add64, sub64]
        have hlt : (borderCells g player).card + (gainB g player x y).card < U64 := by
          omega
        rw [Nat.mod_eq_of_lt hlt]
        have hone : (1 : Nat) % U64 = 1 := by norm_num [U64]
        rw [hone]
        show ((borderCells g player).card + (gainB g player x y).card + (U64 - 1)) % U64 =
          (borderCells g player).card - 1 + (gainB g player x y).card
        have hU : U64 = 18446744073709551616 := rfl
        rw [hU]
        rw [hU] at hlt
        omega
    · rw [if_neg (fun hc => hmem ((hcond_iff player hp21 hp22).mp hc)), ← hidx, h7p]
      have hbcard2 : ((borderCells g player).erase (y, x)) = borderCells g player :=
        Finset.erase_eq_of_not_mem hmem
      refine ⟨?_, ?_, ?_, ?_⟩
      · rw [hccF player]
        exact harea
      · intro hsm
        rw [hFw, hFh] at hsm
        show sub32 (add32 (g.players idx).areas 1) r.2 ≤ _
        rw [harea, hFm]
        exact hsmall hsm
      · show add64 (g.players idx).occupied_fields 1 = _
        rw [hpcF player]
        exact hoccp
      · show add64 (g.players idx).border_empty_fields bta = _
        rw [hbcF player, hbcard, hbcard2, hB, hbta_card, add64]
        have hbc2c := hbcard
        rw [hbcard2] at hbc2c
        exact Nat.mod_eq_of_lt (by omega)
  · have hj : p2 % g.players_num ≠ idx := by
      rw [hidx]
      intro hc
      exact hpp (mod_players_inj hp21 hp22 hp1 hp2 hc)
    rw [hFpd (p2 % g.players_num), hFp0 (p2 % g.players_num)]
    have hbc5 : borderCells g5 p2 = (borderCells g p2).erase (y, x) := hbc_q p2 hpp
    by_cases hmem : (y, x) ∈ borderCells g p2
    · rw [if_pos ((hcond_iff p2 hp21 hp22).mpr hmem), h7pne _ hj]
      have hbcard2 : ((borderCells g p2).erase (y, x)).card =
          (borderCells g p2).card - 1 := Finset.card_erase_of_mem hmem
      have hbpos : 1 ≤ (borderCells g p2).card := Finset.card_pos.mpr ⟨_, hmem⟩
      have hbound1 : (borderCells g p2).card + 5 < U64 := by
        have h1 := card_le_cells (borderCells_subset g p2)
        have h2 := hw_succ_lt_U64 hH32 hW32
        omega
      refine ⟨?_, ?_, ?_, ?_⟩
      · show (g.players (p2 % g.players_num)).areas = _
        rw [hccF p2, hccQ p2 hpp]
        exact hA
      · intro hsm
        rw [hFw, hFh] at hsm
        show (g.players (p2 % g.players_num)).areas ≤ _
        rw [hFm]
        exact hAs hsm
      · show (g.players (p2 % g.players_num)).occupied_fields = _
        rw [hpcF p2, hqeq p2 hpp]
        exact hO
      · show sub64 (g.players (p2 % g.players_num)).border_empty_fields 1 = _
        rw [hbcF p2, hbc5, hbcard2, hB, sub64]
        have hone : (1 : Nat) % U64 = 1 := by norm_num [U64]
        rw [hone]
        show ((borderCells g p2).card + (U64 - 1)) % U64 = (borderCells g p2).card - 1
        have hU : U64 = 18446744073709551616 := rfl
        rw [hU]
        rw [hU] at hbound1
        omega
    · rw [if_neg (fun hc => hmem ((hcond_iff p2 hp21 hp22).mp hc)), h7pne _ hj]
      have hbcard2 : ((borderCells g p2).erase (y, x)) = borderCells g p2 :=
        Finset.erase_eq_of_not_mem hmem
      refine ⟨?_, ?_, ?_, ?_⟩
      · show (g.players (p2 % g.players_num)).areas = _
        rw [hccF p2, hccQ p2 hpp]
        exact hA
      · intro hsm
        rw [hFw, hFh] at hsm
        show (g.players (p2 % g.players_num)).areas ≤ _
        rw [hFm]
        exact hAs hsm
      · show (g.players (p2 % g.players_num)).occupied_fields = _
        rw [hpcF p2, hqeq p2 hpp]
        exact hO
      · show (g.players (p2 % g.players_num)).border_empty_fields = _
        rw [hbcF p2, hbc5, hbcard2]
        exact hB

/-- The merge count of `union_neighbors` is at most 4. -/
theorem union_neighbors_merged_le (g : Game) (p column row : Nat) :
    (nbrRootsU g p column row).card - 1 ≤ 4 := by
  have h1 : (nbrRootsU g p column row).card ≤
      (((unionCand column row).filter (fun cd => belongs_to_player g cd.1 cd.2.1 p)).map
        (fun cd => rootD g cd.2.2)).toFinset.card + 1 := Finset.card_insert_le _ _
  have h2 : (((unionCand column row).filter (fun cd => belongs_to_player g cd.1 cd.2.1 p)).map
        (fun cd => rootD g cd.2.2)).toFinset.card ≤
      (((unionCand column row).filter (fun cd => belongs_to_player g cd.1 cd.2.1 p)).map
        (fun cd => rootD g cd.2.2)).length := List.toFinset_card_le _
  have h3 : (((unionCand column row).filter (fun cd => belongs_to_player g cd.1 cd.2.1 p)).map
        (fun cd => rootD g cd.2.2)).length ≤ 4 := by
    rw [List.length_map]
    calc ((unionCand column row).filter (fun cd => belongs_to_player g cd.1 cd.2.1 p)).length
        ≤ (unionCand column row).length := List.length_filter_le _ _
      _ = 4 := rfl
  omega

/-! ### The cell iteration order of `reindex_areas` -/

theorem mem_cellList (g : Game) (c : Pos) :
    c ∈ cellList g ↔ c.1 < g.height ∧ c.2 < g.width := by
  obtain ⟨y, x⟩ := c
  simp only [cellList, List.mem_flatMap, List.mem_map, List.mem_range, Prod.mk.injEq]
  constructor
  · rintro ⟨r, hr, cq, hc, rfl, rfl⟩
    exact ⟨hr, hc⟩
  · rintro ⟨hy, hx⟩
    exact ⟨y, hy, x, hx, rfl, rfl⟩

theorem cellList_nodup (g : Game) : (cellList g).Nodup := by
  rw [cellList, List.nodup_flatMap]
  constructor
  · intro r _
    exact List.Nodup.map_on (fun a _ b _ h => by simpa using h) (List.nodup_range g.width)
  · refine List.Pairwise.imp ?_ (List.pairwise_lt_range g.height)
    intro a b hab
    intro z hza hzb
    simp only [List.mem_map, List.mem_range] at hza hzb
    obtain ⟨c1, -, rfl⟩ := hza
    obtain ⟨c2, -, h2⟩ := hzb
    rw [Prod.mk.injEq] at h2
    omega

theorem cellList_toFinset (g : Game) : (cellList g).toFinset = cellsF g := by
  ext c
  rw [List.mem_toFinset, mem_cellList, mem_cellsF]

theorem cellList_filter_length (g : Game) (pr : Pos → Bool) :
    ((cellList g).filter pr).length = ((cellsF g).filter (fun c => pr c = true)).card := by
  rw [← List.toFinset_card_of_nodup (List.Nodup.filter pr (cellList_nodup g))]
  congr 1
  ext c
  rw [List.mem_toFinset, List.mem_filter, Finset.mem_filter, mem_cellList, mem_cellsF]

/-- Equality of the observable game state: the scalar counters and every
cell's owner and emptiness flag — everything except the union-find metadata
and the per-player records. -/
def ObsEq (g1 g2 : Game) : Prop :=
  g1.max_areas = g2.max_areas ∧ g1.players_num = g2.players_num ∧
  g1.height = g2.height ∧ g1.width = g2.width ∧
  g1.occupied_fields = g2.occupied_fields ∧
  ∀ y x, (g1.board y x).player = (g2.board y x).player ∧
         (g1.board y x).empty = (g2.board y x).empty

theorem ObsEq_refl (g : Game) : ObsEq g g := ⟨rfl, rfl, rfl, rfl, rfl, fun _ _ => ⟨rfl, rfl⟩⟩

theorem ObsEq_trans {g1 g2 g3 : Game} (h1 : ObsEq g1 g2) (h2 : ObsEq g2 g3) :
    ObsEq g1 g3 := by
  obtain ⟨a1, a2, a3, a4, a5, a6⟩ := h1
  obtain ⟨b1, b2, b3, b4, b5, b6⟩ := h2
  refine ⟨a1.trans b1, a2.trans b2, a3.trans b3, a4.trans b4, a5.trans b5, fun y x => ?_⟩
  exact ⟨(a6 y x).1.trans (b6 y x).1, (a6 y x).2.trans (b6 y x).2⟩

theorem UFonly_toObsEq {g1 g2 : Game} (h : UFonly g1 g2) : ObsEq g1 g2 :=
  ⟨h.1, h.2.1, h.2.2.1, h.2.2.2.1, h.2.2.2.2.1, h.2.2.2.2.2.2⟩

theorem pcells_of_ObsEq {g1 g2 : Game} (h : ObsEq g1 g2) (q : Nat) :
    pcells g1 q = pcells g2 q := by
  ext c
  rw [mem_pcells, mem_pcells, h.2.2.1, h.2.2.2.1, (h.2.2.2.2.2 c.1 c.2).1,
    (h.2.2.2.2.2 c.1 c.2).2]

theorem cellsF_of_ObsEq {g1 g2 : Game} (h : ObsEq g1 g2) : cellsF g1 = cellsF g2 :=
  cellsF_of_dims_eq h.2.2.1 h.2.2.2.1

theorem occCells_of_ObsEq {g1 g2 : Game} (h : ObsEq g1 g2) :
    occCells g1 = occCells g2 := by
  ext c
  rw [mem_occCells, mem_occCells, h.2.2.1, h.2.2.2.1, (h.2.2.2.2.2 c.1 c.2).2]

theorem borderCells_of_ObsEq {g1 g2 : Game} (h : ObsEq g1 g2) (q : Nat) :
    borderCells g1 q = borderCells g2 q := by
  have hin : ∀ d, inPB g1 q d = inPB g2 q d := by
    intro d
    rw [inPB, inPB, h.2.2.1, h.2.2.2.1, (h.2.2.2.2.2 d.1 d.2).1, (h.2.2.2.2.2 d.1 d.2).2]
  ext c
  simp only [mem_borderCells, h.2.2.1, h.2.2.2.1, (h.2.2.2.2.2 c.1 c.2).2, hin]

theorem compCount_of_ObsEq {g1 g2 : Game} (h : ObsEq g1 g2) (q : Nat) :
    compCount g1 q = compCount g2 q :=
  compCount_congr (pcells_of_ObsEq h q) h.2.2.1 h.2.2.2.1

theorem updPlayer_ObsEq (g : Game) (i : Nat) (f : Player → Player) :
    ObsEq (updPlayer g i f) g := ⟨rfl, rfl, rfl, rfl, rfl, fun _ _ => ⟨rfl, rfl⟩⟩

/-! ### The area-zeroing pass of `reindex_areas` -/

theorem zeroFold_players (g : Game) (n : Nat) :
    ∀ j, (((List.range n).foldl
        (fun h p => updPlayer h p (fun pr => { pr with areas := 0 })) g).players j) =
      if j < n then { g.players j with areas := 0 } else g.players j := by
  induction n with
  | zero =>
    intro j
    simp
  | succ n ih =>
    intro j
    rw [List.range_succ, List.foldl_append, List.foldl_cons, List.foldl_nil,
      updPlayer_players, ih j]
    by_cases hj : j = n
    · subst hj
      rw [if_pos rfl, if_neg (lt_irrefl j), if_pos (Nat.lt_succ_self j)]
    · rw [if_neg hj]
      by_cases hjn : j < n
      · rw [if_pos hjn, if_pos (Nat.lt_succ_of_lt hjn)]
      · rw [if_neg hjn, if_neg (by omega)]

theorem zeroFold_PlayersOnly (g : Game) (n : Nat) :
    PlayersOnly ((List.range n).foldl
      (fun h p => updPlayer h p (fun pr => { pr with areas := 0 })) g) g := by
  induction n with
  | zero => exact PlayersOnly_refl g
  | succ n ih =>
    rw [List.range_succ, List.foldl_append, List.foldl_cons, List.foldl_nil]
    exact PlayersOnly_trans (updPlayer_PlayersOnly _ _ _) ih

/-! ### The reset pass of `reindex_areas` -/

/-- The number of occupied cells in `l` whose owner's player slot is `j`. -/
def cntOwned (h : Game) (j : Nat) (l : List Pos) : Nat :=
  (l.filter (fun c => !(h.board c.1 c.2).empty &&
    decide ((h.board c.1 c.2).player % h.players_num = j))).length

theorem cntOwned_nil (h : Game) (j : Nat) : cntOwned h j [] = 0 := rfl

theorem cntOwned_congr {h1 h2 : Game} (hn : h1.players_num = h2.players_num)
    (hb : ∀ y x, (h1.board y x).player = (h2.board y x).player ∧
      (h1.board y x).empty = (h2.board y x).empty) (j : Nat) (l : List Pos) :
    cntOwned h1 j l = cntOwned h2 j l := by
  rw [cntOwned, cntOwned]
  congr 1
  apply List.filter_congr
  intro c _
  rw [(hb c.1 c.2).1, (hb c.1 c.2).2, hn]

theorem cntOwned_cons (h : Game) (j : Nat) (c : Pos) (l : List Pos) :
    cntOwned h j (c :: l) =
      (if (h.board c.1 c.2).empty = false ∧ (h.board c.1 c.2).player % h.players_num = j
        then 1 else 0) + cntOwned h j l := by
  rw [cntOwned, cntOwned]
  by_cases hc : (h.board c.1 c.2).empty = false ∧ (h.board c.1 c.2).player % h.players_num = j
  · rw [List.filter_cons_of_pos (by simp [hc.1, hc.2]), if_pos hc, List.length_cons]
    omega
  · rw [List.filter_cons_of_neg ?_, if_neg hc]
    · omega
    · simp only [Bool.and_eq_true, Bool.not_eq_true', decide_eq_true_eq, not_and]
      intro h1 h2
      exact hc ⟨h1, h2⟩

theorem resetFold_spec : ∀ (l : List Pos) (h : Game),
    let r := l.foldl resetCell h
    (r.max_areas = h.max_areas ∧ r.players_num = h.players_num ∧
     r.height = h.height ∧ r.width = h.width ∧ r.occupied_fields = h.occupied_fields) ∧
    (∀ y x, (r.board y x).player = (h.board y x).player ∧
            (r.board y x).empty = (h.board y x).empty) ∧
    (∀ y x, ((y, x) ∈ l ∧ (h.board y x).empty = false →
              (r.board y x).parent = (y, x)) ∧
            (¬((y, x) ∈ l ∧ (h.board y x).empty = false) → r.board y x = h.board y x)) ∧
    (∀ j, (r.players j).golden_move_done = (h.players j).golden_move_done ∧
          (r.players j).occupied_fields = (h.players j).occupied_fields ∧
          (r.players j).border_empty_fields = (h.players j).border_empty_fields) ∧
    (∀ j, (h.players j).areas < U32 →
      (r.players j).areas = ((h.players j).areas + cntOwned h j l) % U32) := by
  intro l
  induction l with
  | nil =>
    intro h
    refine ⟨⟨rfl, rfl, rfl, rfl, rfl⟩, fun y x => ⟨rfl, rfl⟩, ?_, fun j => ⟨rfl, rfl, rfl⟩, ?_⟩
    · intro y x
      refine ⟨?_, fun _ => rfl⟩
      rintro ⟨hmem, -⟩
      exact absurd hmem (List.not_mem_nil _)
    · intro j hjlt
      rw [List.foldl_nil, cntOwned_nil, Nat.add_zero, Nat.mod_eq_of_lt hjlt]
  | cons c t ih =>
    intro h
    obtain ⟨cy, cx⟩ := c
    rw [List.foldl_cons]
    by_cases he : (h.board cy cx).empty = true
    · have hstep : resetCell h (cy, cx) = h := by
        rw [resetCell, if_pos he]
      rw [hstep]
      obtain ⟨q1, q2, q3, q4, q5⟩ := ih h
      refine ⟨q1, q2, ?_, q4, ?_⟩
      · intro y x
        refine ⟨?_, ?_⟩
        · rintro ⟨hmem, hocc⟩
          rcases List.mem_cons.mp hmem with heq | hmem'
          · rw [Prod.mk.injEq] at heq
            rw [heq.1, heq.2] at hocc
            rw [hocc] at he
            exact absurd he Bool.false_ne_true
          · exact (q3 y x).1 ⟨hmem', hocc⟩
        · intro hn
          refine (q3 y x).2 ?_
          rintro ⟨hmem', hocc⟩
          exact hn ⟨List.mem_cons_of_mem _ hmem', hocc⟩
      · intro j hjlt
        have hcc : ¬((h.board cy cx).empty = false ∧
            (h.board cy cx).player % h.players_num = j) := by
          rintro ⟨hocc, -⟩
          rw [hocc] at he
          exact Bool.false_ne_true he
        rw [q5 j hjlt, cntOwned_cons, if_neg hcc, Nat.zero_add]
    · rw [Bool.not_eq_true] at he
      set h' := resetCell h (cy, cx) with hh'
      set gB2 := updBoard (updBoard h cy cx (fun f => { f with parent := (cy, cx) }))
          cy cx (fun f => { f with rank := 1 }) with hgB2
      have hstep : h' = updPlayer gB2 ((gB2.board cy cx).player % gB2.players_num)
          (fun pr => { pr with areas := add32 pr.areas 1 }) := by
        rw [hh', resetCell, if_neg (by rw [he]; exact Bool.false_ne_true)]
      have hg2b : ∀ y x, gB2.board y x =
          if y = cy ∧ x = cx then
            { h.board y x with parent := (cy, cx), rank := 1 } else h.board y x := by
        intro y x
        rw [hgB2, updBoard_board, updBoard_board]
        by_cases hc : y = cy ∧ x = cx
        · rw [if_pos hc, if_pos hc, if_pos hc]
        · rw [if_neg hc, if_neg hc, if_neg hc]
      have hg2n : gB2.players_num = h.players_num := by
        rw [hgB2]
        rfl
      have hg2p : gB2.players = h.players := by
        rw [hgB2]
        rfl
      have hpidx : (gB2.board cy cx).player % gB2.players_num =
          (h.board cy cx).player % h.players_num := by
        rw [hg2b cy cx, if_pos ⟨rfl, rfl⟩, hg2n]
      have hb' : ∀ y x, h'.board y x =
          if y = cy ∧ x = cx then
            { h.board y x with parent := (cy, cx), rank := 1 } else h.board y x := by
        intro y x
        rw [hstep, updPlayer_board, hg2b]
      have hp' : ∀ j, h'.players j =
          if j = (h.board cy cx).player % h.players_num then
            { h.players j with areas := add32 (h.players j).areas 1 } else h.players j := by
        intro j
        rw [hstep, updPlayer_players, hpidx, hg2p]
      have hsc' : h'.max_areas = h.max_areas ∧ h'.players_num = h.players_num ∧
          h'.height = h.height ∧ h'.width = h.width ∧
          h'.occupied_fields = h.occupied_fields := by
        rw [hstep, hgB2]
        exact ⟨rfl, rfl, rfl, rfl, rfl⟩
      have hobs' : ∀ y x, (h'.board y x).player = (h.board y x).player ∧
          (h'.board y x).empty = (h.board y x).empty := by
        intro y x
        rw [hb' y x]
        by_cases hc : y = cy ∧ x = cx
        · rw [if_pos hc]
          exact ⟨rfl, rfl⟩
        · rw [if_neg hc]
          exact ⟨rfl, rfl⟩
      obtain ⟨q1, q2, q3, q4, q5⟩ := ih h'
      refine ⟨⟨q1.1.trans hsc'.1, q1.2.1.trans hsc'.2.1, q1.2.2.1.trans hsc'.2.2.1,
        q1.2.2.2.1.trans hsc'.2.2.2.1, q1.2.2.2.2.trans hsc'.2.2.2.2⟩, ?_, ?_, ?_, ?_⟩
      · intro y x
        exact ⟨(q2 y x).1.trans (hobs' y x).1, (q2 y x).2.trans (hobs' y x).2⟩
      · intro y x
        constructor
        · rintro ⟨hmem, hocc⟩
          by_cases hmt : (y, x) ∈ t
          · refine (q3 y x).1 ⟨hmt, ?_⟩
            rw [(hobs' y x).2, hocc]
          · have hcyx : y = cy ∧ x = cx := by
              rcases List.mem_cons.mp hmem with heq | hmem'
              · rw [Prod.mk.injEq] at heq
                exact ⟨heq.1, heq.2⟩
              · exact absurd hmem' hmt
            have hnot : ¬((y, x) ∈ t ∧ (h'.board y x).empty = false) := by
              rintro ⟨hmt', -⟩
              exact hmt hmt'
            rw [(q3 y x).2 hnot, hb' y x, if_pos hcyx]
            show (cy, cx) = (y, x)
            rw [hcyx.1, hcyx.2]
        · intro hn
          have hcne : ¬(y = cy ∧ x = cx) := by
            rintro ⟨rfl, rfl⟩
            exact hn ⟨List.mem_cons_self _ _, he⟩
          have hnot : ¬((y, x) ∈ t ∧ (h'.board y x).empty = false) := by
            rintro ⟨hmt', hocc'⟩
            rw [(hobs' y x).2] at hocc'
            exact hn ⟨List.mem_cons_of_mem _ hmt', hocc'⟩
          rw [(q3 y x).2 hnot, hb' y x, if_neg hcne]
      · intro j
        refine ⟨(q4 j).1.trans ?_, (q4 j).2.1.trans ?_, (q4 j).2.2.trans ?_⟩ <;>
          · rw [hp' j]
            by_cases hj : j = (h.board cy cx).player % h.players_num
            · rw [if_pos hj]
            · rw [if_neg hj]
      · intro j hjlt
        have hjlt' : (h'.players j).areas < U32 := by
          rw [hp' j]
          by_cases hj : j = (h.board cy cx).player % h.players_num
          · rw [if_pos hj]
            show add32 (h.players j).areas 1 < U32
            rw [add32]
            exact Nat.mod_lt _ (by rw [U32]; omega)
          · rw [if_neg hj]
            exact hjlt
        rw [q5 j hjlt', cntOwned_cons]
        have hcnt : cntOwned h' j t = cntOwned h j t :=
          cntOwned_congr hsc'.2.1 hobs' j t
        rw [hcnt, hp' j]
        by_cases hj : j = (h.board cy cx).player % h.players_num
        · rw [if_pos hj, if_pos ⟨he, hj.symm⟩]
          show (add32 (h.players j).areas 1 + cntOwned h j t) % U32 =
            ((h.players j).areas + (1 + cntOwned h j t)) % U32
          rw [add32]
          show (((h.players j).areas + 1) % 4294967296 + cntOwned h j t) % 4294967296 =
            ((h.players j).areas + (1 + cntOwned h j t)) % 4294967296
          omega
        · rw [if_neg hj, if_neg (by rintro ⟨-, hj'⟩; exact hj hj'.symm), Nat.zero_add]

/-! ### The union pass of `reindex_areas` -/

theorem nbrRootsU_card_le (g : Game) (p column row : Nat) :
    (nbrRootsU g p column row).card ≤ 5 := by
  have h1 : (nbrRootsU g p column row).card ≤
      (((unionCand column row).filter (fun cd => belongs_to_player g cd.1 cd.2.1 p)).map
        (fun cd => rootD g cd.2.2)).toFinset.card + 1 := Finset.card_insert_le _ _
  have h2 : (((unionCand column row).filter (fun cd => belongs_to_player g cd.1 cd.2.1 p)).map
        (fun cd => rootD g cd.2.2)).toFinset.card ≤
      (((unionCand column row).filter (fun cd => belongs_to_player g cd.1 cd.2.1 p)).map
        (fun cd => rootD g cd.2.2)).length := List.toFinset_card_le _
  have h3 : (((unionCand column row).filter (fun cd => belongs_to_player g cd.1 cd.2.1 p)).map
        (fun cd => rootD g cd.2.2)).length ≤ 4 := by
    rw [List.length_map]
    calc ((unionCand column row).filter (fun cd => belongs_to_player g cd.1 cd.2.1 p)).length
        ≤ (unionCand column row).length := List.length_filter_le _ _
      _ = 4 := rfl
  omega

/-- Collapsing a subset `S` of `I` to a single representative `R ∈ S` shrinks
the image by `S.card - 1`. -/
theorem image_collapse_card {S I : Finset Pos} {R : Pos} (hS : S ⊆ I) (hR : R ∈ S) :
    (I.image (fun z => if z ∈ S then R else z)).card + S.card = I.card + 1 := by
  have himg : I.image (fun z => if z ∈ S then R else z) = insert R (I \ S) := by
    ext w
    simp only [Finset.mem_image, Finset.mem_insert, Finset.mem_sdiff]
    constructor
    · rintro ⟨z, hz, hw⟩
      by_cases hzS : z ∈ S
      · rw [if_pos hzS] at hw
        exact Or.inl hw.symm
      · rw [if_neg hzS] at hw
        exact Or.inr ⟨hw ▸ hz, hw ▸ hzS⟩
    · rintro (heq | ⟨hwI, hwS⟩)
      · exact ⟨R, hS hR, by rw [if_pos hR, heq]⟩
      · exact ⟨w, hwI, if_neg hwS⟩
  have hRnot : R ∉ I \ S := fun hc => (Finset.mem_sdiff.mp hc).2 hR
  rw [himg, Finset.card_insert_of_not_mem hRnot, Finset.card_sdiff hS]
  have := Finset.card_le_card hS
  omega

theorem sub32_mod {a b : Nat} (hba : b ≤ a) (hb32 : b < U32) :
    sub32 (a % U32) b = (a - b) % U32 := by
  rw [sub32]
  have hb : b % U32 = b := Nat.mod_eq_of_lt hb32
  rw [hb]
  show (a % 4294967296 + (4294967296 - b)) % 4294967296 = (a - b) % 4294967296
  have hb32' : b < 4294967296 := hb32
  omega

theorem pcells_eq_player {g : Game} {p q : Nat} {c : Pos}
    (hp : c ∈ pcells g p) (hq : c ∈ pcells g q) : p = q := by
  rw [mem_pcells] at hp hq
  rw [← hp.2.2.2, hq.2.2.2]

/-- Two adjacent cells of one player are connected. -/
theorem connP_adj (g : Game) (p : Nat) {c d : Pos} (hc : c ∈ pcells g p)
    (hd : d ∈ pcells g p) (hadj : d ∈ nbrCand c) : connP g p c d := by
  by_cases hdc : d = c
  · subst hdc
    exact connP_refl g p hc
  · refine ⟨hc, ?_⟩
    exact mem_closure_of_nbr g p (self_mem_closure g p c) hd
      ((mem_nbrCand_symm hdc).mpr hadj)

/-- An owned `union_neighbors` candidate is an owned cell adjacent to the
centre: the `uint32_t`-wrapped coordinates of out-of-board candidates never
pass the ownership test on a board with `width, height < 2^32`. -/
theorem unionCand_owned_mem (g : Game) (p cx cy : Nat)
    (hcx : cx < g.width) (hcy : cy < g.height)
    (hw32 : g.width < U32) (hh32 : g.height < U32)
    {cd : Int × Int × Pos} (hcd : cd ∈ unionCand cx cy)
    (hb : belongs_to_player g cd.1 cd.2.1 p = true) :
    cd.2.2 ∈ pcells g p ∧ cd.2.2 ∈ nbrCand (cy, cx) := by
  simp only [unionCand, List.mem_cons, List.not_mem_nil, or_false] at hcd
  rcases hcd with rfl | rfl | rfl | rfl
  · refine ⟨(belongs_nat_iff g (cx + 1) cy p).mp hb, ?_⟩
    simp [nbrCand]
  · have hmem : (cy, u32dec cx) ∈ pcells g p := (belongs_nat_iff g (u32dec cx) cy p).mp hb
    refine ⟨hmem, ?_⟩
    have hlt : u32dec cx < g.width := ((mem_pcells g p _).mp hmem).2.1
    have hcx0 : 0 < cx := by
      by_contra hc
      have hcx : cx = 0 := by omega
      rw [hcx] at hlt
      have : u32dec 0 = 4294967295 := by decide
      rw [this] at hlt
      have hw32' : g.width < 4294967296 := hw32
      omega
    have hdec : u32dec cx = cx - 1 := u32dec_pos hcx0 (lt_trans hcx hw32)
    rw [hdec]
    simp [nbrCand]
  · refine ⟨(belongs_nat_iff g cx (cy + 1) p).mp hb, ?_⟩
    simp [nbrCand]
  · have hmem : (u32dec cy, cx) ∈ pcells g p := (belongs_nat_iff g cx (u32dec cy) p).mp hb
    refine ⟨hmem, ?_⟩
    have hlt : u32dec cy < g.height := ((mem_pcells g p _).mp hmem).1
    have hcy0 : 0 < cy := by
      by_contra hc
      have hcy : cy = 0 := by omega
      rw [hcy] at hlt
      have : u32dec 0 = 4294967295 := by decide
      rw [this] at hlt
      have hh32' : g.height < 4294967296 := hh32
      omega
    have hdec : u32dec cy = cy - 1 := u32dec_pos hcy0 (lt_trans hcy hh32)
    rw [hdec]
    simp [nbrCand]

/-- Conversely, the root of every owned neighbour of the centre is among the
root classes that `union_neighbors` touches. -/
theorem nbr_root_mem_nbrRootsU (g : Game) (p cx cy : Nat)
    (hcx32 : cx < U32) (hcy32 : cy < U32)
    {d : Pos} (hd : d ∈ pcells g p) (hadj : d ∈ nbrCand (cy, cx)) :
    rootD g d ∈ nbrRootsU g p cx cy := by
  have hmemcand : ∀ cd ∈ unionCand cx cy, cd.2.2 = d →
      belongs_to_player g cd.1 cd.2.1 p = true → rootD g d ∈ nbrRootsU g p cx cy := by
    intro cd hcd hcdd hbel
    refine Finset.mem_insert_of_mem ?_
    rw [List.mem_toFinset]
    refine List.mem_map.mpr ⟨cd, List.mem_filter.mpr ⟨hcd, by rw [hbel]⟩, by rw [hcdd]⟩
  simp only [nbrCand, List.mem_cons, List.not_mem_nil, or_false] at hadj
  rcases hadj with rfl | rfl | rfl | rfl
  · exact hmemcand ((((cx + 1 : Nat) : Int)), (((cy : Nat) : Int)), (cy, cx + 1))
      (by simp [unionCand]) rfl ((belongs_nat_iff g (cx + 1) cy p).mpr hd)
  · exact hmemcand ((((cx : Nat) : Int)), (((cy + 1 : Nat) : Int)), (cy + 1, cx))
      (by simp [unionCand]) rfl ((belongs_nat_iff g cx (cy + 1) p).mpr hd)
  · by_cases hcx0 : 0 < cx
    · have hdec : u32dec cx = cx - 1 := u32dec_pos hcx0 hcx32
      refine hmemcand ((((u32dec cx : Nat) : Int)), ((cy : Nat) : Int), (cy, u32dec cx))
        (by simp [unionCand]) (by rw [hdec]) ?_
      refine (belongs_nat_iff g (u32dec cx) cy p).mpr ?_
      rw [hdec]
      exact hd
    · have hcx : cx = 0 := by omega
      subst hcx
      exact Finset.mem_insert_self _ _
  · by_cases hcy0 : 0 < cy
    · have hdec : u32dec cy = cy - 1 := u32dec_pos hcy0 hcy32
      refine hmemcand ((((cx : Nat) : Int)), (((u32dec cy : Nat) : Int)), (u32dec cy, cx))
        (by simp [unionCand]) (by rw [hdec]) ?_
      refine (belongs_nat_iff g cx (u32dec cy) p).mpr ?_
      rw [hdec]
      exact hd
    · have hcy : cy = 0 := by omega
      subst hcy
      exact Finset.mem_insert_self _ _

/-- If the union-find roots agree along every owned adjacency, they agree
along connectivity. -/
theorem rootD_eq_of_connP {g h : Game} {p : Nat}
    (hprog : ∀ c ∈ pcells g p, ∀ d ∈ nbrCand c, d ∈ pcells g p → rootD h c = rootD h d)
    {a b : Pos} (hconn : connP g p a b) : rootD h a = rootD h b := by
  obtain ⟨ha, hb⟩ := hconn
  have hsub : closure g p a ⊆
      insert a ((pcells g p).filter (fun d => rootD h d = rootD h a)) := by
    refine closure_subset_closed g p a _ (Finset.mem_insert_self a _) ?_
    intro c hc hex
    obtain ⟨d, hdn, hdT⟩ := hex
    have hdroot : rootD h d = rootD h a := by
      rcases Finset.mem_insert.mp hdT with rfl | hdf
      · rfl
      · exact (Finset.mem_filter.mp hdf).2
    have hdp : d ∈ pcells g p := by
      rcases Finset.mem_insert.mp hdT with rfl | hdf
      · exact ha
      · exact (Finset.mem_filter.mp hdf).1
    refine Finset.mem_insert_of_mem (Finset.mem_filter.mpr ⟨hc, ?_⟩)
    rw [hprog c hc d hdn hdp, hdroot]
  rcases Finset.mem_insert.mp (hsub hb) with rfl | hbf
  · rfl
  · exact ((Finset.mem_filter.mp hbf).2).symm

/-- Invariant of the second pass of `reindex_areas` over the processed
prefix `D` of the cell list: the union-find structure is sound for real
connectivity, complete along edges at processed cells, and each player's
area counter holds the current number of distinct root classes mod `2^32`.
Everything observable (and every other player counter) equals the input. -/
def RInv (g : Game) (D : List Pos) (h : Game) : Prop :=
  UFok h ∧ HownerParent h ∧ ObsEq h g ∧
  (∀ j, (h.players j).golden_move_done = (g.players j).golden_move_done ∧
        (h.players j).occupied_fields = (g.players j).occupied_fields ∧
        (h.players j).border_empty_fields = (g.players j).border_empty_fields) ∧
  (∀ p : Nat, ∀ a ∈ pcells g p, ∀ b ∈ pcells g p,
    rootD h a = rootD h b → connP g p a b) ∧
  (∀ p : Nat, ∀ c ∈ pcells g p, c ∈ D → ∀ d ∈ nbrCand c, d ∈ pcells g p →
    rootD h c = rootD h d) ∧
  (∀ p : Nat, 1 ≤ p → p ≤ g.players_num →
    (h.players (p % g.players_num)).areas = ((pcells g p).image (rootD h)).card % U32)

theorem unionPass_spec (g : Game) (hw32 : g.width < U32) (hh32 : g.height < U32)
    (hov : ownersValid g) :
    ∀ (l : List Pos) (D : List Pos) (h : Game),
    (∀ c ∈ l, c.1 < g.height ∧ c.2 < g.width) →
    RInv g D h → RInv g (D ++ l) (l.foldl reindexUnionCell h) := by
  intro l
  induction l with
  | nil =>
    intro D h _ hinv
    rw [List.foldl_nil, List.append_nil]
    exact hinv
  | cons c t ih =>
    intro D h hbnd hinv
    obtain ⟨cy, cx⟩ := c
    rw [List.foldl_cons]
    have hbc := hbnd (cy, cx) (List.mem_cons_self _ _)
    have hstep : RInv g (D ++ [(cy, cx)]) (reindexUnionCell h (cy, cx)) := by
      obtain ⟨huf, hop, hobs, hfr, hsound, hprog, harea⟩ := hinv
      have hpc : ∀ q, pcells h q = pcells g q := pcells_of_ObsEq hobs
      have hcf : cellsF h = cellsF g := cellsF_of_ObsEq hobs
      have hhh : h.height = g.height := hobs.2.2.1
      have hhw : h.width = g.width := hobs.2.2.2.1
      have hhn : h.players_num = g.players_num := hobs.2.1
      by_cases he : (h.board cy cx).empty = true
      · have hid : reindexUnionCell h (cy, cx) = h := by
          rw [reindexUnionCell, if_pos he]
        rw [hid]
        refine ⟨huf, hop, hobs, hfr, hsound, ?_, harea⟩
        intro p c' hc' hmem d hdn hdp
        rcases List.mem_append.mp hmem with hD | hc1
        · exact hprog p c' hc' hD d hdn hdp
        · rw [List.mem_singleton] at hc1
          subst hc1
          exfalso
          have hge : (g.board cy cx).empty = false := ((mem_pcells g p (cy, cx)).mp hc').2.2.1
          have hhe : (h.board cy cx).empty = (g.board cy cx).empty :=
            (hobs.2.2.2.2.2 cy cx).2
          rw [he, hge] at hhe
          exact Bool.noConfusion hhe
      · rw [Bool.not_eq_true] at he
        set p0 := (h.board cy cx).player with hp0
        have hp0g : (g.board cy cx).player = p0 := (hobs.2.2.2.2.2 cy cx).1.symm
        have hge : (g.board cy cx).empty = false := by
          rw [← (hobs.2.2.2.2.2 cy cx).2]
          exact he
        have htfg : (cy, cx) ∈ pcells g p0 :=
          (mem_pcells g p0 _).mpr ⟨hbc.1, hbc.2, hge, hp0g⟩
        have htfh : (cy, cx) ∈ pcells h p0 := by rw [hpc]; exact htfg
        have htfc : (cy, cx) ∈ cellsF g := (mem_cellsF g _).mpr ⟨hbc.1, hbc.2⟩
        have hp0r : 1 ≤ p0 ∧ p0 ≤ g.players_num := by
          have hval := hov (cy, cx) htfc hge
          rw [hp0g] at hval
          exact hval
        have hstepdef : reindexUnionCell h (cy, cx) =
            updPlayer (union_neighbors h cx cy).1 (p0 % h.players_num)
              (fun pr => { pr with
                areas := sub32 pr.areas (union_neighbors h cx cy).2 }) := by
          rw [reindexUnionCell, if_neg (by rw [he]; exact Bool.false_ne_true)]
        obtain ⟨R, hURel, hmerged⟩ :=
          union_neighbors_spec h p0 cx cy huf hop hp0.symm htfh
        obtain ⟨hufU, hopU, hUonly, hRS, hSprop, hmap⟩ := hURel
        set u := (union_neighbors h cx cy).1 with hu
        rw [hstepdef]
        set h2 := updPlayer u (p0 % h.players_num)
          (fun pr => { pr with areas := sub32 pr.areas (union_neighbors h cx cy).2 })
          with hh2
        have hb2 : h2.board = u.board := by
          rw [hh2]
          exact updPlayer_board _ _ _
        have hroot2 : ∀ d, rootD h2 d = rootD u d :=
          rootD_congr (parentOf_of_board_eq hb2) (by rw [hh2, updPlayer_height])
            (by rw [hh2, updPlayer_width])
        have hup : u.players = h.players := hUonly.2.2.2.2.2.1
        have hSconn : ∀ s ∈ nbrRootsU h p0 cx cy,
            s ∈ pcells g p0 ∧ connP g p0 s (cy, cx) := by
          intro s hs
          have hsprops := hSprop s hs
          have hsp : s ∈ pcells g p0 := by rw [← hpc]; exact hsprops.1
          have hsroot : rootD h s = s := rootD_of_isRoot h hsprops.2
          rcases Finset.mem_insert.mp hs with hstf | hscand
          · refine ⟨hsp, ?_⟩
            refine hsound p0 s hsp (cy, cx) htfg ?_
            rw [hsroot, hstf]
          · rw [List.mem_toFinset] at hscand
            obtain ⟨cd, hcdf, hcdroot⟩ := List.mem_map.mp hscand
            obtain ⟨hcdmem, hcdbel⟩ := List.mem_filter.mp hcdf
            have hbel : belongs_to_player h cd.1 cd.2.1 p0 = true := hcdbel
            obtain ⟨hdpH, hdadj⟩ := unionCand_owned_mem h p0 cx cy
              (by rw [hhw]; exact hbc.2) (by rw [hhh]; exact hbc.1)
              (by rw [hhw]; exact hw32) (by rw [hhh]; exact hh32) hcdmem hbel
            have hdpg : cd.2.2 ∈ pcells g p0 := by rw [← hpc]; exact hdpH
            have hcdroot2 : rootD h cd.2.2 = s := hcdroot
            refine ⟨hsp, ?_⟩
            have h1 : connP g p0 s cd.2.2 := by
              refine hsound p0 s hsp cd.2.2 hdpg ?_
              rw [hsroot, ← hcdroot2]
            have h2c : connP g p0 cd.2.2 (cy, cx) :=
              connP_symm g p0 (connP_adj g p0 htfg hdpg hdadj)
            exact connP_trans g p0 h1 h2c
        refine ⟨?_, ?_, ?_, ?_, ?_, ?_, ?_⟩
        · exact UFok_of_board_eq hb2 (by rw [hh2, updPlayer_height])
            (by rw [hh2, updPlayer_width]) hufU
        · exact HownerParent_of_board_eq hb2 (by rw [hh2, updPlayer_height])
            (by rw [hh2, updPlayer_width]) hopU
        · rw [hh2]
          exact ObsEq_trans (updPlayer_ObsEq _ _ _)
            (ObsEq_trans (UFonly_toObsEq hUonly) hobs)
        · intro j
          rw [hh2, updPlayer_players, hup]
          by_cases hj : j = p0 % h.players_num
          · rw [if_pos hj]
            exact hfr j
          · rw [if_neg hj]
            exact hfr j
        · intro p a ha b hb hr
          rw [hroot2 a, hroot2 b] at hr
          have hac : a ∈ cellsF h := by rw [hcf]; exact pcells_subset_cellsF g p ha
          have hbcf : b ∈ cellsF h := by rw [hcf]; exact pcells_subset_cellsF g p hb
          rw [hmap a hac, hmap b hbcf] at hr
          by_cases hra : rootD h a ∈ nbrRootsU h p0 cx cy
          · by_cases hrb : rootD h b ∈ nbrRootsU h p0 cx cy
            · have hpa : p = p0 := by
                have hroota : rootD h a ∈ pcells h p :=
                  rootD_owned huf hop (by rw [hpc]; exact ha)
                have hrootag : rootD h a ∈ pcells g p := by rw [← hpc]; exact hroota
                exact pcells_eq_player hrootag (hSconn _ hra).1
              rw [hpa] at ha hb ⊢
              have hca : connP g p0 (cy, cx) a := by
                refine connP_symm g p0 (connP_trans g p0
                  (hsound p0 a ha (rootD h a) (hSconn _ hra).1 ?_) (hSconn _ hra).2)
                rw [rootD_of_isRoot h (hSprop _ hra).2]
              have hcb : connP g p0 b (cy, cx) := by
                refine connP_trans g p0
                  (hsound p0 b hb (rootD h b) (hSconn _ hrb).1 ?_) (hSconn _ hrb).2
                rw [rootD_of_isRoot h (hSprop _ hrb).2]
              exact connP_symm g p0 (connP_trans g p0 hcb hca)
            · rw [if_pos hra, if_neg hrb] at hr
              exact absurd (hr ▸ hRS) hrb
          · by_cases hrb : rootD h b ∈ nbrRootsU h p0 cx cy
            · rw [if_neg hra, if_pos hrb] at hr
              exact absurd (hr.symm ▸ hRS) hra
            · rw [if_neg hra, if_neg hrb] at hr
              exact hsound p a ha b hb hr
        · intro p c' hc' hmem d hdn hdp
          have hcc : c' ∈ cellsF h := by rw [hcf]; exact pcells_subset_cellsF g p hc'
          have hdc : d ∈ cellsF h := by rw [hcf]; exact pcells_subset_cellsF g p hdp
          rw [hroot2 c', hroot2 d, hmap c' hcc, hmap d hdc]
          rcases List.mem_append.mp hmem with hD | hc1
          · rw [hprog p c' hc' hD d hdn hdp]
          · rw [List.mem_singleton] at hc1
            subst hc1
            have hpp0 : p = p0 := pcells_eq_player hc' htfg
            rw [hpp0] at hdp
            have h1 : rootD h (cy, cx) ∈ nbrRootsU h p0 cx cy := Finset.mem_insert_self _ _
            have h2m : rootD h d ∈ nbrRootsU h p0 cx cy :=
              nbr_root_mem_nbrRootsU h p0 cx cy (lt_trans hbc.2 hw32)
                (lt_trans hbc.1 hh32)
                (by rw [hpc]; exact hdp) hdn
            rw [if_pos h1, if_pos h2m]
        · intro q hq1 hq2
          have himg : ∀ T : Finset Pos, (∀ z ∈ T, z ∈ cellsF h) →
              T.image (rootD h2) = (T.image (rootD h)).image
                (fun z => if z ∈ nbrRootsU h p0 cx cy then R else z) := by
            intro T hT
            rw [Finset.image_image]
            apply Finset.image_congr
            intro z hz
            rw [Function.comp_apply, hroot2 z, hmap z (hT z (Finset.mem_coe.mp hz))]
          by_cases hqp : q = p0
          · subst hqp
            rw [hh2, updPlayer_players, if_pos (by rw [hhn]), hup]
            rw [← hh2, hmerged]
            rw [harea p0 hq1 hq2]
            rw [himg (pcells g p0)
              (fun z hz => by rw [hcf]; exact pcells_subset_cellsF g p0 hz)]
            have hSsubI : nbrRootsU h p0 cx cy ⊆ (pcells g p0).image (rootD h) := by
              intro s hs
              exact Finset.mem_image.mpr ⟨s, (hSconn s hs).1,
                rootD_of_isRoot h (hSprop s hs).2⟩
            have hcoll := image_collapse_card hSsubI hRS
            have hS1 : 1 ≤ (nbrRootsU h p0 cx cy).card := Finset.card_pos.mpr ⟨R, hRS⟩
            have hS5 : (nbrRootsU h p0 cx cy).card ≤ 5 := nbrRootsU_card_le h p0 cx cy
            have hScard : (nbrRootsU h p0 cx cy).card ≤
                ((pcells g p0).image (rootD h)).card := Finset.card_le_card hSsubI
            have hfin : (((pcells g p0).image (rootD h)).image
                (fun z => if z ∈ nbrRootsU h p0 cx cy then R else z)).card =
                ((pcells g p0).image (rootD h)).card -
                  ((nbrRootsU h p0 cx cy).card - 1) := by omega
            rw [hfin]
            refine sub32_mod (by omega) ?_
            show (nbrRootsU h p0 cx cy).card - 1 < 4294967296
            omega
          · have hne : q % g.players_num ≠ p0 % h.players_num := by
              rw [hhn]
              intro hcq
              exact hqp (mod_players_inj hq1 hq2 hp0r.1 hp0r.2 hcq)
            rw [hh2, updPlayer_players, if_neg hne, hup, harea q hq1 hq2]
            have himg_q : (pcells g q).image (rootD h2) = (pcells g q).image (rootD h) := by
              apply Finset.image_congr
              intro z hz
              have hzq : z ∈ pcells g q := Finset.mem_coe.mp hz
              have hznot : rootD h z ∉ nbrRootsU h p0 cx cy := by
                intro hzS
                have hzr : rootD h z ∈ pcells g q := by
                  rw [← hpc]
                  exact rootD_owned huf hop (by rw [hpc]; exact hzq)
                exact hqp (pcells_eq_player hzr (hSconn _ hzS).1)
              rw [hroot2 z, hmap z (by rw [hcf]; exact pcells_subset_cellsF g q hzq),
                if_neg hznot]
            rw [← hh2, himg_q]
    have hres := ih (D ++ [(cy, cx)]) (reindexUnionCell h (cy, cx))
      (fun c hc => hbnd c (List.mem_cons_of_mem _ hc)) hstep
    rw [List.append_assoc] at hres
    exact hres

/-- Specification of `reindex_areas`: the observable state and the non-area
player counters are unchanged, each valid player's area counter is rebuilt as
the player's true component count mod 2^32, the returned flag says every such
count is within `max_areas`, and the rebuilt union-find forest is a
well-formed classifier of connectivity. -/
theorem reindex_areas_spec (g : Game) (hN : 0 < g.players_num)
    (hw32 : g.width < U32) (hh32 : g.height < U32) (hov : ownersValid g)
    (hesp : ∀ c ∈ cellsF g, (g.board c.1 c.2).empty = true → parentOf g c = c) :
    ObsEq (reindex_areas g).1 g ∧
    (∀ j, ((reindex_areas g).1.players j).golden_move_done =
            (g.players j).golden_move_done ∧
          ((reindex_areas g).1.players j).occupied_fields =
            (g.players j).occupied_fields ∧
          ((reindex_areas g).1.players j).border_empty_fields =
            (g.players j).border_empty_fields) ∧
    (∀ p, 1 ≤ p → p ≤ g.players_num →
      ((reindex_areas g).1.players (p % g.players_num)).areas = compCount g p % U32) ∧
    ((reindex_areas g).2 = true ↔
      ∀ p, 1 ≤ p → p ≤ g.players_num → compCount g p % U32 ≤ g.max_areas) ∧
    UFok (reindex_areas g).1 ∧ HownerParent (reindex_areas g).1 ∧
    UFrepr (reindex_areas g).1 := by
  set g0 := (List.range g.players_num).foldl
    (fun h p => updPlayer h p (fun pr => { pr with areas := 0 })) g with hg0
  set g1 := reset_find_union_metadata g0 with hg1
  set g2 := (cellList g1).foldl reindexUnionCell g1 with hg2
  have hfst : (reindex_areas g).1 = g2 := rfl
  have hsnd : (reindex_areas g).2 = (List.range g2.players_num).all
      (fun p => !decide (g2.max_areas < (g2.players p).areas)) := rfl
  have hg0p := zeroFold_players g g.players_num
  have hg0po : PlayersOnly ((List.range g.players_num).foldl
      (fun h p => updPlayer h p (fun pr => { pr with areas := 0 })) g) g :=
    zeroFold_PlayersOnly g g.players_num
  rw [← hg0] at hg0p hg0po
  have hg0b : g0.board = g.board := hg0po.2.2.2.2.2
  have hg0n : g0.players_num = g.players_num := hg0po.2.1
  have hg0h : g0.height = g.height := hg0po.2.2.1
  have hg0w : g0.width = g.width := hg0po.2.2.2.1
  have hfr0 : ∀ j, (g0.players j).golden_move_done = (g.players j).golden_move_done ∧
      (g0.players j).occupied_fields = (g.players j).occupied_fields ∧
      (g0.players j).border_empty_fields = (g.players j).border_empty_fields := by
    intro j
    rw [hg0p j]
    by_cases hj : j < g.players_num
    · rw [if_pos hj]
      exact ⟨rfl, rfl, rfl⟩
    · rw [if_neg hj]
      exact ⟨rfl, rfl, rfl⟩
  have hg1e : g1 = (cellList g0).foldl resetCell g0 := by
    rw [hg1, reset_find_union_metadata]
  obtain ⟨q1, q2, q3, q4, q5⟩ := resetFold_spec (cellList g0) g0
  rw [← hg1e] at q1 q2 q3 q4 q5
  have hg1h : g1.height = g.height := q1.2.2.1.trans hg0h
  have hg1w : g1.width = g.width := q1.2.2.2.1.trans hg0w
  have hg1n : g1.players_num = g.players_num := q1.2.1.trans hg0n
  have hcf1 : cellsF g1 = cellsF g := cellsF_of_dims_eq hg1h hg1w
  have hobs1 : ObsEq g1 g := by
    refine ⟨q1.1.trans hg0po.1, hg1n, hg1h, hg1w, q1.2.2.2.2.trans hg0po.2.2.2.2.1, ?_⟩
    intro y x
    refine ⟨(q2 y x).1.trans ?_, (q2 y x).2.trans ?_⟩ <;> rw [hg0b]
  have hpar1 : ∀ c ∈ cellsF g, parentOf g1 c = c := by
    intro c hc
    obtain ⟨cy, cx⟩ := c
    rw [mem_cellsF] at hc
    by_cases hocc : (g0.board cy cx).empty = true
    · have hnot : ¬((cy, cx) ∈ cellList g0 ∧ (g0.board cy cx).empty = false) := by
        rintro ⟨-, h2⟩
        rw [h2] at hocc
        exact Bool.noConfusion hocc
      have hbe := (q3 cy cx).2 hnot
      show (g1.board cy cx).parent = (cy, cx)
      rw [hbe, hg0b] at *
      rw [hg0b] at hocc
      exact hesp (cy, cx) ((mem_cellsF g _).mpr hc) hocc
    · rw [Bool.not_eq_true] at hocc
      exact (q3 cy cx).1 ⟨(mem_cellList g0 (cy, cx)).mpr (by rw [hg0h, hg0w]; exact hc),
        hocc⟩
  have huf1 : UFok g1 := by
    constructor
    · intro c hc
      rw [hcf1] at hc ⊢
      rw [hpar1 c hc]
      exact hc
    · intro c hc
      rw [hcf1] at hc
      exact ⟨0, by rw [Function.iterate_zero_apply]; exact hpar1 c hc⟩
  have hop1 : HownerParent g1 := by
    intro c hc hne
    rw [hcf1] at hc
    exact absurd (hpar1 c hc) hne
  have hroot1 : ∀ c ∈ cellsF g, rootD g1 c = c := by
    intro c hc
    exact rootD_of_isRoot g1 (hpar1 c hc)
  have hinv0 : RInv g [] g1 := by
    refine ⟨huf1, hop1, hobs1, ?_, ?_, ?_, ?_⟩
    · intro j
      exact ⟨(q4 j).1.trans (hfr0 j).1, (q4 j).2.1.trans (hfr0 j).2.1,
        (q4 j).2.2.trans (hfr0 j).2.2⟩
    · intro p a ha b hb hr
      rw [hroot1 a (pcells_subset_cellsF g p ha),
        hroot1 b (pcells_subset_cellsF g p hb)] at hr
      subst hr
      exact connP_refl g p ha
    · intro p c' hc' hmem
      exact absurd hmem (List.not_mem_nil _)
    · intro p hp1 hp2
      have hjN : p % g.players_num < g.players_num := Nat.mod_lt p hN
      have hz : (g0.players (p % g.players_num)).areas = 0 := by
        rw [hg0p (p % g.players_num), if_pos hjN]
      have h5 := q5 (p % g.players_num) (by rw [hz]; rw [U32]; omega)
      rw [h5, hz, Nat.zero_add]
      have himg : (pcells g p).image (rootD g1) = pcells g p := by
        have hcongr : (pcells g p).image (rootD g1) = (pcells g p).image id := by
          apply Finset.image_congr
          intro z hz2
          exact hroot1 z (pcells_subset_cellsF g p (Finset.mem_coe.mp hz2))
        rw [hcongr, Finset.image_id]
      rw [himg]
      congr 1
      rw [cntOwned, cellList_filter_length g0 _]
      have hset : (cellsF g0).filter (fun c => (!(g0.board c.1 c.2).empty &&
          decide ((g0.board c.1 c.2).player % g0.players_num = p % g.players_num)) = true) =
          pcells g p := by
        ext c
        rw [Finset.mem_filter, cellsF_of_dims_eq hg0h hg0w, mem_cellsF, mem_pcells,
          hg0b, hg0n]
        simp only [Bool.and_eq_true, Bool.not_eq_true', decide_eq_true_eq]
        constructor
        · rintro ⟨⟨h1, h2⟩, h3, h4⟩
          refine ⟨h1, h2, h3, ?_⟩
          have hcr := hov c ((mem_cellsF g c).mpr ⟨h1, h2⟩) h3
          exact mod_players_inj hcr.1 hcr.2 hp1 hp2 h4
        · rintro ⟨h1, h2, h3, h4⟩
          exact ⟨⟨h1, h2⟩, h3, by rw [h4]⟩
      rw [hset]
  have hbnds : ∀ c ∈ cellList g1, c.1 < g.height ∧ c.2 < g.width := by
    intro c hc
    rw [mem_cellList, hg1h, hg1w] at hc
    exact hc
  have hfinal := unionPass_spec g hw32 hh32 hov (cellList g1) [] g1 hbnds hinv0
  rw [List.nil_append, ← hg2] at hfinal
  obtain ⟨huf2, hop2, hobs2, hfr2, hsound2, hprog2, harea2⟩ := hfinal
  have hpc2 : ∀ q, pcells g2 q = pcells g q := fun q => pcells_of_ObsEq hobs2 q
  have hprog2u : ∀ p : Nat, ∀ c ∈ pcells g p, ∀ d ∈ nbrCand c, d ∈ pcells g p →
      rootD g2 c = rootD g2 d := by
    intro p c hc d hdn hdp
    refine hprog2 p c hc ?_ d hdn hdp
    rw [mem_cellList, hg1h, hg1w]
    have hm := (mem_pcells g p c).mp hc
    exact ⟨hm.1, hm.2.1⟩
  have hrepr2 : UFrepr g2 := by
    intro p a ha b hb
    rw [hpc2 p] at ha hb
    rw [connP_congr (hpc2 p) hobs2.2.2.1 hobs2.2.2.2.1 a b]
    constructor
    · intro hr
      exact hsound2 p a ha b hb hr
    · intro hconn
      exact rootD_eq_of_connP (hprog2u p) hconn
  have hareaF : ∀ p, 1 ≤ p → p ≤ g.players_num →
      (g2.players (p % g.players_num)).areas = compCount g p % U32 := by
    intro p hp1 hp2
    rw [harea2 p hp1 hp2]
    congr 1
    have hcc : compCount g p = compCount g2 p :=
      (compCount_of_ObsEq hobs2 p).symm
    rw [hcc, compCount_eq_image_card hrepr2 p, hpc2 p]
  have hflag : (reindex_areas g).2 = true ↔
      ∀ p, 1 ≤ p → p ≤ g.players_num → compCount g p % U32 ≤ g.max_areas := by
    rw [hsnd, List.all_eq_true]
    have hn2 : g2.players_num = g.players_num := hobs2.2.1
    have hm2 : g2.max_areas = g.max_areas := hobs2.1
    constructor
    · intro hall p hp1 hp2
      have hjN : p % g.players_num < g.players_num := Nat.mod_lt p hN
      have hj := hall (p % g.players_num) (by rw [List.mem_range, hn2]; exact hjN)
      rw [Bool.not_eq_eq_eq_not, Bool.not_true, decide_eq_false_iff_not, hm2,
        Nat.not_lt] at hj
      rw [← hareaF p hp1 hp2]
      exact hj
    · intro hbound j hj
      rw [List.mem_range, hn2] at hj
      rw [Bool.not_eq_eq_eq_not, Bool.not_true, decide_eq_false_iff_not, hm2, Nat.not_lt]
      set pj := if j = 0 then g.players_num else j with hpj
      have hpj1 : 1 ≤ pj := by
        rw [hpj]
        by_cases h0 : j = 0
        · rw [if_pos h0]
          exact hN
        · rw [if_neg h0]
          omega
      have hpj2 : pj ≤ g.players_num := by
        rw [hpj]
        by_cases h0 : j = 0
        · rw [if_pos h0]
        · rw [if_neg h0]
          omega
      have hpjmod : pj % g.players_num = j := by
        rw [hpj]
        by_cases h0 : j = 0
        · rw [if_pos h0, Nat.mod_self, h0]
        · rw [if_neg h0]
          exact Nat.mod_eq_of_lt hj
      have := hbound pj hpj1 hpj2
      rw [← hareaF pj hpj1 hpj2, hpjmod] at this
      exact this
  rw [hfst, hsnd] at *
  exact ⟨hobs2, hfr2, hareaF, by rw [← hsnd]; exact hflag, huf2, hop2, hrepr2⟩

/-! ### `gamma_golden_move` -/

theorem ownersValid_of_ObsEq {gA gB : Game} (hobs : ObsEq gA gB) (h : ownersValid gB) :
    ownersValid gA := by
  intro c hc hce
  rw [cellsF_of_ObsEq hobs] at hc
  rw [(hobs.2.2.2.2.2 c.1 c.2).2] at hce
  rw [(hobs.2.2.2.2.2 c.1 c.2).1, hobs.2.1]
  exact h c hc hce

theorem gainB_congr {gA gB : Game} (hobs : ObsEq gA gB) (p x y : Nat) :
    gainB gA p x y = gainB gB p x y := by
  ext z
  rw [mem_gainB, mem_gainB, hobs.2.2.1, hobs.2.2.2.1, (hobs.2.2.2.2.2 z.1 z.2).2]
  have hpc := pcells_of_ObsEq hobs p
  rw [hpc]

theorem goldenImpossibleG_false_facts {g : Game} {player x y : Nat}
    (h : goldenImpossibleG g player x y = false) :
    1 ≤ player ∧ player ≤ g.players_num ∧ x < g.width ∧ y < g.height ∧
    (g.board y x).empty = false ∧ (g.board y x).player ≠ player ∧
    (g.players (player % g.players_num)).golden_move_done = false := by
  rw [goldenImpossibleG] at h
  simp only [Bool.or_eq_false_iff, decide_eq_false_iff_not, Nat.not_lt, Nat.not_le,
    Bool.not_eq_true] at h
  obtain ⟨⟨⟨⟨⟨⟨⟨h1, h2⟩, h3⟩, h4⟩, h5⟩, h6⟩, h7⟩, h8⟩ := h
  exact ⟨by omega, h2, h3, h4, h5, h6, h7⟩

theorem add64_small {a b : Nat} (h : a + b < U64) : add64 a b = a + b := by
  rw [add64]
  exact Nat.mod_eq_of_lt h

theorem sub64_small {a b : Nat} (hba : b ≤ a) (ha : a < U64) : sub64 a b = a - b := by
  rw [sub64]
  have hb : b % U64 = b := Nat.mod_eq_of_lt (lt_of_le_of_lt hba ha)
  rw [hb]
  show (a + (18446744073709551616 - b)) % 18446744073709551616 = a - b
  have ha' : a < 18446744073709551616 := ha
  omega

theorem gainB_subset_cellsF (g : Game) (p x y : Nat) : gainB g p x y ⊆ cellsF g := by
  intro z hz
  rw [mem_gainB] at hz
  exact (mem_cellsF g z).mpr ⟨hz.2.2.1, hz.2.2.2.1⟩

set_option maxHeartbeats 1000000 in
/-- Behaviour of the body of `gamma_golden_move` once the feasibility check
has passed: the invariant is preserved in both branches; the revert branch
restores every observable and every valid player's four counters; the commit
branch preserves the global occupied total, moves exactly one busy field from
the previous owner to the player, and sets the golden flag. -/
theorem gammaGoldenApply_spec (g : Game) (player x y : Nat) (hinv : InvG g)
    (himp : goldenImpossibleG g player x y = false) :
    InvG (gammaGoldenApply g player x y).2 ∧
    ((gammaGoldenApply g player x y).1 = false →
      ObsEq (gammaGoldenApply g player x y).2 g ∧
      ∀ p, 1 ≤ p → p ≤ g.players_num →
        ((gammaGoldenApply g player x y).2.players (p % g.players_num)).golden_move_done =
          (g.players (p % g.players_num)).golden_move_done ∧
        ((gammaGoldenApply g player x y).2.players (p % g.players_num)).areas =
          (g.players (p % g.players_num)).areas ∧
        ((gammaGoldenApply g player x y).2.players (p % g.players_num)).occupied_fields =
          (g.players (p % g.players_num)).occupied_fields ∧
        ((gammaGoldenApply g player x y).2.players (p % g.players_num)).border_empty_fields =
          (g.players (p % g.players_num)).border_empty_fields) ∧
    ((gammaGoldenApply g player x y).1 = true →
      (gammaGoldenApply g player x y).2.occupied_fields = g.occupied_fields ∧
      ((gammaGoldenApply g player x y).2.players
          ((g.board y x).player % g.players_num)).occupied_fields =
        (g.players ((g.board y x).player % g.players_num)).occupied_fields - 1 ∧
      ((gammaGoldenApply g player x y).2.players (player % g.players_num)).occupied_fields =
        (g.players (player % g.players_num)).occupied_fields + 1 ∧
      ((gammaGoldenApply g player x y).2.players (player % g.players_num)).golden_move_done =
        true) := by
  obtain ⟨hN, hW, hH, hM, hN32, hW32, hH32, hM32, huf, hop, hrepr, hov, hocc, hctr⟩ := hinv
  obtain ⟨hp1, hp2, hx, hy, hocc_tf, hne_tf, hgold⟩ := goldenImpossibleG_false_facts himp
  set prev := (g.board y x).player with hprev
  have hprevr : 1 ≤ prev ∧ prev ≤ g.players_num :=
    hov (y, x) ((mem_cellsF g _).mpr ⟨hy, hx⟩) hocc_tf
  have hplayer_ne_prev : player ≠ prev := fun h => hne_tf h.symm
  set bta := new_border_empty_fields g (x : Int) (y : Int) player with hbta
  set g1 := updBoard g y x (fun f => { f with player := player }) with hg1
  have hg1b_ne : ∀ c : Pos, c ≠ (y, x) → g1.board c.1 c.2 = g.board c.1 c.2 := by
    intro c hc
    rw [hg1, updBoard_board, if_neg ?_]
    rintro ⟨h1, h2⟩
    apply hc
    obtain ⟨cy, cx⟩ := c
    rw [Prod.mk.injEq]
    exact ⟨h1, h2⟩
  have hg1b_tf : g1.board y x = { g.board y x with player := player } := by
    rw [hg1, updBoard_board, if_pos ⟨rfl, rfl⟩]
  have hg1h : g1.height = g.height := by rw [hg1, updBoard_height]
  have hg1w : g1.width = g.width := by rw [hg1, updBoard_width]
  have hg1n : g1.players_num = g.players_num := by rw [hg1, updBoard_players_num]
  have hg1m : g1.max_areas = g.max_areas := by rw [hg1, updBoard_max_areas]
  have hg1o : g1.occupied_fields = g.occupied_fields := by rw [hg1, updBoard_occupied]
  have hg1pl : g1.players = g.players := by rw [hg1, updBoard_players]
  have hcf1 : cellsF g1 = cellsF g := cellsF_of_dims_eq hg1h hg1w
  have hov1 : ownersValid g1 := by
    intro c hc hce
    rw [hcf1] at hc
    rw [hg1n]
    by_cases hctf : c = (y, x)
    · rw [hctf]
      show 1 ≤ (g1.board y x).player ∧ (g1.board y x).player ≤ g.players_num
      rw [hg1b_tf]
      exact ⟨hp1, hp2⟩
    · rw [hg1b_ne c hctf] at hce ⊢
      exact hov c hc hce
  have hesp1 : ∀ c ∈ cellsF g1, (g1.board c.1 c.2).empty = true → parentOf g1 c = c := by
    intro c hc hce
    rw [hcf1] at hc
    by_cases hctf : c = (y, x)
    · exfalso
      rw [hctf] at hce
      have : (g1.board (y, x).1 (y, x).2).empty = false := by
        show (g1.board y x).empty = false
        rw [hg1b_tf]
        exact hocc_tf
      rw [this] at hce
      exact Bool.noConfusion hce
    · rw [hg1b_ne c hctf] at hce
      show (g1.board c.1 c.2).parent = c
      rw [hg1b_ne c hctf]
      exact empty_parent_self hop hc hce
  obtain ⟨hobsR, hfrR, hareaR, hflagR, hufR, hopR, hreprR⟩ :=
    reindex_areas_spec g1 (by rw [hg1n]; exact hN) (by rw [hg1w]; exact hW32)
      (by rw [hg1h]; exact hH32) hov1 hesp1
  rw [hg1n] at hareaR hflagR
  rw [hg1m] at hflagR
  have hr1n : (reindex_areas g1).1.players_num = g.players_num := hobsR.2.1.trans hg1n
  have hr1h : (reindex_areas g1).1.height = g.height := hobsR.2.2.1.trans hg1h
  have hr1w : (reindex_areas g1).1.width = g.width := hobsR.2.2.2.1.trans hg1w
  have hr1m : (reindex_areas g1).1.max_areas = g.max_areas := hobsR.1.trans hg1m
  have hr1o : (reindex_areas g1).1.occupied_fields = g.occupied_fields :=
    hobsR.2.2.2.2.1.trans hg1o
  have hfrRg : ∀ j, ((reindex_areas g1).1.players j).golden_move_done =
        (g.players j).golden_move_done ∧
      ((reindex_areas g1).1.players j).occupied_fields = (g.players j).occupied_fields ∧
      ((reindex_areas g1).1.players j).border_empty_fields =
        (g.players j).border_empty_fields := by
    intro j
    rw [hg1pl] at hfrR
    exact hfrR j
  obtain ⟨hins, htf_notin, herase, htf_prev, hpc_others, hoccC⟩ :=
    cells_golden g g1 player prev x y hg1h hg1w hg1b_ne
      (by rw [hg1b_tf]; exact hocc_tf) (by rw [hg1b_tf]) hocc_tf rfl
      hplayer_ne_prev hx hy
  obtain ⟨hbplayer, hbdisj, hbprev, hbsub, hb_others⟩ :=
    borderCells_golden g g1 player prev x y hg1h hg1w hg1b_ne
      (by rw [hg1b_tf]; exact hocc_tf) (by rw [hg1b_tf]) hocc_tf rfl
      hplayer_ne_prev hx hy
  have happly : gammaGoldenApply g player x y =
      if !(reindex_areas g1).2 then
        (false, gammaGoldenRevert (reindex_areas g1).1 prev x y)
      else (true, gammaGoldenCommit (reindex_areas g1).1 player prev x y bta) := by
    rw [hg1, hprev, hbta]
    rfl
  by_cases hfl : (reindex_areas g1).2 = true
  · -- commit branch
    have hcond : ¬((!(reindex_areas g1).2) = true) := by
      rw [hfl]
      exact Bool.noConfusion
    have h1 : (gammaGoldenApply g player x y).1 = true := by
      rw [happly, if_neg hcond]
    have h2 : (gammaGoldenApply g player x y).2 =
        gammaGoldenCommit (reindex_areas g1).1 player prev x y bta := by
      rw [happly, if_neg hcond]
    set pi := player % (reindex_areas g1).1.players_num with hpi
    set ppi := prev % (reindex_areas g1).1.players_num with hppi
    have hpig : pi = player % g.players_num := by rw [hpi, hr1n]
    have hppig : ppi = prev % g.players_num := by rw [hppi, hr1n]
    have hpine : ppi ≠ pi := by
      rw [hpig, hppig]
      intro hc
      exact hplayer_ne_prev (mod_players_inj hprevr.1 hprevr.2 hp1 hp2 hc).symm
    set c2 := updPlayer (reindex_areas g1).1 pi
      (fun pr => { pr with occupied_fields := add64 pr.occupied_fields 1 }) with hc2
    set c3 := updPlayer c2 pi
      (fun pr => { pr with border_empty_fields := add64 pr.border_empty_fields bta }) with hc3
    set c4 := updPlayer c3 pi (fun pr => { pr with golden_move_done := true }) with hc4
    set lost := new_border_empty_fields c4 (x : Int) (y : Int) prev with hlost
    set c5 := updPlayer c4 ppi
      (fun pr => { pr with occupied_fields := sub64 pr.occupied_fields 1 }) with hc5
    set c6 := updPlayer c5 ppi
      (fun pr => { pr with border_empty_fields := sub64 pr.border_empty_fields lost })
      with hc6
    have hcommit : gammaGoldenCommit (reindex_areas g1).1 player prev x y bta = c6 := by
      rw [hc6, hc5, hc4, hc3, hc2, hlost, hpi, hppi, gammaGoldenCommit]
    rw [hcommit] at h2
    have hFb : c6.board = (reindex_areas g1).1.board := by
      rw [hc6, updPlayer_board, hc5, updPlayer_board, hc4, updPlayer_board, hc3,
        updPlayer_board, hc2, updPlayer_board]
    have hFhr : c6.height = (reindex_areas g1).1.height := by
      rw [hc6, updPlayer_height, hc5, updPlayer_height, hc4, updPlayer_height, hc3,
        updPlayer_height, hc2, updPlayer_height]
    have hFwr : c6.width = (reindex_areas g1).1.width := by
      rw [hc6, updPlayer_width, hc5, updPlayer_width, hc4, updPlayer_width, hc3,
        updPlayer_width, hc2, updPlayer_width]
    have hFn : c6.players_num = g.players_num := by
      rw [hc6, updPlayer_players_num, hc5, updPlayer_players_num, hc4,
        updPlayer_players_num, hc3, updPlayer_players_num, hc2, updPlayer_players_num,
        hr1n]
    have hFm : c6.max_areas = g.max_areas := by
      rw [hc6, updPlayer_max_areas, hc5, updPlayer_max_areas, hc4, updPlayer_max_areas,
        hc3, updPlayer_max_areas, hc2, updPlayer_max_areas, hr1m]
    have hFh : c6.height = g.height := hFhr.trans hr1h
    have hFw : c6.width = g.width := hFwr.trans hr1w
    have hFo : c6.occupied_fields = g.occupied_fields := by
      rw [hc6, updPlayer_occupied, hc5, updPlayer_occupied, hc4, updPlayer_occupied,
        hc3, updPlayer_occupied, hc2, updPlayer_occupied, hr1o]
    have hobsF1 : ObsEq c6 g1 := by
      refine ObsEq_trans ?_ hobsR
      refine ObsEq_trans (by rw [hc6]; exact updPlayer_ObsEq _ _ _) ?_
      refine ObsEq_trans (by rw [hc5]; exact updPlayer_ObsEq _ _ _) ?_
      refine ObsEq_trans (by rw [hc4]; exact updPlayer_ObsEq _ _ _) ?_
      refine ObsEq_trans (by rw [hc3]; exact updPlayer_ObsEq _ _ _) ?_
      rw [hc2]
      exact updPlayer_ObsEq _ _ _
    have hpcF : ∀ q, pcells c6 q = pcells g1 q := pcells_of_ObsEq hobsF1
    have hccF : ∀ q, compCount c6 q = compCount g1 q := fun q => compCount_of_ObsEq hobsF1 q
    have hbcF : ∀ q, borderCells c6 q = borderCells g1 q := borderCells_of_ObsEq hobsF1
    have hc6pp : c6.players ppi = { (reindex_areas g1).1.players ppi with
        occupied_fields := sub64 ((reindex_areas g1).1.players ppi).occupied_fields 1
        border_empty_fields :=
          sub64 ((reindex_areas g1).1.players ppi).border_empty_fields lost } := by
      rw [hc6, updPlayer_players, if_pos rfl, hc5, updPlayer_players, if_pos rfl, hc4,
        updPlayer_players, if_neg hpine, hc3, updPlayer_players, if_neg hpine, hc2,
        updPlayer_players, if_neg hpine]
    have hc6pl : c6.players pi = { (reindex_areas g1).1.players pi with
        golden_move_done := true
        occupied_fields := add64 ((reindex_areas g1).1.players pi).occupied_fields 1
        border_empty_fields :=
          add64 ((reindex_areas g1).1.players pi).border_empty_fields bta } := by
      rw [hc6, updPlayer_players, if_neg (Ne.symm hpine), hc5, updPlayer_players,
        if_neg (Ne.symm hpine), hc4, updPlayer_players, if_pos rfl, hc3,
        updPlayer_players, if_pos rfl, hc2, updPlayer_players, if_pos rfl]
    have hc6po : ∀ j, j ≠ pi → j ≠ ppi → c6.players j = (reindex_areas g1).1.players j := by
      intro j hj1 hj2
      rw [hc6, updPlayer_players, if_neg hj2, hc5, updPlayer_players, if_neg hj2, hc4,
        updPlayer_players, if_neg hj1, hc3, updPlayer_players, if_neg hj1, hc2,
        updPlayer_players, if_neg hj1]
    have hcard_pc : ∀ q : Nat, (pcells g q).card ≤ g.height * g.width :=
      fun q => card_le_cells (pcells_subset_cellsF g q)
    have hcard_bc : ∀ q : Nat, (borderCells g q).card ≤ g.height * g.width :=
      fun q => card_le_cells (borderCells_subset g q)
    have hU64 : g.height * g.width + 5 < U64 := hw_succ_lt_U64 hH32 hW32
    have hlostg : lost = (gainB g1 prev x y).card := by
      have hobs4 : ObsEq c4 g1 := by
        refine ObsEq_trans ?_ hobsR
        refine ObsEq_trans (by rw [hc4]; exact updPlayer_ObsEq _ _ _) ?_
        refine ObsEq_trans (by rw [hc3]; exact updPlayer_ObsEq _ _ _) ?_
        rw [hc2]
        exact updPlayer_ObsEq _ _ _
      rw [hlost, new_border_card c4 prev x y, gainB_congr hobs4 prev x y]
    have hbprev_card : (borderCells g1 prev).card =
        (borderCells g prev).card - (gainB g1 prev x y).card := by
      rw [hbprev, Finset.card_sdiff hbsub]
    have hlost_le : (gainB g1 prev x y).card ≤ (borderCells g prev).card :=
      Finset.card_le_card hbsub
    have hbplayer_card : (borderCells g1 player).card =
        (borderCells g player).card + (gainB g player x y).card := by
      rw [hbplayer, Finset.card_union_of_disjoint hbdisj]
    have hgain_bound : (borderCells g player).card + (gainB g player x y).card ≤
        g.height * g.width := by
      rw [← hbplayer_card]
      have hs : borderCells g1 player ⊆ cellsF g1 := borderCells_subset g1 player
      have := card_le_cells hs
      rw [hg1h, hg1w] at this
      exact this
    -- the invariant for the commit state
    have hinvF : InvG c6 := by
      refine ⟨by rw [hFn]; exact hN, by rw [hFw]; exact hW, by rw [hFh]; exact hH,
        by rw [hFm]; exact hM, by rw [hFn]; exact hN32, by rw [hFw]; exact hW32,
        by rw [hFh]; exact hH32, by rw [hFm]; exact hM32,
        UFok_of_board_eq hFb hFhr hFwr hufR,
        HownerParent_of_board_eq hFb hFhr hFwr hopR,
        UFrepr_of_board_eq hFb hFhr hFwr hreprR,
        ownersValid_of_ObsEq hobsF1 hov1, ?_, ?_⟩
      · rw [hFo, hocc, occCells_of_ObsEq hobsF1, hoccC]
      · intro p hq1 hq2
        rw [hFn] at hq2
        have hslot : p % c6.players_num = p % g.players_num := by rw [hFn]
        rw [hslot]
        by_cases hqpl : p = player
        · rw [hqpl]
          rw [← hpig, hc6pl]
          refine ⟨?_, ?_, ?_, ?_⟩
          · show ((reindex_areas g1).1.players pi).areas = compCount c6 player % U32
            rw [hpig, hareaR player hp1 hp2, hccF player]
          · intro hsm
            show ((reindex_areas g1).1.players pi).areas ≤ c6.max_areas
            rw [hpig, hareaR player hp1 hp2, hFm]
            exact (hflagR.mp hfl) player hp1 hp2
          · show add64 ((reindex_areas g1).1.players pi).occupied_fields 1 =
              (pcells c6 player).card
            rw [hpig, (hfrRg (player % g.players_num)).2.1,
              (hctr player hp1 hp2).2.2.1, hpcF player, hins,
              Finset.card_insert_of_not_mem htf_notin]
            exact add64_small (by have := hcard_pc player; omega)
          · show add64 ((reindex_areas g1).1.players pi).border_empty_fields bta =
              (borderCells c6 player).card
            rw [hpig, (hfrRg (player % g.players_num)).2.2,
              (hctr player hp1 hp2).2.2.2, hbcF player, hbplayer_card, hbta,
              new_border_card g player x y]
            exact add64_small (by have := hgain_bound; omega)
        · by_cases hqpr : p = prev
          · rw [hqpr]
            rw [← hppig, hc6pp]
            have htf_card : 1 ≤ (pcells g prev).card :=
              Finset.card_pos.mpr ⟨(y, x), htf_prev⟩
            refine ⟨?_, ?_, ?_, ?_⟩
            · show ((reindex_areas g1).1.players ppi).areas = compCount c6 prev % U32
              rw [hppig, hareaR prev hprevr.1 hprevr.2, hccF prev]
            · intro hsm
              show ((reindex_areas g1).1.players ppi).areas ≤ c6.max_areas
              rw [hppig, hareaR prev hprevr.1 hprevr.2, hFm]
              exact (hflagR.mp hfl) prev hprevr.1 hprevr.2
            · show sub64 ((reindex_areas g1).1.players ppi).occupied_fields 1 =
                (pcells c6 prev).card
              rw [hppig, (hfrRg (prev % g.players_num)).2.1,
                (hctr prev hprevr.1 hprevr.2).2.2.1, hpcF prev, herase,
                Finset.card_erase_of_mem htf_prev]
              exact sub64_small htf_card (by have := hcard_pc prev; omega)
            · show sub64 ((reindex_areas g1).1.players ppi).border_empty_fields lost =
                (borderCells c6 prev).card
              rw [hppig, (hfrRg (prev % g.players_num)).2.2,
                (hctr prev hprevr.1 hprevr.2).2.2.2, hbcF prev, hbprev_card, hlostg]
              exact sub64_small hlost_le (by have := hcard_bc prev; omega)
          · have hj1 : p % g.players_num ≠ pi := by
              rw [hpig]
              intro hc
              exact hqpl (mod_players_inj hq1 hq2 hp1 hp2 hc)
            have hj2 : p % g.players_num ≠ ppi := by
              rw [hppig]
              intro hc
              exact hqpr (mod_players_inj hq1 hq2 hprevr.1 hprevr.2 hc)
            rw [hc6po _ hj1 hj2]
            refine ⟨?_, ?_, ?_, ?_⟩
            · rw [hareaR p hq1 hq2, hccF p]
            · intro hsm
              rw [hareaR p hq1 hq2, hFm]
              exact (hflagR.mp hfl) p hq1 hq2
            · rw [(hfrRg (p % g.players_num)).2.1, (hctr p hq1 hq2).2.2.1, hpcF p,
                hpc_others p hqpl hqpr]
            · rw [(hfrRg (p % g.players_num)).2.2, (hctr p hq1 hq2).2.2.2, hbcF p,
                hb_others p hqpl hqpr]
      -- end hinvF
    refine ⟨?_, ?_, ?_⟩
    · rw [h2]
      exact hinvF
    · intro hff
      rw [h1] at hff
      exact Bool.noConfusion hff
    · intro hmm
      rw [h2]
      refine ⟨hFo, ?_, ?_, ?_⟩
      · rw [← hppig, hc6pp]
        show sub64 ((reindex_areas g1).1.players ppi).occupied_fields 1 =
          (g.players ppi).occupied_fields - 1
        rw [hppig, (hfrRg (prev % g.players_num)).2.1]
        have htf_card : 1 ≤ (pcells g prev).card :=
          Finset.card_pos.mpr ⟨(y, x), htf_prev⟩
        rw [(hctr prev hprevr.1 hprevr.2).2.2.1]
        exact sub64_small htf_card (by have := hcard_pc prev; omega)
      · rw [← hpig, hc6pl]
        show add64 ((reindex_areas g1).1.players pi).occupied_fields 1 =
          (g.players pi).occupied_fields + 1
        rw [hpig, (hfrRg (player % g.players_num)).2.1, (hctr player hp1 hp2).2.2.1]
        exact add64_small (by have := hcard_pc player; omega)
      · rw [← hpig, hc6pl]
  · -- revert branch
    have hcond : (!(reindex_areas g1).2) = true := by
      rw [Bool.not_eq_true] at hfl
      rw [hfl]
      rfl
    have h1 : (gammaGoldenApply g player x y).1 = false := by
      rw [happly, if_pos hcond]
    have h2 : (gammaGoldenApply g player x y).2 =
        gammaGoldenRevert (reindex_areas g1).1 prev x y := by
      rw [happly, if_pos hcond]
    set gr1 := updBoard (reindex_areas g1).1 y x (fun f => { f with player := prev })
      with hgr1
    have hrev : gammaGoldenRevert (reindex_areas g1).1 prev x y = (reindex_areas gr1).1 := by
      rw [gammaGoldenRevert, hgr1]
    rw [hrev] at h2
    have hgr1b_ne : ∀ c : Pos, c ≠ (y, x) →
        gr1.board c.1 c.2 = (reindex_areas g1).1.board c.1 c.2 := by
      intro c hc
      rw [hgr1, updBoard_board, if_neg ?_]
      rintro ⟨ha, hb⟩
      apply hc
      obtain ⟨cy, cx⟩ := c
      rw [Prod.mk.injEq]
      exact ⟨ha, hb⟩
    have hgr1b_tf : gr1.board y x =
        { (reindex_areas g1).1.board y x with player := prev } := by
      rw [hgr1, updBoard_board, if_pos ⟨rfl, rfl⟩]
    have hgr1h : gr1.height = g.height := by rw [hgr1, updBoard_height, hr1h]
    have hgr1w : gr1.width = g.width := by rw [hgr1, updBoard_width, hr1w]
    have hgr1n : gr1.players_num = g.players_num := by
      rw [hgr1, updBoard_players_num, hr1n]
    have hgr1m : gr1.max_areas = g.max_areas := by
      rw [hgr1, updBoard_max_areas, hr1m]
    have hgr1o : gr1.occupied_fields = g.occupied_fields := by
      rw [hgr1, updBoard_occupied, hr1o]
    have hgr1pl : gr1.players = (reindex_areas g1).1.players := by
      rw [hgr1, updBoard_players]
    have hobs_gr1 : ObsEq gr1 g := by
      refine ⟨hgr1m, hgr1n, hgr1h, hgr1w, hgr1o, ?_⟩
      intro cy cx
      by_cases hctf : (cy, cx) = (y, x)
      · rw [Prod.mk.injEq] at hctf
        rw [hctf.1, hctf.2]
        constructor
        · show (gr1.board y x).player = prev
          rw [hgr1b_tf]
        · show (gr1.board y x).empty = (g.board y x).empty
          rw [hgr1b_tf]
          show ((reindex_areas g1).1.board y x).empty = (g.board y x).empty
          rw [(hobsR.2.2.2.2.2 y x).2]
          show (g1.board y x).empty = (g.board y x).empty
          rw [hg1b_tf]
      · have hne : ((cy, cx) : Pos) ≠ (y, x) := hctf
        have h1b := hgr1b_ne (cy, cx) hne
        constructor
        · show (gr1.board cy cx).player = (g.board cy cx).player
          rw [h1b]
          rw [(hobsR.2.2.2.2.2 cy cx).1]
          show (g1.board cy cx).player = (g.board cy cx).player
          rw [hg1b_ne (cy, cx) hne]
        · show (gr1.board cy cx).empty = (g.board cy cx).empty
          rw [h1b]
          rw [(hobsR.2.2.2.2.2 cy cx).2]
          show (g1.board cy cx).empty = (g.board cy cx).empty
          rw [hg1b_ne (cy, cx) hne]
    have hov_gr1 : ownersValid gr1 := ownersValid_of_ObsEq hobs_gr1 hov
    have hesp_gr1 : ∀ c ∈ cellsF gr1, (gr1.board c.1 c.2).empty = true →
        parentOf gr1 c = c := by
      intro c hc hce
      have hcg : c ∈ cellsF (reindex_areas g1).1 := by
        rw [cellsF_of_dims_eq hr1h hr1w]
        rw [cellsF_of_ObsEq hobs_gr1] at hc
        exact hc
      by_cases hctf : c = (y, x)
      · exfalso
        have hocc_c : (gr1.board c.1 c.2).empty = false := by
          rw [hctf]
          show (gr1.board y x).empty = false
          rw [hgr1b_tf]
          show ((reindex_areas g1).1.board y x).empty = false
          rw [(hobsR.2.2.2.2.2 y x).2]
          show (g1.board y x).empty = false
          rw [hg1b_tf]
          exact hocc_tf
        rw [hocc_c] at hce
        exact Bool.noConfusion hce
      · rw [hgr1b_ne c hctf] at hce
        show (gr1.board c.1 c.2).parent = c
        rw [hgr1b_ne c hctf]
        exact empty_parent_self hopR hcg hce
    obtain ⟨hobsR2, hfrR2, hareaR2, hflagR2, hufR2, hopR2, hreprR2⟩ :=
      reindex_areas_spec gr1 (by rw [hgr1n]; exact hN) (by rw [hgr1w]; exact hW32)
        (by rw [hgr1h]; exact hH32) hov_gr1 hesp_gr1
    rw [hgr1n] at hareaR2
    have hobsF : ObsEq (reindex_areas gr1).1 g := ObsEq_trans hobsR2 hobs_gr1
    have hccF2 : ∀ q, compCount (reindex_areas gr1).1 q = compCount g q :=
      fun q => compCount_of_ObsEq hobsF q
    have hpcF2 : ∀ q, pcells (reindex_areas gr1).1 q = pcells g q := pcells_of_ObsEq hobsF
    have hbcF2 : ∀ q, borderCells (reindex_areas gr1).1 q = borderCells g q :=
      borderCells_of_ObsEq hobsF
    have hfr2g : ∀ j, ((reindex_areas gr1).1.players j).golden_move_done =
          (g.players j).golden_move_done ∧
        ((reindex_areas gr1).1.players j).occupied_fields =
          (g.players j).occupied_fields ∧
        ((reindex_areas gr1).1.players j).border_empty_fields =
          (g.players j).border_empty_fields := by
      intro j
      rw [hgr1pl] at hfrR2
      refine ⟨(hfrR2 j).1.trans ?_, (hfrR2 j).2.1.trans ?_, (hfrR2 j).2.2.trans ?_⟩
      · exact (hfrRg j).1
      · exact (hfrRg j).2.1
      · exact (hfrRg j).2.2
    have hareas_g : ∀ p, 1 ≤ p → p ≤ g.players_num →
        ((reindex_areas gr1).1.players (p % g.players_num)).areas =
          (g.players (p % g.players_num)).areas := by
      intro p hq1 hq2
      rw [hareaR2 p hq1 hq2]
      have hcgr : compCount gr1 p = compCount g p := compCount_of_ObsEq hobs_gr1 p
      rw [hcgr, (hctr p hq1 hq2).1]
    have hinvF : InvG (reindex_areas gr1).1 := by
      refine ⟨by rw [hobsR2.2.1, hgr1n]; exact hN, by rw [hobsR2.2.2.2.1, hgr1w]; exact hW,
        by rw [hobsR2.2.2.1, hgr1h]; exact hH, by rw [hobsR2.1, hgr1m]; exact hM,
        by rw [hobsR2.2.1, hgr1n]; exact hN32, by rw [hobsR2.2.2.2.1, hgr1w]; exact hW32,
        by rw [hobsR2.2.2.1, hgr1h]; exact hH32, by rw [hobsR2.1, hgr1m]; exact hM32,
        hufR2, hopR2, hreprR2, ownersValid_of_ObsEq hobsF hov, ?_, ?_⟩
      · rw [hobsF.2.2.2.2.1, hocc, occCells_of_ObsEq hobsF]
      · intro p hq1 hq2
        rw [hobsR2.2.1, hgr1n] at hq2
        have hslot : p % (reindex_areas gr1).1.players_num = p % g.players_num := by
          rw [hobsR2.2.1, hgr1n]
        rw [hslot]
        refine ⟨?_, ?_, ?_, ?_⟩
        · rw [hareaR2 p hq1 hq2, hccF2 p, compCount_of_ObsEq hobs_gr1 p]
        · intro hsm
          rw [hobsF.2.2.2.1, hobsF.2.2.1] at hsm
          rw [hareas_g p hq1 hq2, hobsF.1]
          exact (hctr p hq1 hq2).2.1 hsm
        · rw [(hfr2g (p % g.players_num)).2.1, (hctr p hq1 hq2).2.2.1, hpcF2 p]
        · rw [(hfr2g (p % g.players_num)).2.2, (hctr p hq1 hq2).2.2.2, hbcF2 p]
    refine ⟨?_, ?_, ?_⟩
    · rw [h2]
      exact hinvF
    · intro hmm
      rw [h2]
      refine ⟨hobsF, ?_⟩
      intro p hq1 hq2
      exact ⟨(hfr2g (p % g.players_num)).1, hareas_g p hq1 hq2,
        (hfr2g (p % g.players_num)).2.1, (hfr2g (p % g.players_num)).2.2⟩
    · intro htt
      rw [h1] at htt
      exact Bool.noConfusion htt

/-- `gamma_golden_move` on a non-NULL game: invariant preservation plus the
failure frame and the success effects. -/
theorem gammaGoldenMoveG_spec (g : Game) (player x y : Nat) (hinv : InvG g) :
    InvG (gammaGoldenMoveG g player x y).2 ∧
    ((gammaGoldenMoveG g player x y).1 = false →
      ObsEq (gammaGoldenMoveG g player x y).2 g ∧
      ∀ p, 1 ≤ p → p ≤ g.players_num →
        ((gammaGoldenMoveG g player x y).2.players (p % g.players_num)).golden_move_done =
          (g.players (p % g.players_num)).golden_move_done ∧
        ((gammaGoldenMoveG g player x y).2.players (p % g.players_num)).areas =
          (g.players (p % g.players_num)).areas ∧
        ((gammaGoldenMoveG g player x y).2.players (p % g.players_num)).occupied_fields =
          (g.players (p % g.players_num)).occupied_fields ∧
        ((gammaGoldenMoveG g player x y).2.players
            (p % g.players_num)).border_empty_fields =
          (g.players (p % g.players_num)).border_empty_fields) ∧
    ((gammaGoldenMoveG g player x y).1 = true →
      (gammaGoldenMoveG g player x y).2.occupied_fields = g.occupied_fields ∧
      ((gammaGoldenMoveG g player x y).2.players
          ((g.board y x).player % g.players_num)).occupied_fields =
        (g.players ((g.board y x).player % g.players_num)).occupied_fields - 1 ∧
      ((gammaGoldenMoveG g player x y).2.players (player % g.players_num)).occupied_fields =
        (g.players (player % g.players_num)).occupied_fields + 1 ∧
      ((gammaGoldenMoveG g player x y).2.players (player % g.players_num)).golden_move_done =
        true) := by
  by_cases himp : goldenImpossibleG g player x y = true
  · have h2 : gammaGoldenMoveG g player x y = (false, g) := by
      rw [gammaGoldenMoveG, if_pos himp]
    rw [h2]
    refine ⟨hinv, ?_, ?_⟩
    · intro hmm
      exact ⟨ObsEq_refl g, fun p _ _ => ⟨rfl, rfl, rfl, rfl⟩⟩
    · intro hff
      exact Bool.noConfusion hff
  · rw [Bool.not_eq_true] at himp
    have h2 : gammaGoldenMoveG g player x y = gammaGoldenApply g player x y := by
      rw [gammaGoldenMoveG, if_neg (by rw [himp]; exact Bool.noConfusion)]
    rw [h2]
    exact gammaGoldenApply_spec g player x y hinv himp

/-- `gamma_move` preserves the master invariant. -/
theorem gammaMoveG_InvG (g : Game) (player x y : Nat) (hinv : InvG g) :
    InvG (gammaMoveG g player x y).2 := by
  by_cases hval : moveArgumentsValidG g player x y = true
  · rw [gammaMoveG_snd_valid g player x y hval]
    exact gammaMoveApply_InvG g player x y hinv ((moveArgumentsValidG_iff g player x y).mp hval)
  · rw [Bool.not_eq_true] at hval
    rw [gammaMoveG_snd_invalid g player x y hval]
    exact hinv

/-- A fresh game satisfies the master invariant. -/
theorem gammaNewG_InvG (width height players areas : Nat)
    (hw : 0 < width) (hh : 0 < height) (hp : 0 < players) (ha : 0 < areas)
    (hw32 : width < U32) (hh32 : height < U32) (hp32 : players < U32)
    (ha32 : areas < U32) :
    InvG (gammaNewG width height players areas) := by
  have hpcells : ∀ p, pcells (gammaNewG width height players areas) p = ∅ := by
    intro p
    ext c
    rw [mem_pcells]
    simp [gammaNewG]
  have hcomp : ∀ p, compCount (gammaNewG width height players areas) p = 0 := by
    intro p
    rw [compCount, components, hpcells, Finset.image_empty, Finset.card_empty]
  have hoccC : occCells (gammaNewG width height players areas) = ∅ := by
    ext c
    rw [mem_occCells]
    simp [gammaNewG]
  have hbord : ∀ p, borderCells (gammaNewG width height players areas) p = ∅ := by
    intro p
    ext c
    rw [mem_borderCells]
    simp [gammaNewG, inPB]
  refine ⟨hp, hw, hh, ha, hp32, hw32, hh32, ha32, ?_, ?_, ?_, ?_, ?_, ?_⟩
  · constructor
    · intro c hc
      exact hc
    · intro c hc
      exact ⟨0, rfl⟩
  · intro c hc hne
    exact absurd rfl hne
  · intro p a ha' b hb
    rw [hpcells] at ha'
    exact absurd ha' (Finset.not_mem_empty a)
  · intro c hc hce
    exact Bool.noConfusion hce
  · rw [hoccC]
    rfl
  · intro p hp1 hp2
    refine ⟨?_, ?_, ?_, ?_⟩
    · rw [hcomp]
      rfl
    · intro hsm
      exact Nat.zero_le _
    · rw [hpcells]
      rfl
    · rw [hbord]
      rfl

/-- Every reachable game state satisfies the master invariant. -/
theorem Reachable_InvG {g : Game} (h : Reachable g) : InvG g := by
  induction h with
  | new width height players areas hw hh hp ha hw32 hh32 hp32 ha32 =>
    exact gammaNewG_InvG width height players areas hw hh hp ha hw32 hh32 hp32 ha32
  | move g player x y h ih => exact gammaMoveG_InvG g player x y ih
  | golden g player x y h ih => exact (gammaGoldenMoveG_spec g player x y ih).1

/-! ### Claims C1, C2, C5, C6 -/

/-- C1: on a reachable state, if `gamma_move` or `gamma_golden_move` returns
false, then every player's counters (occupied_fields, border_empty_fields,
areas, golden_move_done), the global occupied_fields total, and every cell's
owner and emptiness flag are identical to their values before the call; in
particular the golden move's revert branch (restore the previous owner,
rerun the reindex) restores all of these. -/
theorem claim_C1_failed_calls (g : Game) (h : Reachable g) (player x y : Nat) :
    ((gammaMoveG g player x y).1 = false →
      ObsEq (gammaMoveG g player x y).2 g ∧
      ∀ p, 1 ≤ p → p ≤ g.players_num →
        ((gammaMoveG g player x y).2.players (p % g.players_num)).golden_move_done =
          (g.players (p % g.players_num)).golden_move_done ∧
        ((gammaMoveG g player x y).2.players (p % g.players_num)).areas =
          (g.players (p % g.players_num)).areas ∧
        ((gammaMoveG g player x y).2.players (p % g.players_num)).occupied_fields =
          (g.players (p % g.players_num)).occupied_fields ∧
        ((gammaMoveG g player x y).2.players (p % g.players_num)).border_empty_fields =
          (g.players (p % g.players_num)).border_empty_fields) ∧
    ((gammaGoldenMoveG g player x y).1 = false →
      ObsEq (gammaGoldenMoveG g player x y).2 g ∧
      ∀ p, 1 ≤ p → p ≤ g.players_num →
        ((gammaGoldenMoveG g player x y).2.players (p % g.players_num)).golden_move_done =
          (g.players (p % g.players_num)).golden_move_done ∧
        ((gammaGoldenMoveG g player x y).2.players (p % g.players_num)).areas =
          (g.players (p % g.players_num)).areas ∧
        ((gammaGoldenMoveG g player x y).2.players (p % g.players_num)).occupied_fields =
          (g.players (p % g.players_num)).occupied_fields ∧
        ((gammaGoldenMoveG g player x y).2.players
            (p % g.players_num)).border_empty_fields =
          (g.players (p % g.players_num)).border_empty_fields) := by
  constructor
  · intro hf
    rw [gammaMoveG_fst] at hf
    rw [gammaMoveG_snd_invalid g player x y hf]
    exact ⟨ObsEq_refl g, fun p _ _ => ⟨rfl, rfl, rfl, rfl⟩⟩
  · exact (gammaGoldenMoveG_spec g player x y (Reachable_InvG h)).2.1

theorem claim_C1_failed_calls_witness :
    Reachable (gammaNewG 2 2 2 2) ∧
    (((gammaMoveG (gammaNewG 2 2 2 2) 3 0 0).1 = false →
      ObsEq (gammaMoveG (gammaNewG 2 2 2 2) 3 0 0).2 (gammaNewG 2 2 2 2) ∧
      ∀ p, 1 ≤ p → p ≤ (gammaNewG 2 2 2 2).players_num →
        ((gammaMoveG (gammaNewG 2 2 2 2) 3 0 0).2.players
            (p % (gammaNewG 2 2 2 2).players_num)).golden_move_done =
          ((gammaNewG 2 2 2 2).players
            (p % (gammaNewG 2 2 2 2).players_num)).golden_move_done ∧
        ((gammaMoveG (gammaNewG 2 2 2 2) 3 0 0).2.players
            (p % (gammaNewG 2 2 2 2).players_num)).areas =
          ((gammaNewG 2 2 2 2).players (p % (gammaNewG 2 2 2 2).players_num)).areas ∧
        ((gammaMoveG (gammaNewG 2 2 2 2) 3 0 0).2.players
            (p % (gammaNewG 2 2 2 2).players_num)).occupied_fields =
          ((gammaNewG 2 2 2 2).players
            (p % (gammaNewG 2 2 2 2).players_num)).occupied_fields ∧
        ((gammaMoveG (gammaNewG 2 2 2 2) 3 0 0).2.players
            (p % (gammaNewG 2 2 2 2).players_num)).border_empty_fields =
          ((gammaNewG 2 2 2 2).players
            (p % (gammaNewG 2 2 2 2).players_num)).border_empty_fields) ∧
    ((gammaGoldenMoveG (gammaNewG 2 2 2 2) 3 0 0).1 = false →
      ObsEq (gammaGoldenMoveG (gammaNewG 2 2 2 2) 3 0 0).2 (gammaNewG 2 2 2 2) ∧
      ∀ p, 1 ≤ p → p ≤ (gammaNewG 2 2 2 2).players_num →
        ((gammaGoldenMoveG (gammaNewG 2 2 2 2) 3 0 0).2.players
            (p % (gammaNewG 2 2 2 2).players_num)).golden_move_done =
          ((gammaNewG 2 2 2 2).players
            (p % (gammaNewG 2 2 2 2).players_num)).golden_move_done ∧
        ((gammaGoldenMoveG (gammaNewG 2 2 2 2) 3 0 0).2.players
            (p % (gammaNewG 2 2 2 2).players_num)).areas =
          ((gammaNewG 2 2 2 2).players (p % (gammaNewG 2 2 2 2).players_num)).areas ∧
        ((gammaGoldenMoveG (gammaNewG 2 2 2 2) 3 0 0).2.players
            (p % (gammaNewG 2 2 2 2).players_num)).occupied_fields =
          ((gammaNewG 2 2 2 2).players
            (p % (gammaNewG 2 2 2 2).players_num)).occupied_fields ∧
        ((gammaGoldenMoveG (gammaNewG 2 2 2 2) 3 0 0).2.players
            (p % (gammaNewG 2 2 2 2).players_num)).border_empty_fields =
          ((gammaNewG 2 2 2 2).players
            (p % (gammaNewG 2 2 2 2).players_num)).border_empty_fields)) := by
  have hreach : Reachable (gammaNewG 2 2 2 2) :=
    Reachable.new 2 2 2 2 (by decide) (by decide) (by decide) (by decide) (by decide)
      (by decide) (by decide) (by decide)
  exact ⟨hreach, claim_C1_failed_calls (gammaNewG 2 2 2 2) hreach 3 0 0⟩

/-- C2 (corrected): on every reachable state whose board has fewer than 2^32
cells, each valid player's stored `areas` counter equals the exact number of
distinct 4-connected monochromatic components of that player's cells, and
that number is at most `max_areas`.  The claim's unqualified form fails on
boards with at least 2^32 cells, where the `uint32_t` area counter wraps. -/
theorem claim_C2_areas_correct (g : Game) (h : Reachable g)
    (hsize : g.width * g.height < U32) (p : Nat) (hp1 : 1 ≤ p)
    (hp2 : p ≤ g.players_num) :
    (g.players (p % g.players_num)).areas = compCount g p ∧
    compCount g p ≤ g.max_areas := by
  obtain ⟨-, -, -, -, -, -, -, -, -, -, -, -, -, hctr⟩ := Reachable_InvG h
  have hcc_lt : compCount g p < U32 := by
    have h1 := compCount_le_pcells g p
    have h2 := card_le_cells (pcells_subset_cellsF g p)
    have h3 : g.height * g.width < U32 := by rw [Nat.mul_comm]; exact hsize
    omega
  have ha := (hctr p hp1 hp2).1
  rw [Nat.mod_eq_of_lt hcc_lt] at ha
  refine ⟨ha, ?_⟩
  have hb := (hctr p hp1 hp2).2.1 hsize
  rw [ha] at hb
  exact hb

theorem claim_C2_areas_correct_witness :
    Reachable (gammaNewG 2 2 1 1) ∧
    (gammaNewG 2 2 1 1).width * (gammaNewG 2 2 1 1).height < U32 ∧ 1 ≤ 1 ∧
    1 ≤ (gammaNewG 2 2 1 1).players_num ∧
    (((gammaNewG 2 2 1 1).players (1 % (gammaNewG 2 2 1 1).players_num)).areas =
        compCount (gammaNewG 2 2 1 1) 1 ∧
      compCount (gammaNewG 2 2 1 1) 1 ≤ (gammaNewG 2 2 1 1).max_areas) := by
  have hreach : Reachable (gammaNewG 2 2 1 1) :=
    Reachable.new 2 2 1 1 (by decide) (by decide) (by decide) (by decide) (by decide)
      (by decide) (by decide) (by decide)
  exact ⟨hreach, by decide, by decide, by decide,
    claim_C2_areas_correct (gammaNewG 2 2 1 1) hreach (by decide) 1 (by decide) (by decide)⟩

/-- C5: on every reachable state, each valid player's
`border_empty_fields` counter equals the number of empty cells with at least
one 4-neighbour owned by that player. -/
theorem claim_C5_border_counts (g : Game) (h : Reachable g) (p : Nat)
    (hp1 : 1 ≤ p) (hp2 : p ≤ g.players_num) :
    (g.players (p % g.players_num)).border_empty_fields = (borderCells g p).card := by
  obtain ⟨-, -, -, -, -, -, -, -, -, -, -, -, -, hctr⟩ := Reachable_InvG h
  exact (hctr p hp1 hp2).2.2.2

theorem claim_C5_border_counts_witness :
    Reachable (gammaNewG 1 1 1 1) ∧ 1 ≤ 1 ∧ 1 ≤ (gammaNewG 1 1 1 1).players_num ∧
    ((gammaNewG 1 1 1 1).players
        (1 % (gammaNewG 1 1 1 1).players_num)).border_empty_fields =
      (borderCells (gammaNewG 1 1 1 1) 1).card := by
  have hreach : Reachable (gammaNewG 1 1 1 1) :=
    Reachable.new 1 1 1 1 (by decide) (by decide) (by decide) (by decide) (by decide)
      (by decide) (by decide) (by decide)
  exact ⟨hreach, by decide, by decide,
    claim_C5_border_counts (gammaNewG 1 1 1 1) hreach 1 (by decide) (by decide)⟩

/-- The two-move demonstration state for the golden-move success claim:
player 1 owns (0,0) and player 2 owns (1,1) on a 2 by 2 board. -/
def goldenDemo2 : Game :=
  (gammaMoveG ((gammaMoveG (gammaNewG 2 2 2 2) 1 0 0).2) 2 1 1).2

/-- C6: whenever `gamma_golden_move` succeeds on a reachable state, the
global occupied_fields total is unchanged, the previous owner's busy-field
counter decreases by exactly 1, the player's increases by exactly 1, and the
player's golden_move_done flag becomes true. -/
theorem claim_C6_golden_success (g : Game) (h : Reachable g) (player x y : Nat)
    (hs : (gammaGoldenMoveG g player x y).1 = true) :
    (gammaGoldenMoveG g player x y).2.occupied_fields = g.occupied_fields ∧
    ((gammaGoldenMoveG g player x y).2.players
        ((g.board y x).player % g.players_num)).occupied_fields =
      (g.players ((g.board y x).player % g.players_num)).occupied_fields - 1 ∧
    ((gammaGoldenMoveG g player x y).2.players (player % g.players_num)).occupied_fields =
      (g.players (player % g.players_num)).occupied_fields + 1 ∧
    ((gammaGoldenMoveG g player x y).2.players (player % g.players_num)).golden_move_done =
      true :=
  (gammaGoldenMoveG_spec g player x y (Reachable_InvG h)).2.2 hs

theorem claim_C6_golden_success_witness :
    Reachable goldenDemo2 ∧ (gammaGoldenMoveG goldenDemo2 2 0 0).1 = true ∧
    ((gammaGoldenMoveG goldenDemo2 2 0 0).2.occupied_fields =
        goldenDemo2.occupied_fields ∧
      ((gammaGoldenMoveG goldenDemo2 2 0 0).2.players
          ((goldenDemo2.board 0 0).player % goldenDemo2.players_num)).occupied_fields =
        (goldenDemo2.players
          ((goldenDemo2.board 0 0).player % goldenDemo2.players_num)).occupied_fields - 1 ∧
      ((gammaGoldenMoveG goldenDemo2 2 0 0).2.players
          (2 % goldenDemo2.players_num)).occupied_fields =
        (goldenDemo2.players (2 % goldenDemo2.players_num)).occupied_fields + 1 ∧
      ((gammaGoldenMoveG goldenDemo2 2 0 0).2.players
          (2 % goldenDemo2.players_num)).golden_move_done = true) := by
  have hreach : Reachable goldenDemo2 :=
    Reachable.move _ 2 1 1 (Reachable.move _ 1 0 0
      (Reachable.new 2 2 2 2 (by decide) (by decide) (by decide) (by decide) (by decide)
        (by decide) (by decide) (by decide)))
  exact ⟨hreach, by decide, claim_C6_golden_success goldenDemo2 hreach 2 0 0 (by decide)⟩

/-! ### Claim C8: the board rendering -/

theorem digitChar_ne_newline (m : Nat) : Nat.digitChar m ≠ '\n' := by
  by_cases h : m < 16
  · interval_cases m <;> decide
  · have hstar : Nat.digitChar m = '*' := by
      unfold Nat.digitChar
      repeat rw [if_neg (by omega)]
    rw [hstar]
    decide

theorem toDigitsCore_no_newline : ∀ (fuel b n : Nat) (acc : List Char),
    (∀ c ∈ acc, c ≠ '\n') → ∀ c ∈ Nat.toDigitsCore b fuel n acc, c ≠ '\n' := by
  intro fuel
  induction fuel with
  | zero =>
    intro b n acc hacc c hc
    exact hacc c hc
  | succ fuel ih =>
    intro b n acc hacc c hc
    rw [Nat.toDigitsCore] at hc
    by_cases hz : n / b = 0
    · rw [if_pos hz] at hc
      rcases List.mem_cons.mp hc with rfl | hmem
      · exact digitChar_ne_newline _
      · exact hacc c hmem
    · rw [if_neg hz] at hc
      refine ih b (n / b) _ ?_ c hc
      intro d hd
      rcases List.mem_cons.mp hd with rfl | hmem
      · exact digitChar_ne_newline _
      · exact hacc d hmem

theorem repr_no_newline (n : Nat) : ∀ c ∈ (Nat.repr n).data, c ≠ '\n' := by
  intro c hc
  rw [Nat.repr, Nat.toDigits] at hc
  exact toDigitsCore_no_newline _ _ _ []
    (by intro d hd; exact absurd hd (List.not_mem_nil d)) c hc

theorem padLeft_no_newline {s : String} (w : Nat) (hs : ∀ c ∈ s.data, c ≠ '\n') :
    ∀ c ∈ (padLeft w s).data, c ≠ '\n' := by
  intro c hc
  rw [padLeft, String.data_append] at hc
  rcases List.mem_append.mp hc with hrep | hmem
  · have := List.eq_of_mem_replicate hrep
    rw [this]
    decide
  · exact hs c hmem

theorem render_no_newline (g : Game) (x y w : Nat) :
    ∀ c ∈ (gamma_render_field g x y w).1.data, c ≠ '\n' := by
  have hcell : (gamma_render_field g x y w).1 =
      if (g.board y x).empty then padLeft w "." else
        padLeft w (Nat.repr (g.board y x).player) := rfl
  rw [hcell]
  by_cases he : (g.board y x).empty = true
  · rw [if_pos he]
    refine padLeft_no_newline w ?_
    intro c hc
    have hd : ".".data = ['.'] := rfl
    rw [hd] at hc
    rw [List.mem_singleton.mp hc]
    decide
  · rw [Bool.not_eq_true] at he
    rw [if_neg (by rw [he]; exact Bool.noConfusion)]
    exact padLeft_no_newline w (repr_no_newline _)

theorem boardRow_newlines (g : Game) (fcw fw y : Nat) :
    (boardRow g fcw fw y).data.count '\n' = 1 := by
  rw [boardRow, String.data_append, List.count_append]
  have hbody : ∀ (l : List Nat) (s : String), s.data.count '\n' = 0 →
      ((l.foldl (fun s x => s ++ (gamma_render_field g x y
        (if x = 0 then fcw else fw)).1) s).data).count '\n' = 0 := by
    intro l
    induction l with
    | nil =>
      intro s hs
      exact hs
    | cons a t ih =>
      intro s hs
      rw [List.foldl_cons]
      refine ih _ ?_
      rw [String.data_append, List.count_append, hs]
      have hz : ((gamma_render_field g a y (if a = 0 then fcw else fw)).1.data).count '\n'
          = 0 := by
        rw [List.count_eq_zero]
        intro hmem
        exact render_no_newline g a y _ '\n' hmem rfl
      rw [hz]
  rw [hbody (List.range g.width) "" rfl]
  decide

theorem gammaBoardG_newlines (g : Game) : (gammaBoardG g).data.count '\n' = g.height := by
  show (((List.range g.height).reverse).foldl (fun s y => s ++ boardRow g
    (gamma_rendered_fields_width g).1 (gamma_rendered_fields_width g).2 y) "").data.count
      '\n' = g.height
  have hfold : ∀ (l : List Nat) (s : String),
      ((l.foldl (fun s y => s ++ boardRow g (gamma_rendered_fields_width g).1
        (gamma_rendered_fields_width g).2 y) s).data).count '\n' =
      s.data.count '\n' + l.length := by
    intro l
    induction l with
    | nil =>
      intro s
      rw [List.foldl_nil, List.length_nil, Nat.add_zero]
    | cons a t ih =>
      intro s
      rw [List.foldl_cons, ih, String.data_append, List.count_append,
        boardRow_newlines, List.length_cons]
      omega
  rw [hfold, List.length_reverse, List.length_range]
  have h0 : List.count '\n' "".data = 0 := rfl
  rw [h0]
  omega

/-- The maximum player id appearing on the board (1 on an empty board),
following the claim's words. -/
def claimMaxIdC8 (g : Game) : Nat :=
  max 1 ((occCells g).sup (fun c => (g.board c.1 c.2).player))

/-- The maximum player id appearing in column 0 (1 if column 0 is all
empty), following the claim's words. -/
def claimCol0MaxC8 (g : Game) : Nat :=
  max 1 (((Finset.range g.height).filter (fun r => (g.board r 0).empty = false)).sup
    (fun r => (g.board r 0).player))

/-- The claim's field width for columns 1 and onward: 1 when the maximum
on-board id has one decimal digit, and the id width plus one otherwise. -/
def claimFwC8 (g : Game) : Nat :=
  if get_uint_length (claimMaxIdC8 g) = 1 then 1 else get_uint_length (claimMaxIdC8 g) + 1

/-- The claim's field width for column 0: the decimal width of the maximum
player id appearing in column 0. -/
def claimFcwC8 (g : Game) : Nat := get_uint_length (claimCol0MaxC8 g)

/-- One cell of the claim's board string: '.' if empty, the decimal owner id
otherwise, right-aligned in the column's field width. -/
def claimCellC8 (g : Game) (fcw fw x y : Nat) : String :=
  padLeft (if x = 0 then fcw else fw)
    (if (g.board y x).empty then "." else Nat.repr (g.board y x).player)

/-- One row of the claim's board string: columns ascending from `x = 0` to
`width - 1`, terminated by a newline. -/
def claimRowC8 (g : Game) (fcw fw y : Nat) : String :=
  ((List.range g.width).foldl (fun s x => s ++ claimCellC8 g fcw fw x y) "") ++ "\n"

/-- The board string described by the claim: rows from `y = height - 1` down
to `y = 0`, rendered with the claim's width policy. -/
def claimBoardC8 (g : Game) : String :=
  ((List.range g.height).reverse).foldl
    (fun s y => s ++ claimRowC8 g (claimFcwC8 g) (claimFwC8 g) y) ""

theorem col0_fold_eq (g : Game) : ∀ (n : Nat) (acc : Nat),
    (List.range n).foldl (fun acc r =>
      if !(g.board r 0).empty ∧ acc < (g.board r 0).player then (g.board r 0).player
      else acc) acc =
    max acc (((Finset.range n).filter (fun r => (g.board r 0).empty = false)).sup
      (fun r => (g.board r 0).player)) := by
  intro n
  induction n with
  | zero =>
    intro acc
    simp
  | succ n ih =>
    intro acc
    rw [List.range_succ, List.foldl_append, List.foldl_cons, List.foldl_nil, ih,
      Finset.range_succ, Finset.filter_insert]
    by_cases hocc : (g.board n 0).empty = false
    · rw [if_pos hocc, Finset.sup_insert]
      have hb : (!(g.board n 0).empty) = true := by rw [hocc]; rfl
      by_cases hlt : max acc (((Finset.range n).filter
          (fun r => (g.board r 0).empty = false)).sup (fun r => (g.board r 0).player)) <
          (g.board n 0).player
      · rw [if_pos ⟨hb, hlt⟩]
        omega
      · rw [if_neg (by rintro ⟨-, hl⟩; exact hlt hl)]
        omega
    · have hb : ¬((!(g.board n 0).empty) = true ∧ max acc (((Finset.range n).filter
          (fun r => (g.board r 0).empty = false)).sup (fun r => (g.board r 0).player)) <
          (g.board n 0).player) := by
        rintro ⟨hb1, -⟩
        rw [Bool.not_eq_true'] at hb1
        exact hocc hb1
      rw [if_neg hb, if_neg hocc]

theorem players_fold_eq (g : Game) : ∀ (n : Nat) (acc : Nat),
    (List.range n).foldl (fun acc i =>
      let p := i + 1
      if 0 < (g.players (p % g.players_num)).occupied_fields ∧ acc < p then p
      else acc) acc =
    max acc (((Finset.range n).filter
      (fun i => 0 < (g.players ((i + 1) % g.players_num)).occupied_fields)).sup
      (fun i => i + 1)) := by
  intro n
  induction n with
  | zero =>
    intro acc
    simp
  | succ n ih =>
    intro acc
    rw [List.range_succ, List.foldl_append, List.foldl_cons, List.foldl_nil, ih,
      Finset.range_succ, Finset.filter_insert]
    by_cases hocc : 0 < (g.players ((n + 1) % g.players_num)).occupied_fields
    · rw [if_pos hocc, Finset.sup_insert]
      show (if 0 < (g.players ((n + 1) % g.players_num)).occupied_fields ∧
          max acc (((Finset.range n).filter (fun i =>
            0 < (g.players ((i + 1) % g.players_num)).occupied_fields)).sup
            (fun i => i + 1)) < n + 1 then n + 1
        else max acc (((Finset.range n).filter (fun i =>
            0 < (g.players ((i + 1) % g.players_num)).occupied_fields)).sup
            (fun i => i + 1))) = _
      by_cases hlt : max acc (((Finset.range n).filter (fun i =>
          0 < (g.players ((i + 1) % g.players_num)).occupied_fields)).sup
          (fun i => i + 1)) < n + 1
      · rw [if_pos ⟨hocc, hlt⟩]
        omega
      · rw [if_neg (by rintro ⟨-, hl⟩; exact hlt hl)]
        omega
    · show (if 0 < (g.players ((n + 1) % g.players_num)).occupied_fields ∧
          max acc (((Finset.range n).filter (fun i =>
            0 < (g.players ((i + 1) % g.players_num)).occupied_fields)).sup
            (fun i => i + 1)) < n + 1 then n + 1
        else max acc (((Finset.range n).filter (fun i =>
            0 < (g.players ((i + 1) % g.players_num)).occupied_fields)).sup
            (fun i => i + 1))) = _
      rw [if_neg (by rintro ⟨h1, -⟩; exact hocc h1), if_neg hocc]

theorem maxid_eq (g : Game) (hinv : InvG g) :
    max 1 (((Finset.range g.players_num).filter
      (fun i => 0 < (g.players ((i + 1) % g.players_num)).occupied_fields)).sup
      (fun i => i + 1)) = claimMaxIdC8 g := by
  obtain ⟨-, -, -, -, -, -, -, -, -, -, -, hov, -, hctr⟩ := hinv
  rw [claimMaxIdC8]
  congr 1
  apply le_antisymm
  · refine Finset.sup_le ?_
    intro i hi
    rw [Finset.mem_filter, Finset.mem_range] at hi
    have hocc := hi.2
    rw [(hctr (i + 1) (by omega) (by omega)).2.2.1] at hocc
    obtain ⟨c, hc⟩ := Finset.card_pos.mp hocc
    have hcell := (mem_pcells g (i + 1) c).mp hc
    have hmem : c ∈ occCells g := (mem_occCells g c).mpr ⟨hcell.1, hcell.2.1, hcell.2.2.1⟩
    have hle : (g.board c.1 c.2).player ≤
        (occCells g).sup (fun c => (g.board c.1 c.2).player) :=
      Finset.le_sup (f := fun c => (g.board c.1 c.2).player) hmem
    rw [hcell.2.2.2] at hle
    exact hle
  · refine Finset.sup_le ?_
    intro c hc
    have hcell := (mem_occCells g c).mp hc
    have hvr := hov c ((mem_cellsF g c).mpr ⟨hcell.1, hcell.2.1⟩) hcell.2.2
    set pc := (g.board c.1 c.2).player with hpc
    have hi : pc - 1 ∈ (Finset.range g.players_num).filter
        (fun i => 0 < (g.players ((i + 1) % g.players_num)).occupied_fields) := by
      rw [Finset.mem_filter, Finset.mem_range]
      have hpc1 : pc - 1 + 1 = pc := by omega
      constructor
      · omega
      · rw [hpc1, (hctr pc hvr.1 hvr.2).2.2.1]
        refine Finset.card_pos.mpr ⟨c, ?_⟩
        rw [mem_pcells]
        exact ⟨hcell.1, hcell.2.1, hcell.2.2, hpc.symm⟩
    have hle : pc - 1 + 1 ≤ ((Finset.range g.players_num).filter
        (fun i => 0 < (g.players ((i + 1) % g.players_num)).occupied_fields)).sup
        (fun i => i + 1) :=
      Finset.le_sup (f := fun i => i + 1) hi
    have hpc1 : pc - 1 + 1 = pc := by omega
    rw [hpc1] at hle
    exact hle

theorem rendered_width_claim (g : Game) (hinv : InvG g) :
    gamma_rendered_fields_width g = (claimFcwC8 g, claimFwC8 g) := by
  show (get_uint_length ((List.range g.height).foldl (fun acc r =>
      if !(g.board r 0).empty ∧ acc < (g.board r 0).player then (g.board r 0).player
      else acc) 1),
    if get_uint_length ((List.range g.players_num).foldl (fun acc i =>
        let p := i + 1
        if 0 < (g.players (p % g.players_num)).occupied_fields ∧ acc < p then p
        else acc) 1) = 1 then 1
    else get_uint_length ((List.range g.players_num).foldl (fun acc i =>
        let p := i + 1
        if 0 < (g.players (p % g.players_num)).occupied_fields ∧ acc < p then p
        else acc) 1) + 1) = (claimFcwC8 g, claimFwC8 g)
  rw [col0_fold_eq g g.height 1, players_fold_eq g g.players_num 1,
    maxid_eq g hinv, claimFcwC8, claimFwC8, claimCol0MaxC8]

theorem foldl_str_congr {α : Type} (cell1 cell2 : α → String)
    (hc : ∀ a, cell1 a = cell2 a) :
    ∀ (l : List α) (s : String),
    l.foldl (fun s x => s ++ cell1 x) s = l.foldl (fun s x => s ++ cell2 x) s := by
  intro l
  induction l with
  | nil =>
    intro s
    rfl
  | cons a t ih =>
    intro s
    rw [List.foldl_cons, List.foldl_cons, hc a, ih]

theorem boards_eq (g : Game)
    (hw : gamma_rendered_fields_width g = (claimFcwC8 g, claimFwC8 g)) :
    gammaBoardG g = claimBoardC8 g := by
  have h1 : (gamma_rendered_fields_width g).1 = claimFcwC8 g := by rw [hw]
  have h2 : (gamma_rendered_fields_width g).2 = claimFwC8 g := by rw [hw]
  have hrow : ∀ y, boardRow g (claimFcwC8 g) (claimFwC8 g) y =
      claimRowC8 g (claimFcwC8 g) (claimFwC8 g) y := by
    intro y
    rw [boardRow, claimRowC8]
    congr 1
    refine foldl_str_congr
      (fun x => (gamma_render_field g x y (if x = 0 then claimFcwC8 g else claimFwC8 g)).1)
      (fun x => claimCellC8 g (claimFcwC8 g) (claimFwC8 g) x y) ?_ (List.range g.width) ""
    intro a
    show (gamma_render_field g a y (if a = 0 then claimFcwC8 g else claimFwC8 g)).1 =
      claimCellC8 g (claimFcwC8 g) (claimFwC8 g) a y
    rw [claimCellC8]
    show (if (g.board y a).empty then
        padLeft (if a = 0 then claimFcwC8 g else claimFwC8 g) "."
      else padLeft (if a = 0 then claimFcwC8 g else claimFwC8 g)
        (Nat.repr (g.board y a).player)) = _
    exact (apply_ite (padLeft (if a = 0 then claimFcwC8 g else claimFwC8 g)) _ _ _).symm
  show ((List.range g.height).reverse).foldl (fun s y => s ++ boardRow g
    (gamma_rendered_fields_width g).1 (gamma_rendered_fields_width g).2 y) "" = _
  rw [h1, h2, claimBoardC8]
  exact foldl_str_congr (fun y => boardRow g (claimFcwC8 g) (claimFwC8 g) y)
    (fun y => claimRowC8 g (claimFcwC8 g) (claimFwC8 g) y) hrow
    (List.range g.height).reverse ""

/-- C8: on every reachable state (allocation modelled as succeeding),
`gamma_board` returns exactly the string described by the claim: `height`
lines, each terminated by a newline, rows from `y = height - 1` down to
`y = 0`, columns ascending, each cell right-aligned ('.' if empty, the
decimal owner id otherwise) in a field of width 1 when the maximum on-board
player id has one decimal digit, and otherwise of width `W_id + 1` for every
column except column 0, which uses the decimal width of the maximum player
id appearing in column 0 (1 if column 0 is all empty). -/
theorem claim_C8_gamma_board (g : Game) (h : Reachable g) :
    gamma_board (some g) = some (claimBoardC8 g) ∧
    (gammaBoardG g).data.count '\n' = g.height := by
  have hw := rendered_width_claim g (Reachable_InvG h)
  constructor
  · show some (gammaBoardG g) = some (claimBoardC8 g)
    rw [boards_eq g hw]
  · exact gammaBoardG_newlines g

theorem claim_C8_gamma_board_witness :
    Reachable (gammaNewG 3 2 2 2) ∧
    (gamma_board (some (gammaNewG 3 2 2 2)) = some (claimBoardC8 (gammaNewG 3 2 2 2)) ∧
     (gammaBoardG (gammaNewG 3 2 2 2)).data.count '\n' = (gammaNewG 3 2 2 2).height) := by
  have hreach : Reachable (gammaNewG 3 2 2 2) :=
    Reachable.new 3 2 2 2 (by decide) (by decide) (by decide) (by decide) (by decide)
      (by decide) (by decide) (by decide)
  exact ⟨hreach, claim_C8_gamma_board _ hreach⟩

end Gamma
